import Mathlib

/-!
# dedupd: bit array, fixed-size block pool, byte packing, Robin Hood maps

A shallow embedding of `fixedpool/bitarray/bitarray.go`,
`fixedpool/fixedpool.go`, `util/util.go` and `robin1/robin1.go`, a model of the
map of `robin32` after the specification, and the claims of the specification
about them.

Conventions of the embedding.

* A `uint64` / `uint32` value is a `Nat`; every operation that can leave the
  range of its type is reduced with an explicit `% 2^64` / `% 2^32`.
* A Go `int` is an `Int` of 64 bits; `wrapInt64` is the two's complement
  wrap-around of an arithmetic result.
* A `[]uint64` is a `List Nat`.  The pool's `[]byte` backing buffer is a
  `Bytes`: its length together with the byte stored at each index; a slice of
  it (the result of `Pool.Get`) is the pair of its bounds, since the slice
  aliases the buffer.
* A run-time panic is an `Except.error`, so every operation that can panic
  returns an `Except Panic _`; a panic ends the program, so no state follows it.
* `make` panics on a negative length and on a length whose elements take more
  than `maxAlloc = 2^48` bytes (the "len out of range" check of the runtime on a
  64-bit platform), and succeeds otherwise: below that limit memory is not
  bounded, since running out of memory is a fatal error of the runtime that
  depends on the machine, not a panic.
* A loop is a function that recurses on the number of rounds that are left.

The file has the definitions first (the packages, and the notions the
claims are stated with), then the lemmas and the claims of each package.
-/

set_option maxRecDepth 16384

/-- The run-time panics of the packages. -/
inductive Panic where
  | indexOutOfRange
  | sliceBoundsOutOfRange
  | makeLenOutOfRange
  | divideByZero
  | nBitsTooLarge
  | setLastNExceeds64
  | newPoolIllegalArg
  | zeroPtr
  | alreadyFreed
  | putAssertionFail
  | nUsedMismatch
  deriving DecidableEq, Repr

deriving instance DecidableEq for Except

/-- The constant `maxAlloc` of the Go runtime on a 64-bit platform (48 address
bits): `make` panics with "len out of range" when the elements of the slice
would take more than `maxAlloc` bytes. -/
def maxAlloc : Nat := 2 ^ 48

namespace bitarray

/-- The type `BitArray []uint64`. -/
abbrev BitArray := List Nat

/-- Number of values of a `uint64`. -/
def u64 : Nat := 2 ^ 64

/-- Constant `bpw`: bits per word. -/
def bpw : Nat := 64

/-- Constant `bpwShift`. -/
def bpwShift : Nat := 6

/-- Constant `allFF`: all 64 bits on. -/
def allFF : Nat := 0xFFFFFFFFFFFFFFFF

/-- Constant `NotFound`: an invalid bit index. -/
def NotFound : Nat := allFF

/-- The array is a value of its Go type: every word is a `uint64`, and the
number of bits, `64 * len(ba)`, is a `uint64` as well (an array of `2^58` words
would take `2^61` bytes). -/
def WF (ba : BitArray) : Prop := (∀ w ∈ ba, w < u64) ∧ ba.length * bpw < u64

/-- Function `NewBitArray`.  The word count always fits an `int` of 64 bits, so
the overflow check of the source never fires for a `uint64` argument; `make`
panics when the words, of 8 bytes each, would take more than `maxAlloc` bytes. -/
def NewBitArray (nBits : Nat) : Except Panic BitArray :=
  let nWords := nBits >>> bpwShift
  let nWords := if (nWords <<< bpwShift) % u64 < nBits ∨ nWords = 0 then nWords + 1 else nWords
  if nWords < 2 ^ 63 then
    if 8 * nWords ≤ maxAlloc then Except.ok (List.replicate nWords 0)
    else Except.error Panic.makeLenOutOfRange
  else Except.error Panic.nBitsTooLarge

/-- Method `NumBits`. -/
def NumBits (ba : BitArray) : Nat := (ba.length * bpw) % u64

/-- Function `index2pos`: the word index and the bit mask of a bit index. -/
def index2pos (bitIndex : Nat) : Nat × Nat :=
  let wordIndex := bitIndex >>> bpwShift
  (wordIndex, (1 <<< (bitIndex - (wordIndex <<< bpwShift) % u64)) % u64)

/-- Method `Set`. -/
def Set (ba : BitArray) (bitIndex : Nat) : Except Panic BitArray :=
  let p := index2pos bitIndex
  match ba[p.1]? with
  | none => Except.error Panic.indexOutOfRange
  | some w => Except.ok (ba.set p.1 (w ||| p.2))

/-- The Go operator `&^` on `uint64`. -/
def andNot (w m : Nat) : Nat := w &&& (allFF ^^^ m)

/-- Method `Clear`. -/
def Clear (ba : BitArray) (bitIndex : Nat) : Except Panic BitArray :=
  let p := index2pos bitIndex
  match ba[p.1]? with
  | none => Except.error Panic.indexOutOfRange
  | some w => Except.ok (ba.set p.1 (andNot w p.2))

/-- Method `ClearIfSet`: the new array and the returned flag. -/
def ClearIfSet (ba : BitArray) (bitIndex : Nat) : Except Panic (BitArray × Bool) :=
  let p := index2pos bitIndex
  match ba[p.1]? with
  | none => Except.error Panic.indexOutOfRange
  | some w =>
    if w &&& p.2 ≠ 0 then Except.ok (ba.set p.1 (andNot w p.2), true)
    else Except.ok (ba, false)

/-- Method `IsSet`. -/
def IsSet (ba : BitArray) (bitIndex : Nat) : Except Panic Bool :=
  let p := index2pos bitIndex
  match ba[p.1]? with
  | none => Except.error Panic.indexOutOfRange
  | some w => Except.ok (decide (w &&& p.2 ≠ 0))

/-- Method `ClearAll`. -/
def ClearAll (ba : BitArray) : BitArray := ba.map (fun _ => 0)

/-- Method `SetAll`. -/
def SetAll (ba : BitArray) : BitArray := ba.map (fun _ => allFF)

/-- The loop of `SetLastN`: `n` rounds of `word |= bit; bit >>= 1`. -/
def setLastNLoop : Nat → Nat → Nat → Nat
  | 0, word, _ => word
  | n + 1, word, bit => setLastNLoop n (word ||| bit) (bit >>> 1)

/-- Method `SetLastN`. -/
def SetLastN (ba : BitArray) (n : Nat) : Except Panic BitArray :=
  if n > bpw then Except.error Panic.setLastNExceeds64
  else
    match ba.length with
    | 0 => Except.error Panic.indexOutOfRange
    | k + 1 =>
      match ba[k]? with
      | none => Except.error Panic.indexOutOfRange
      | some word => Except.ok (ba.set k (setLastNLoop n word (2 ^ 63)))

/-- The loop of `findZeroBit`; the first argument bounds the number of rounds,
and `bpw` rounds always suffice because `bitIndex < bpw` is part of the loop
condition. -/
def findZeroBitLoop : Nat → Nat → Nat → Nat
  | 0, _, bitIndex => bitIndex
  | fuel + 1, word, bitIndex =>
    if bitIndex < bpw ∧ word &&& 1 = 1 then findZeroBitLoop fuel (word >>> 1) (bitIndex + 1)
    else bitIndex

/-- Function `findZeroBit`. -/
def findZeroBit (word : Nat) : Nat := findZeroBitLoop bpw word 0

/-- Outcome of the inner loop of `FindZero`. -/
inductive Scan where
  | found (bitIndex : Nat)
  | exhausted
  | outOfRange
  deriving DecidableEq, Repr

/-- The inner loop `for wordIndex < endIndex` of `FindZero`; the first argument
is `endIndex - wordIndex`, the number of rounds left.  Reading a word past the
end of the array panics. -/
def scanWords (ba : BitArray) : Nat → Nat → Scan
  | 0, _ => Scan.exhausted
  | fuel + 1, wordIndex =>
    match ba[wordIndex]? with
    | none => Scan.outOfRange
    | some word =>
      if word ≠ allFF then Scan.found ((wordIndex * bpw + findZeroBit word) % u64)
      else scanWords ba fuel (wordIndex + 1)

/-- Method `FindZero`.  The outer loop runs twice: first over the words
`startIndex ..< len(ba)`, then over `0 ..< startIndex`. -/
def FindZero (ba : BitArray) (fromHint : Nat) : Except Panic Nat :=
  let startIndex := (index2pos fromHint).1
  let startMask := (index2pos fromHint).2
  let endIndex := ba.length
  if startIndex < endIndex ∧ (ba.getD startIndex 0) &&& startMask = 0 then Except.ok fromHint
  else
    match scanWords ba (endIndex - startIndex) startIndex with
    | Scan.found i => Except.ok i
    | Scan.outOfRange => Except.error Panic.indexOutOfRange
    | Scan.exhausted =>
      match scanWords ba (startIndex - 0) 0 with
      | Scan.found i => Except.ok i
      | Scan.outOfRange => Except.error Panic.indexOutOfRange
      | Scan.exhausted => Except.ok NotFound

end bitarray


namespace fixedpool

open bitarray

/-- Number of values of a `uint32`. -/
def u32 : Nat := 2 ^ 32

/-- Two's complement wrap-around of an `int` (64 bits) result. -/
def wrapInt64 (x : Int) : Int := (x + 2 ^ 63) % 2 ^ 64 - 2 ^ 63

/-- The value is an `int` of 64 bits. -/
def IsInt64 (x : Int) : Prop := -(2 ^ 63) ≤ x ∧ x < 2 ^ 63

/-- A `[]byte` buffer: its length and the byte at each index below it. -/
structure Bytes where
  len : Nat
  get : Nat → Nat

/-- Assignment `data[i] = v`. -/
def Bytes.set (d : Bytes) (i v : Nat) : Bytes :=
  { len := d.len, get := fun j => if j = i then v else d.get j }

/-- The type `Pool`. -/
structure Pool where
  blockSize : Int
  nUsed : Int
  data : Bytes
  allocMask : BitArray
  nextAllocIndex : Nat

/-- Function `NewPool`.  `make` panics on a negative length and on a length of
more than `maxAlloc` bytes. -/
def NewPool (blockSize numBlocks : Int) : Except Panic Pool :=
  if numBlocks ≤ 0 ∨ blockSize ≤ 0 then Except.error Panic.newPoolIllegalArg
  else
    let size := wrapInt64 (numBlocks * blockSize)
    if size < 0 ∨ (maxAlloc : Int) < size then Except.error Panic.makeLenOutOfRange
    else
      match NewBitArray (numBlocks.toNat % u64) with
      | Except.error e => Except.error e
      | Except.ok mask =>
        match SetLastN mask ((NumBits mask + u64 - numBlocks.toNat % u64) % u64) with
        | Except.error e => Except.error e
        | Except.ok mask =>
          Except.ok
            { blockSize := blockSize
              nUsed := 0
              data := { len := size.toNat, get := fun _ => 0 }
              allocMask := mask
              nextAllocIndex := 0 }

/-- Method `NumBlocks`; Go's integer division truncates and panics on a zero
divisor. -/
def Pool.NumBlocks (pool : Pool) : Except Panic Int :=
  if pool.blockSize = 0 then Except.error Panic.divideByZero
  else Except.ok (Int.tdiv (pool.data.len : Int) pool.blockSize)

/-- Method `BlockSize`. -/
def Pool.BlockSize (pool : Pool) : Int := pool.blockSize

/-- Method `NumUsed`. -/
def Pool.NumUsed (pool : Pool) : Int := pool.nUsed

/-- Method `NumFree`. -/
def Pool.NumFree (pool : Pool) : Except Panic Int :=
  match pool.NumBlocks with
  | Except.error e => Except.error e
  | Except.ok n => Except.ok (wrapInt64 (n - pool.nUsed))

/-- Method `Get`: the bounds `(offset, offset + bs)` of the returned slice of
`pool.data`, both computed in `uint32`. -/
def Pool.Get (pool : Pool) (ptr : Nat) : Except Panic (Nat × Nat) :=
  if ptr = 0 then Except.error Panic.zeroPtr
  else
    let bs := (pool.blockSize % (2 ^ 32 : Int)).toNat
    let offset := ((ptr - 1) * bs) % u32
    let hi := (offset + bs) % u32
    if offset ≤ hi ∧ hi ≤ pool.data.len then Except.ok (offset, hi)
    else Except.error Panic.sliceBoundsOutOfRange

/-- Method `Alloc`: the new pool and the returned `Ptr`. -/
def Pool.Alloc (pool : Pool) : Except Panic (Pool × Nat) :=
  match FindZero pool.allocMask pool.nextAllocIndex with
  | Except.error e => Except.error e
  | Except.ok freeIndex =>
    if freeIndex = NotFound then Except.ok (pool, 0)
    else
      match bitarray.Set pool.allocMask freeIndex with
      | Except.error e => Except.error e
      | Except.ok mask =>
        Except.ok
          ({ pool with
              allocMask := mask
              nextAllocIndex := (freeIndex + 1) % u64
              nUsed := wrapInt64 (pool.nUsed + 1) },
           (freeIndex % u32 + 1) % u32)

/-- The call `copy(dest[i:], zeros)` for the slice `dest` with bounds
`(lo, hi)`, on the bytes of the buffer: it zeroes `min 128 (len(dest) - i)`
bytes from `dest[i]` on. -/
def copyZeros (get : Nat → Nat) (lo hi i : Nat) : Nat → Nat :=
  fun j => if lo + i ≤ j ∧ j < min (lo + i + 128) hi then 0 else get j

/-- The loop of `fillZero` on the bytes of the buffer; the first argument
bounds the number of rounds. -/
def fillZeroLoop : Nat → (Nat → Nat) → Nat → Nat → Nat → Nat → Nat
  | 0, get, _, _, _ => get
  | fuel + 1, get, lo, hi, i =>
    if i < hi - lo then fillZeroLoop fuel (copyZeros get lo hi i) lo hi (i + 128) else get

/-- Function `fillZero` on the slice of `d` with bounds `view`; `len(dest)`
rounds always suffice, since each round advances `i` by 128.  The length of the
buffer does not change. -/
def fillZero (d : Bytes) (view : Nat × Nat) : Bytes :=
  { len := d.len
    get := fillZeroLoop (view.2 - view.1) d.get view.1 view.2 0 }

/-- Method `Free`. -/
def Pool.Free (pool : Pool) (ptr : Nat) : Except Panic Pool :=
  if ptr = 0 then Except.ok pool
  else
    match pool.Get ptr with
    | Except.error e => Except.error e
    | Except.ok view =>
      let data := fillZero pool.data view
      let index := ptr - 1
      match ClearIfSet pool.allocMask index with
      | Except.error e => Except.error e
      | Except.ok (_, false) => Except.error Panic.alreadyFreed
      | Except.ok (mask, true) =>
        Except.ok
          { pool with
            data := data
            allocMask := mask
            nUsed := wrapInt64 (pool.nUsed - 1)
            nextAllocIndex := index }

/-- Method `FreeAll`. -/
def Pool.FreeAll (pool : Pool) : Pool :=
  { pool with
    allocMask := ClearAll pool.allocMask
    data := fillZero pool.data (0, pool.data.len)
    nUsed := 0
    nextAllocIndex := 0 }

/-- A client store `pool.Get(ptr)[i] = v` of one byte into a block. -/
def Pool.Write (pool : Pool) (ptr i v : Nat) : Except Panic Pool :=
  match pool.Get ptr with
  | Except.error e => Except.error e
  | Except.ok view =>
    if i < view.2 - view.1 then
      Except.ok { pool with data := pool.data.set (view.1 + i) (v % 256) }
    else Except.error Panic.indexOutOfRange

end fixedpool


namespace bitarray

/-- Index `z` is the lowest bit of the 64-bit `word` that is 0. -/
def LowestZero (word z : Nat) : Prop :=
  z < 64 ∧ word.testBit z = false ∧ ∀ j, j < z → word.testBit j = true

/-- Position of the word index `v` in the cyclic order
`s, ..., L - 1, 0, ..., s - 1` of the word indices of an array of `L` words. -/
def cyclicPos (L s v : Nat) : Nat := (v + L - s) % L

/-- Word `w` is the first word of `ba`, in the cyclic order that starts at word
`s`, which is not all ones. -/
def FirstNotFull (ba : BitArray) (s w : Nat) : Prop :=
  w < ba.length ∧ ba.getD w 0 ≠ allFF ∧
    ∀ v, v < ba.length → cyclicPos ba.length s v < cyclicPos ba.length s w →
      ba.getD v 0 = allFF

/-- The number of words that `NewBitArray(nBits)` allocates: `nBits / 64` rounded
up, and 1 for `nBits = 0`. -/
def numWords (nBits : Nat) : Nat :=
  if nBits % 64 ≠ 0 ∨ nBits / 64 = 0 then nBits / 64 + 1 else nBits / 64

/-- Bit `i` of the array as stored in its words (`false` past the end). -/
def testBitAt (ba : BitArray) (i : Nat) : Bool := (ba.getD (i / 64) 0).testBit (i % 64)

/-- Every bit of the array is 1. -/
def AllOnes (ba : BitArray) : Prop := ∀ i, i < NumBits ba → IsSet ba i = Except.ok true

/-- The loop behind `TrailingZeros64`: the number of 0 bits below the lowest 1
bit of `x`, looking at no more bits than the first argument says. -/
def trailingZerosLoop : Nat → Nat → Nat
  | 0, _ => 0
  | fuel + 1, x => if x % 2 = 1 then 0 else 1 + trailingZerosLoop fuel (x / 2)

/-- The trailing-zeros intrinsic on a `uint64` (`bits.TrailingZeros64`): the
number of trailing 0 bits of `x`, and 64 for `x = 0`. -/
def TrailingZeros64 (x : Nat) : Nat := if x % u64 = 0 then 64 else trailingZerosLoop 64 (x % u64)

/-- The complement `^word` of a `uint64`. -/
def complement (word : Nat) : Nat := allFF ^^^ (word % u64)

/-- The substitute for `findZeroBit` that the specification proposes: the
intrinsic applied to the complement of the word. -/
def findZeroBitIntrinsic (word : Nat) : Nat := TrailingZeros64 (complement word)

/-- The inner loop of `FindZero` with `findZeroBit` replaced by the intrinsic. -/
def scanWordsIntrinsic (ba : BitArray) : Nat → Nat → Scan
  | 0, _ => Scan.exhausted
  | fuel + 1, wordIndex =>
    match ba[wordIndex]? with
    | none => Scan.outOfRange
    | some word =>
      if word ≠ allFF then Scan.found ((wordIndex * bpw + findZeroBitIntrinsic word) % u64)
      else scanWordsIntrinsic ba fuel (wordIndex + 1)

/-- Method `FindZero` with `findZeroBit` replaced by the intrinsic. -/
def FindZeroIntrinsic (ba : BitArray) (fromHint : Nat) : Except Panic Nat :=
  let startIndex := (index2pos fromHint).1
  let startMask := (index2pos fromHint).2
  let endIndex := ba.length
  if startIndex < endIndex ∧ (ba.getD startIndex 0) &&& startMask = 0 then Except.ok fromHint
  else
    match scanWordsIntrinsic ba (endIndex - startIndex) startIndex with
    | Scan.found i => Except.ok i
    | Scan.outOfRange => Except.error Panic.indexOutOfRange
    | Scan.exhausted =>
      match scanWordsIntrinsic ba (startIndex - 0) 0 with
      | Scan.found i => Except.ok i
      | Scan.outOfRange => Except.error Panic.indexOutOfRange
      | Scan.exhausted => Except.ok NotFound

end bitarray

namespace fixedpool

open bitarray

/-- A pool together with the handles that `Alloc` has returned and `Free` has
not yet taken back (the live handles). -/
structure Tracked where
  pool : Pool
  live : List Nat

/-- The states a client can reach from `NewPool(bs, n)` by calls that return
normally: `Alloc`, `Free` of any `Ptr`, and, when `w` is set, stores into the
blocks of live handles, and, when `fa` is set, `FreeAll`. -/
inductive Reachable (w fa : Bool) (bs n : Int) : Tracked → Prop where
  | init {p : Pool} : NewPool bs n = Except.ok p → Reachable w fa bs n ⟨p, []⟩
  | alloc {t : Tracked} {p : Pool} {h : Nat} : Reachable w fa bs n t →
      t.pool.Alloc = Except.ok (p, h) →
      Reachable w fa bs n ⟨p, if h = 0 then t.live else h :: t.live⟩
  | free {t : Tracked} {p : Pool} (h : Nat) : Reachable w fa bs n t → h < u32 →
      t.pool.Free h = Except.ok p → Reachable w fa bs n ⟨p, t.live.erase h⟩
  | write {t : Tracked} {p : Pool} (h i v : Nat) : w = true → Reachable w fa bs n t →
      h ∈ t.live → t.pool.Write h i v = Except.ok p → Reachable w fa bs n ⟨p, t.live⟩
  | freeAll {t : Tracked} : fa = true → Reachable w fa bs n t →
      Reachable w fa bs n ⟨t.pool.FreeAll, []⟩

/-- What no call changes: the block size, the length of the buffer and the
number of words of the bitmap. -/
structure Shape (bs n : Int) (p : Pool) : Prop where
  pos_bs : 0 < bs
  pos_n : 0 < n
  size_nonneg : 0 ≤ wrapInt64 (n * bs)
  blockSize_eq : p.blockSize = bs
  len_eq : p.data.len = (wrapInt64 (n * bs)).toNat
  words_eq : p.allocMask.length = numWords n.toNat

/-- The sizes for which neither a block nor the view of a padding handle
reaches byte `2^32` of the buffer: `NumBits() * blockSize < 2^32`. -/
def SafeSize (bs n : Int) : Prop :=
  0 < bs ∧ 0 < n ∧ 64 * (numWords n.toNat : Int) * bs < 2 ^ 32

/-- The invariant of the pool for sizes in `SafeSize`, stated with the live
handles: the padding bits are set, bit `h - 1` is set exactly for the live
handles `h`, `nUsed` counts them, and the block of every handle that is not
live is all zero. -/
structure PoolInv (bs n : Int) (t : Tracked) : Prop where
  shape : Shape bs n t.pool
  wf : WF t.pool.allocMask
  hint_le : t.pool.nextAllocIndex ≤ 64 * numWords n.toNat
  padding : ∀ i, n.toNat ≤ i → i < 64 * numWords n.toNat →
    testBitAt t.pool.allocMask i = true
  live_iff : ∀ i, i < n.toNat → (testBitAt t.pool.allocMask i = true ↔ (i + 1) ∈ t.live)
  live_range : ∀ h ∈ t.live, 1 ≤ h ∧ h ≤ n.toNat
  nodup : t.live.Nodup
  used : t.pool.nUsed = (t.live.length : Int)
  zero : ∀ h, 1 ≤ h → h ≤ n.toNat → h ∉ t.live →
    ∀ j, (h - 1) * bs.toNat ≤ j → j < h * bs.toNat → t.pool.data.get j = 0

/-- The handles returned by `k` consecutive calls of `Alloc`, first call first,
and the pool after them. -/
def Pool.allocN : Nat → Pool → Except Panic (Pool × List Nat)
  | 0, pool => Except.ok (pool, [])
  | k + 1, pool =>
    match pool.Alloc with
    | Except.error e => Except.error e
    | Except.ok (p, h) =>
      match Pool.allocN k p with
      | Except.error e => Except.error e
      | Except.ok (q, hs) => Except.ok (q, h :: hs)

end fixedpool

/-! ## The byte-packing functions of `util/util.go`

A `[]byte` argument is a `List Nat` of bytes; the functions that write return
the buffer after the writes. -/

namespace util

/-- The buffer holds bytes. -/
def IsBytes (bb : List Nat) : Prop := ∀ b ∈ bb, b < 256

/-- The assignment `dest[i] = v`, which panics past the end of `dest`. -/
def store (dest : List Nat) (i v : Nat) : Except Panic (List Nat) :=
  if i < dest.length then Except.ok (dest.set i v) else Except.error Panic.indexOutOfRange

/-- The read `src[i]`, which panics past the end of `src`. -/
def load (src : List Nat) (i : Nat) : Except Panic Nat :=
  match src[i]? with
  | some b => Except.ok b
  | none => Except.error Panic.indexOutOfRange

/-- The conversion `byte(x)`. -/
def byte (x : Nat) : Nat := x % 256

/-- Function `Uint24FromBytes`. -/
def Uint24FromBytes (src : List Nat) : Except Panic Nat := do
  let b0 ← load src 0
  let b1 ← load src 1
  let b2 ← load src 2
  pure ((b0 % 2 ^ 32) ||| (((b1 % 2 ^ 32) <<< 8) % 2 ^ 32) ||| (((b2 % 2 ^ 32) <<< 16) % 2 ^ 32))

/-- Function `Uint24ToBytes`. -/
def Uint24ToBytes (val : Nat) (dest : List Nat) : Except Panic (List Nat) := do
  let dest ← store dest 0 (byte (val &&& 0xFF))
  let dest ← store dest 1 (byte ((val >>> 8) &&& 0xFF))
  let dest ← store dest 2 (byte ((val >>> 16) &&& 0xFF))
  store dest 3 (byte ((val >>> 24) &&& 0xFF))

/-- Function `Uint32FromBytes`. -/
def Uint32FromBytes (src : List Nat) : Except Panic Nat := do
  let b0 ← load src 0
  let b1 ← load src 1
  let b2 ← load src 2
  let b3 ← load src 3
  pure ((b0 % 2 ^ 32) ||| (((b1 % 2 ^ 32) <<< 8) % 2 ^ 32) ||| (((b2 % 2 ^ 32) <<< 16) % 2 ^ 32) |||
    (((b3 % 2 ^ 32) <<< 24) % 2 ^ 32))

/-- Function `Uint32ToBytes`. -/
def Uint32ToBytes (val : Nat) (dest : List Nat) : Except Panic (List Nat) := do
  let dest ← store dest 0 (byte (val &&& 0xFF))
  let dest ← store dest 1 (byte ((val >>> 8) &&& 0xFF))
  let dest ← store dest 2 (byte ((val >>> 16) &&& 0xFF))
  store dest 3 (byte ((val >>> 24) &&& 0xFF))

/-- Function `Uint64FromBytes`. -/
def Uint64FromBytes (src : List Nat) : Except Panic Nat := do
  let b0 ← load src 0
  let b1 ← load src 1
  let b2 ← load src 2
  let b3 ← load src 3
  let b4 ← load src 4
  let b5 ← load src 5
  let b6 ← load src 6
  let b7 ← load src 7
  pure ((b0 % 2 ^ 64) ||| (((b1 % 2 ^ 64) <<< 8) % 2 ^ 64) ||| (((b2 % 2 ^ 64) <<< 16) % 2 ^ 64) |||
    (((b3 % 2 ^ 64) <<< 24) % 2 ^ 64) ||| (((b4 % 2 ^ 64) <<< 32) % 2 ^ 64) |||
    (((b5 % 2 ^ 64) <<< 40) % 2 ^ 64) ||| (((b6 % 2 ^ 64) <<< 48) % 2 ^ 64) |||
    (((b7 % 2 ^ 64) <<< 56) % 2 ^ 64))

/-- Function `Uint64ToBytes`. -/
def Uint64ToBytes (val : Nat) (dest : List Nat) : Except Panic (List Nat) := do
  let dest ← store dest 0 (byte (val &&& 0xFF))
  let dest ← store dest 1 (byte ((val >>> 8) &&& 0xFF))
  let dest ← store dest 2 (byte ((val >>> 16) &&& 0xFF))
  let dest ← store dest 3 (byte ((val >>> 24) &&& 0xFF))
  let dest ← store dest 4 (byte ((val >>> 32) &&& 0xFF))
  let dest ← store dest 5 (byte ((val >>> 40) &&& 0xFF))
  let dest ← store dest 6 (byte ((val >>> 48) &&& 0xFF))
  store dest 7 (byte ((val >>> 56) &&& 0xFF))

/-- The function `FillSeq`: `dest[i] = byte(int(startValue) + i)` for every index
`i` of `dest`. -/
def FillSeq (dest : List Nat) (startValue : Nat) : List Nat :=
  (List.range dest.length).map (fun i => (startValue + i) % 256)

/-- The function `MakeSeq`, for a count that is not negative: `count` bytes
filled by `FillSeq`. -/
def MakeSeq (count startValue : Nat) : List Nat :=
  FillSeq (List.replicate count 0) startValue

end util

/-! ## The Robin Hood hash map of `robin1/robin1.go`

`len(m.buckets)`, and with it the loop variables `idx`, `dist` and `wrapCount`,
are natural numbers: they stay far below `2^63`.  The loops `for { ... }` of
`Put` and `Get` recurse on a number of rounds; the result is `none` when the
rounds are used up before the loop returns. -/

namespace robin1

/-- The type `Bucket`: a `uint32` key, an `int` value and the `used` flag. -/
structure Bucket where
  Key : Nat
  Value : Int
  used : Bool
  deriving DecidableEq, Repr

/-- The type `Map`. -/
structure Map where
  buckets : List Bucket
  nUsed : Int
  maxAllowed : Int
  deriving DecidableEq, Repr

/-- Number of binary digits of `x`; the first argument bounds the recursion. -/
def bitLenLoop : Nat → Nat → Nat
  | 0, _ => 0
  | fuel + 1, x => if x = 0 then 0 else bitLenLoop fuel (x / 2) + 1

/-- Number of binary digits of `n` (0 for 0). -/
def bitLen (n : Nat) : Nat := bitLenLoop n n

/-- Rounding of a natural number to a `float32`: the 24 leading binary digits
are kept, the digits below are rounded to nearest, ties to even.  Scaling by a
power of two commutes with this rounding in the range used here (no underflow,
no overflow), so the function also rounds `n * 2^(-k)`. -/
def roundFloat32 (n : Nat) : Nat :=
  let s := bitLen n - 24
  let q := n / 2 ^ s
  let r := n % 2 ^ s
  if 2 * r < 2 ^ s then q * 2 ^ s
  else if 2 * r = 2 ^ s ∧ q % 2 = 0 then q * 2 ^ s
  else (q + 1) * 2 ^ s

/-- The `float32` constant `1.10` is `float32Const110 * 2^(-23)`
(bit pattern `0x3F8CCCCD`). -/
def float32Const110 : Nat := 9227469

/-- Function `NewMap`.  `float32(maxCapacity) * 1.10` is a `float32` product:
both the conversion and the product are rounded, the product is held in units
of `2^(-23)`.  The conversion `int(...)` truncates; on a `float32` of `2^63` or
more it yields `-2^63` (amd64), so that `make` panics on the negative length;
`make` also panics when the buckets, of 24 bytes each (`uint32`, `int` and `bool`
with their alignment), would take more than `maxAlloc` bytes. -/
def NewMap (maxCapacity : Int) : Except Panic Map :=
  let maxCapacity := if maxCapacity < 1 then 1 else maxCapacity
  let prod := roundFloat32 (roundFloat32 maxCapacity.toNat * float32Const110)
  let truncated : Int := if 2 ^ 63 ≤ prod / 2 ^ 23 then -(2 ^ 63) else ((prod / 2 ^ 23 : Nat) : Int)
  let nBuckets := fixedpool.wrapInt64 (truncated + 1)
  if nBuckets < 0 ∨ (maxAlloc : Int) < 24 * nBuckets then Except.error Panic.makeLenOutOfRange
  else Except.ok
    { buckets := List.replicate nBuckets.toNat { Key := 0, Value := 0, used := false },
      nUsed := 0,
      maxAllowed := maxCapacity }

/-- Method `index`: `key % uint32(len(m.buckets))`.  The division panics when
`uint32(len(m.buckets))` is 0, whatever the key: `Put` and `Get` check this
where they first call `index`. -/
def index (m : Map) (key : Nat) : Nat := key % (m.buckets.length % 2 ^ 32)

/-- Method `probeDist`.  `desiredIndex` is below `len(m.buckets)`, so the
subtractions are those of the source. -/
def probeDist (m : Map) (b : Bucket) (currentIndex : Nat) : Nat :=
  let desiredIndex := index m b.Key
  if currentIndex < desiredIndex then m.buckets.length - desiredIndex + currentIndex
  else currentIndex - desiredIndex

/-- The loop of `Put`; the first argument is the number of rounds left, and
`none` is the result of a loop that has not returned within them. -/
def putLoop : Nat → Map → Bucket → Nat → Nat → Nat → Option (Except Panic (Map × Bool))
  | 0, _, _, _, _, _ => none
  | fuel + 1, m, incoming, idx, dist, wrapCount =>
    match m.buckets[idx]? with
    | none => some (Except.error Panic.indexOutOfRange)
    | some other =>
      if other.used = false then
        some (Except.ok
          ({ m with nUsed := fixedpool.wrapInt64 (m.nUsed + 1),
                    buckets := m.buckets.set idx incoming }, true))
      else if other.Key = incoming.Key then
        some (Except.ok
          ({ m with buckets := m.buckets.set idx { other with Value := incoming.Value } }, true))
      else
        let otherDist := probeDist m other idx
        let rob : Bool := decide (otherDist < dist)
        let m := if rob then { m with buckets := m.buckets.set idx incoming } else m
        let incoming := if rob then other else incoming
        let dist := (if rob then otherDist else dist) + 1
        let idx := idx + 1
        if idx ≥ m.buckets.length then
          let wrapCount := wrapCount + 1
          if wrapCount > 1 then some (Except.error Panic.putAssertionFail)
          else putLoop fuel m incoming 0 dist wrapCount
        else putLoop fuel m incoming idx dist wrapCount

/-- Method `Put`.  The loop leaves by a return or by the panic of the second
wrap-around, so it runs at most `2 * len(m.buckets)` rounds. -/
def Put (m : Map) (key : Nat) (value : Int) : Option (Except Panic (Map × Bool)) :=
  if m.nUsed ≥ m.maxAllowed then some (Except.ok (m, false))
  else if m.buckets.length % 2 ^ 32 = 0 then some (Except.error Panic.divideByZero)
  else putLoop (2 * m.buckets.length + 1) m { Key := key, Value := value, used := true }
    (index m key) 0 0

/-- The loop of `Get`; the first argument is the number of rounds left. -/
def getLoop : Nat → Map → Nat → Nat → Nat → Bool → Option (Except Panic (Int × Bool))
  | 0, _, _, _, _, _ => none
  | fuel + 1, m, key, idx, dist, wrapped =>
    match m.buckets[idx]? with
    | none => some (Except.error Panic.indexOutOfRange)
    | some other =>
      if other.used = false then some (Except.ok (0, false))
      else if other.Key = key then some (Except.ok (other.Value, true))
      else
        let otherDist := probeDist m other idx
        if otherDist < dist then some (Except.ok (0, false))
        else
          let dist := dist + 1
          let idx := idx + 1
          if idx ≥ m.buckets.length then
            if wrapped then some (Except.ok (0, false))
            else getLoop fuel m key 0 dist true
          else getLoop fuel m key idx dist wrapped

/-- Method `Get`: the pair `(value, found)`.  The loop leaves by a `break` at
the latest at the second wrap-around. -/
def Get (m : Map) (key : Nat) : Option (Except Panic (Int × Bool)) :=
  if m.buckets.length % 2 ^ 32 = 0 then some (Except.error Panic.divideByZero)
  else getLoop (2 * m.buckets.length + 1) m key (index m key) 0 false

/-- The type `Stats`, without its three `float32` fields (`AvgProbeDist`,
`PercentUsed`, `CollisionPercent`): `CalcStats` computes them after its check
of `nUsed`, from the integers kept here, and a floating-point division never
panics. -/
structure Stats where
  NumBuckets : Int
  NumUsed : Int
  NumEmpty : Int
  MaxAllowed : Int
  MaxProbeDist : Int
  CollisionsPerBucket : List Int
  deriving DecidableEq, Repr

/-- The variables that the first loop of `CalcStats` updates:
`stats.NumUsed`, `stats.NumEmpty`, `stats.MaxProbeDist` and the Go map
`collisionCounts`, whose lookup of an absent key is 0. -/
structure StatsAcc where
  numUsed : Int
  numEmpty : Int
  maxProbeDist : Int
  collisionCounts : Nat → Int

/-- The loop `for idx, bucket := range m.buckets` of `CalcStats`, on the
buckets from index `idx` on. -/
def calcStatsLoop (m : Map) : List Bucket → Nat → StatsAcc → StatsAcc
  | [], _, acc => acc
  | bucket :: rest, idx, acc =>
    if bucket.used then
      let dist : Int := (probeDist m bucket idx : Nat)
      calcStatsLoop m rest (idx + 1)
        { numUsed := acc.numUsed + 1,
          numEmpty := acc.numEmpty,
          maxProbeDist := if dist > acc.maxProbeDist then dist else acc.maxProbeDist,
          collisionCounts := Function.update acc.collisionCounts (index m bucket.Key)
            (acc.collisionCounts (index m bucket.Key) + 1) }
    else
      calcStatsLoop m rest (idx + 1) { acc with numEmpty := acc.numEmpty + 1 }

/-- Method `CalcStats`, for its integer results and its panics.  The division
in `index` panics at the first used bucket when `uint32(len(m.buckets))` is 0. -/
def CalcStats (m : Map) : Except Panic Stats :=
  if m.buckets.length % 2 ^ 32 = 0 ∧ m.buckets.any (fun b => b.used) = true then
    Except.error Panic.divideByZero
  else
    let acc := calcStatsLoop m m.buckets 0
      { numUsed := 0, numEmpty := 0, maxProbeDist := 0, collisionCounts := fun _ => 0 }
    if acc.numUsed ≠ m.nUsed then Except.error Panic.nUsedMismatch
    else Except.ok
      { NumBuckets := m.buckets.length,
        NumUsed := acc.numUsed,
        NumEmpty := acc.numEmpty,
        MaxAllowed := m.maxAllowed,
        MaxProbeDist := acc.maxProbeDist,
        CollisionsPerBucket := (List.range m.buckets.length).map acc.collisionCounts }

/-- The calls `Put(k, v)` for the pairs of a list, in order: the map after
them and the list of the results. -/
def putAll : Map → List (Nat × Int) → Option (Except Panic (Map × List Bool))
  | m, [] => some (Except.ok (m, []))
  | m, (k, v) :: rest =>
    match Put m k v with
    | none => none
    | some (Except.error e) => some (Except.error e)
    | some (Except.ok (m1, b)) =>
      match putAll m1 rest with
      | none => none
      | some (Except.error e) => some (Except.error e)
      | some (Except.ok (m2, bs)) => some (Except.ok (m2, b :: bs))

/-- The maps obtained from `NewMap` by calls of `Put` that returned, together
with the finite map they stand for: the lookup of `k` is the value of the most
recent `Put(k, v)` that returned true. -/
inductive Reach : Map → (Nat → Option Int) → Prop
  | init (c : Int) (m : Map) : NewMap c = Except.ok m → Reach m (fun _ => none)
  | put (m : Map) (f : Nat → Option Int) (k : Nat) (v : Int) (m1 : Map) (b : Bool) :
      Reach m f → Put m k v = some (Except.ok (m1, b)) →
      Reach m1 (if b then Function.update f k (some v) else f)

/-- The slot before slot `i`, cyclically. -/
def prevSlot (m : Map) (i : Nat) : Nat := if i = 0 then m.buckets.length - 1 else i - 1

/-- The slot `t` steps after slot `h`, cyclically, for `t` up to the number of
buckets. -/
def slotAt (m : Map) (h t : Nat) : Nat :=
  if h + t < m.buckets.length then h + t else h + t - m.buckets.length

/-- The Robin Hood property, in its local form: a used bucket with probe
distance `d > 0` is preceded, cyclically, by a used bucket with probe distance
at least `d - 1`. -/
def RobinHood (m : Map) : Prop :=
  ∀ (i : Nat) (b : Bucket), m.buckets[i]? = some b → b.used = true → 0 < probeDist m b i →
    ∃ p, m.buckets[prevSlot m i]? = some p ∧ p.used = true ∧
      probeDist m b i ≤ probeDist m p (prevSlot m i) + 1

/-- The keys held in used buckets are pairwise distinct. -/
def DistinctKeys (m : Map) : Prop :=
  ∀ (i j : Nat) (bi bj : Bucket), m.buckets[i]? = some bi → m.buckets[j]? = some bj →
    bi.used = true → bj.used = true → bi.Key = bj.Key → i = j

/-- The used buckets of `m` hold the pairs of the finite map `f`. -/
def Stores (m : Map) (f : Nat → Option Int) : Prop :=
  ∀ (k : Nat) (v : Int),
    (∃ i : Nat, m.buckets[i]? = some (Bucket.mk k v true)) ↔ f k = some v

/-- The invariant of the maps made by `NewMap` and `Put`. -/
structure Inv (m : Map) : Prop where
  nz : m.buckets.length % 2 ^ 32 ≠ 0
  small : m.buckets.length < 2 ^ 63
  rh : RobinHood m
  distinct : DistinctKeys m
  count : m.nUsed = ((m.buckets.countP (fun b => b.used) : Nat) : Int)
  cap : m.nUsed ≤ m.maxAllowed
  room : m.maxAllowed < (m.buckets.length : Int)

end robin1

/-! ## The map of package `robin32`, modelled from the specification

The implementation of package `robin32` is not among the sources, only
`robin32_test.go` is.  The definitions of this section are modelled from section
4.3 of the specification (`Put`, `Get`, probe distance), and the layout that the
specification leaves open is the one that the tests of the package assert: a
single table of `ceil(1.15 * capacity)` buckets (12 for a capacity of 10),
`maxOccupied = capacity`, a pool of `capacity` blocks, the key prefix is the first
4 key bytes read little-endian and the rest of the key is `key[4:]`.  The pool is
the one of `fixedpool`; the bytes of a block are modelled by the three fields of
an overflow record. -/

namespace robin32

/-- Modelled from the spec: the result type of `Put` of `robin32`, whose
declaration is not among the sources (`KeyWasNew`, `ValueUpdated`, `Full`, under
the names that the tests use). -/
inductive PutResult where
  | PRFull
  | PRKeyWasNew
  | PRValueUpdated
  deriving DecidableEq, Repr

/-- Modelled from the spec: the bucket record `_Bucket` of `robin32`, whose
declaration is not among the sources: a key prefix and a pool handle; the handle
0 marks an empty bucket. -/
structure Bucket where
  KeyPrefix : Nat
  handle : Nat
  deriving DecidableEq, Repr

/-- Modelled from the spec: the overflow block of a pair, whose layout is not
among the sources: the rest of the key, the value and the handle of the next
block of the chain (0 at its end). -/
structure Block where
  suffix : List Nat
  value : List Nat
  next : Nat
  deriving DecidableEq, Repr

/-- Modelled from the spec: the type `Map` of `robin32`, whose declaration is not
among the sources.  `blocks` gives the content of the pool block of each
handle. -/
structure Map where
  buckets : List Bucket
  pool : fixedpool.Pool
  blocks : Nat → Block
  nUsed : Int
  maxOccupied : Int
  valueSize : Int

/-- Modelled from the spec: the function `keyPrefixAsUint32` of `robin32`, which is
not among the sources: the first 4 bytes of the key read little-endian. -/
def keyPrefixAsUint32 (key : List Nat) : Nat :=
  key.getD 0 0 + 2 ^ 8 * key.getD 1 0 + 2 ^ 16 * key.getD 2 0 + 2 ^ 24 * key.getD 3 0

/-- Modelled from the spec: the method `isEmpty` of a bucket, which is not among
the sources. -/
def Bucket.isEmpty (b : Bucket) : Bool := decide (b.handle = 0)

/-- Modelled from the spec: the method `index` of `robin32`, which is not among the
sources: the ideal slot `p mod epr` of the prefix `p` in a table of `epr`
buckets. -/
def index (epr keyPrefix : Nat) : Nat := keyPrefix % epr

/-- Modelled from the spec: the method `probeDist` of `robin32`, which is not among
the sources: `epr - ideal + currentIdx` when `currentIdx < ideal` and
`currentIdx - ideal` otherwise. -/
def probeDist (epr : Nat) (b : Bucket) (currentIdx : Nat) : Nat :=
  if currentIdx < index epr b.KeyPrefix then epr - index epr b.KeyPrefix + currentIdx
  else currentIdx - index epr b.KeyPrefix

/-- Modelled from the spec: the function `NewMap(capacity, valueSize)` of
`robin32`, which is not among the sources.  The table has `ceil(1.15 * capacity)`
buckets, all empty, and the pool has `capacity` blocks of `28 + valueSize + 4`
bytes (rest of the key, value, next handle); `NewPool` panics on arguments that
are not positive. -/
def NewMap (capacity valueSize : Int) : Except Panic Map :=
  match fixedpool.NewPool (28 + valueSize + 4) capacity with
  | Except.error e => Except.error e
  | Except.ok pool =>
    Except.ok
      { buckets := List.replicate ((capacity.toNat * 115 + 99) / 100)
          { KeyPrefix := 0, handle := 0 },
        pool := pool,
        blocks := fun _ => { suffix := [], value := [], next := 0 },
        nUsed := 0,
        maxOccupied := capacity,
        valueSize := valueSize }

/-- Modelled from the spec: the walk along the chain that starts at `handle`,
comparing the rest of the key (it is part of `Put` and `Get`, which are not among
the sources); the result is the handle of the block with `suffix`, if there is
one.  The first argument bounds the number of blocks
visited, and `none` is the result of a walk that has not ended within them. -/
def findInChain (blocks : Nat → Block) (suffix : List Nat) : Nat → Nat → Option (Option Nat)
  | 0, _ => none
  | fuel + 1, handle =>
    if handle = 0 then some none
    else if (blocks handle).suffix = suffix then some (some handle)
    else findInChain blocks suffix fuel (blocks handle).next

/-- Modelled from the spec: the number of blocks that bounds a walk along a chain
of `Put` and `Get`; a handle of the pool is at most `NumBits()` of its
bitmap. -/
def chainBound (m : Map) : Nat := bitarray.NumBits m.pool.allocMask + 1

/-- Modelled from the spec: the allocation of an overflow block for a pair in
`Put`, which is not among the sources; `none` when the pool is exhausted (handle
0). -/
def allocBlock (m : Map) (suffix value : List Nat) (next : Nat) :
    Except Panic (Option (Map × Nat)) :=
  match m.pool.Alloc with
  | Except.error e => Except.error e
  | Except.ok (pool, h) =>
    if h = 0 then Except.ok none
    else Except.ok (some
      ({ m with pool := pool,
                blocks := Function.update m.blocks h
                  { suffix := suffix, value := value, next := next } }, h))

/-- Modelled from the spec: the displacement of an evicted bucket (the rob
branch of step 3 of `Put`), which takes the first empty slot and, on its way,
the slot of every occupant that is nearer to its ideal slot, evicting that
occupant in turn; the probe distance goes on from that of the evicted bucket.
The first argument is the number of slots of the table not yet visited.  The
result is the table and whether the last evicted bucket was placed: false is
the region overflow. -/
def displace (epr : Nat) : Nat → List Bucket → Bucket → Nat → Nat → List Bucket × Bool
  | 0, buckets, _, _, _ => (buckets, false)
  | fuel + 1, buckets, incoming, idx, d =>
    match buckets[idx]? with
    | none => (buckets, false)
    | some other =>
      if other.handle = 0 then (buckets.set idx incoming, true)
      else if probeDist epr other idx < d then
        displace epr fuel (buckets.set idx incoming) other ((idx + 1) % epr)
          (probeDist epr other idx + 1)
      else displace epr fuel buckets incoming ((idx + 1) % epr) (d + 1)

/-- Modelled from the spec: the loop of `Put` of `robin32`, which is not among the
sources (step 3 of section 4.3), for a key with prefix `keyPrefix` and rest
`suffix`.  The first argument is the number of
slots of the table not yet visited: the walk ends with `Full` once every slot
was visited.  The overflow block is allocated when the pair is placed, and an
exhausted pool gives `Full`. -/
def putLoop (keyPrefix : Nat) (suffix value : List Nat) :
    Nat → Map → Nat → Nat → Option (Except Panic (Map × PutResult))
  | 0, m, _, _ => some (Except.ok (m, PutResult.PRFull))
  | fuel + 1, m, idx, d =>
    match m.buckets[idx]? with
    | none => some (Except.error Panic.indexOutOfRange)
    | some other =>
      if other.handle = 0 then
        match allocBlock m suffix value 0 with
        | Except.error e => some (Except.error e)
        | Except.ok none => some (Except.ok (m, PutResult.PRFull))
        | Except.ok (some (m1, h)) =>
          some (Except.ok
            ({ m1 with buckets := m1.buckets.set idx { KeyPrefix := keyPrefix, handle := h },
                       nUsed := fixedpool.wrapInt64 (m1.nUsed + 1) },
             PutResult.PRKeyWasNew))
      else if other.KeyPrefix = keyPrefix then
        match findInChain m.blocks suffix (chainBound m) other.handle with
        | none => none
        | some (some h) =>
          some (Except.ok
            ({ m with blocks := Function.update m.blocks h
                        { m.blocks h with value := value } },
             PutResult.PRValueUpdated))
        | some none =>
          match allocBlock m suffix value other.handle with
          | Except.error e => some (Except.error e)
          | Except.ok none => some (Except.ok (m, PutResult.PRFull))
          | Except.ok (some (m1, h)) =>
            some (Except.ok
              ({ m1 with buckets := m1.buckets.set idx { KeyPrefix := keyPrefix, handle := h },
                         nUsed := fixedpool.wrapInt64 (m1.nUsed + 1) },
               PutResult.PRKeyWasNew))
      else if probeDist m.buckets.length other idx < d then
        match allocBlock m suffix value 0 with
        | Except.error e => some (Except.error e)
        | Except.ok none => some (Except.ok (m, PutResult.PRFull))
        | Except.ok (some (m1, h)) =>
          match displace m.buckets.length fuel
              (m1.buckets.set idx { KeyPrefix := keyPrefix, handle := h }) other
              ((idx + 1) % m.buckets.length) (probeDist m.buckets.length other idx + 1) with
          | (buckets, false) =>
            some (Except.ok ({ m1 with buckets := buckets }, PutResult.PRFull))
          | (buckets, true) =>
            some (Except.ok
              ({ m1 with buckets := buckets, nUsed := fixedpool.wrapInt64 (m1.nUsed + 1) },
               PutResult.PRKeyWasNew))
      else putLoop keyPrefix suffix value fuel m ((idx + 1) % m.buckets.length) (d + 1)

/-- Modelled from the spec: the method `Put(key, value)` of `robin32`, which is not
among the sources.  The map is read-only once `nUsed` has reached `maxOccupied`:
also a `Put` of a stored key returns `Full` then (section 9 of the
specification: updates to existing keys are rejected with `Full` at 100 %
occupancy; the comments of `TestTiny` and `TestRand` say the same of the
code). -/
def Put (m : Map) (key value : List Nat) : Option (Except Panic (Map × PutResult)) :=
  if m.nUsed ≥ m.maxOccupied then some (Except.ok (m, PutResult.PRFull))
  else if m.buckets.length = 0 then some (Except.error Panic.divideByZero)
  else putLoop (keyPrefixAsUint32 key) (key.drop 4) value m.buckets.length m
    (index m.buckets.length (keyPrefixAsUint32 key)) 0

/-- Modelled from the spec: the loop of `Get` of `robin32`, which is not among the
sources (section 4.3); it stops after visiting every slot of the table.  The
result is the value found, if any. -/
def getLoop (keyPrefix : Nat) (suffix : List Nat) :
    Nat → Map → Nat → Nat → Option (Except Panic (Option (List Nat)))
  | 0, _, _, _ => some (Except.ok none)
  | fuel + 1, m, idx, d =>
    match m.buckets[idx]? with
    | none => some (Except.error Panic.indexOutOfRange)
    | some other =>
      if other.handle = 0 then some (Except.ok none)
      else if other.KeyPrefix = keyPrefix then
        match findInChain m.blocks suffix (chainBound m) other.handle with
        | none => none
        | some (some h) => some (Except.ok (some (m.blocks h).value))
        | some none => some (Except.ok none)
      else if probeDist m.buckets.length other idx < d then some (Except.ok none)
      else getLoop keyPrefix suffix fuel m ((idx + 1) % m.buckets.length) (d + 1)

/-- Modelled from the spec: the method `Get(key, valueBuffer)` of `robin32`, which
is not among the sources: `some v` stands for the result true with the value `v`
copied into the buffer, `none` for false. -/
def Get (m : Map) (key : List Nat) : Option (Except Panic (Option (List Nat))) :=
  if m.buckets.length = 0 then some (Except.error Panic.divideByZero)
  else getLoop (keyPrefixAsUint32 key) (key.drop 4) m.buckets.length m
    (index m.buckets.length (keyPrefixAsUint32 key)) 0

/-- The constant `KeySize`: a key has 32 bytes. -/
def KeySize : Nat := 32

/-- The function `int2key` of `robin32_test.go`: the 4 bytes of `uint32(i)`,
little-endian, repeated `KeySize / 4` times. -/
def int2key (i : Nat) : List Nat :=
  (List.replicate (KeySize / 4)
    [i % 256, i / 2 ^ 8 % 256, i / 2 ^ 16 % 256, i / 2 ^ 24 % 256]).flatten

/-- A sequence of calls of `Put` of `robin32`, with the results of the calls in
their order. -/
def putAll : Map → List (List Nat × List Nat) → Option (Except Panic (Map × List PutResult))
  | m, [] => some (Except.ok (m, []))
  | m, (k, v) :: rest =>
    match Put m k v with
    | none => none
    | some (Except.error e) => some (Except.error e)
    | some (Except.ok (m1, r)) =>
      match putAll m1 rest with
      | none => none
      | some (Except.error e) => some (Except.error e)
      | some (Except.ok (m2, rs)) => some (Except.ok (m2, r :: rs))

/-- The number of steps from slot `idx` forward to slot `j`, in a cyclic table of
`n` slots. -/
def offsetFrom (n idx j : Nat) : Nat := if idx ≤ j then j - idx else n - idx + j

end robin32

/-! ## Lemmas on machine words and on the bit array -/

namespace bitarray

theorem index2pos_eq (i : Nat) (hi : i < u64) : index2pos i = (i / 64, 2 ^ (i % 64)) := by
  unfold index2pos
  simp only [bpwShift, Nat.shiftRight_eq_div_pow, Nat.shiftLeft_eq, Nat.one_mul]
  have h1 : i / 2 ^ 6 * 2 ^ 6 ≤ i := Nat.div_mul_le_self i _
  have h2 : (i / 2 ^ 6 * 2 ^ 6) % u64 = i / 2 ^ 6 * 2 ^ 6 :=
    Nat.mod_eq_of_lt (lt_of_le_of_lt h1 hi)
  rw [h2]
  have h3 : i - i / 2 ^ 6 * 2 ^ 6 = i % 64 := by omega
  rw [h3]
  have h4 : 2 ^ (i % 64) < u64 := by
    unfold u64
    exact Nat.pow_lt_pow_right (by norm_num) (Nat.mod_lt _ (by norm_num))
  rw [Nat.mod_eq_of_lt h4]

theorem and_two_pow_eq_zero (w k : Nat) : w &&& 2 ^ k = 0 ↔ w.testBit k = false := by
  constructor
  · intro h
    have := congrArg (fun x => x.testBit k) h
    simpa [Nat.testBit_two_pow_self] using this
  · intro h
    apply Nat.eq_of_testBit_eq
    intro i
    rw [Nat.testBit_and, Nat.testBit_two_pow, Nat.zero_testBit]
    by_cases hki : k = i
    · subst hki; simp [h]
    · simp [hki]

theorem allFF_eq : allFF = 2 ^ 64 - 1 := by decide

theorem testBit_or_two_pow (w k j : Nat) :
    (w ||| 2 ^ k).testBit j = (w.testBit j || decide (k = j)) := by
  rw [Nat.testBit_or, Nat.testBit_two_pow]

theorem testBit_andNot_two_pow (w k j : Nat) (hj : j < 64) :
    (andNot w (2 ^ k)).testBit j = (w.testBit j && !decide (k = j)) := by
  unfold andNot
  rw [Nat.testBit_and, Nat.testBit_xor, Nat.testBit_two_pow, allFF_eq,
    Nat.testBit_two_pow_sub_one]
  simp [hj]

theorem andNot_lt (w m : Nat) (hw : w < u64) : andNot w m < u64 := by
  unfold andNot
  exact lt_of_le_of_lt Nat.and_le_left hw

theorem eq_allFF_of_testBit (w : Nat) (hw : w < u64) (h : ∀ j, j < 64 → w.testBit j = true) :
    w = allFF := by
  apply Nat.eq_of_testBit_eq
  intro i
  rw [allFF_eq, Nat.testBit_two_pow_sub_one]
  by_cases hi : i < 64
  · simp [hi, h i hi]
  · have : w < 2 ^ i := lt_of_lt_of_le hw (by
      unfold u64; exact Nat.pow_le_pow_right (by norm_num) (by omega))
    simp [hi, Nat.testBit_lt_two_pow this]

theorem findZeroBitLoop_spec (fuel : Nat) : ∀ (word b : Nat), b + fuel = 64 →
    b ≤ findZeroBitLoop fuel word b ∧ findZeroBitLoop fuel word b ≤ 64 ∧
    (∀ j, j < findZeroBitLoop fuel word b - b → word.testBit j = true) ∧
    (findZeroBitLoop fuel word b < 64 →
      word.testBit (findZeroBitLoop fuel word b - b) = false) := by
  induction fuel with
  | zero =>
    intro word b hb
    simp only [findZeroBitLoop]
    refine ⟨le_refl _, by omega, ?_, by omega⟩
    intro j hj; omega
  | succ fuel ih =>
    intro word b hb
    simp only [findZeroBitLoop, bpw]
    by_cases hc : b < 64 ∧ word &&& 1 = 1
    · rw [if_pos hc]
      obtain ⟨h1, h2, h3, h4⟩ := ih (word >>> 1) (b + 1) (by omega)
      have hbit0 : word.testBit 0 = true := by
        rw [Nat.testBit_zero]; simpa [Nat.and_one_is_mod] using hc.2
      refine ⟨by omega, h2, ?_, ?_⟩
      · intro j hj
        cases j with
        | zero => exact hbit0
        | succ j =>
          have := h3 j (by omega)
          rw [Nat.testBit_shiftRight] at this
          rwa [Nat.add_comm] at this
      · intro hlt
        have := h4 hlt
        rw [Nat.testBit_shiftRight] at this
        have e : findZeroBitLoop fuel (word >>> 1) (b + 1) - b
            = 1 + (findZeroBitLoop fuel (word >>> 1) (b + 1) - (b + 1)) := by omega
        rw [e]; exact this
    · rw [if_neg hc]
      refine ⟨le_refl _, by omega, by intro j hj; omega, ?_⟩
      intro hlt
      have : ¬ (word &&& 1 = 1) := fun h => hc ⟨hlt, h⟩
      rw [Nat.sub_self, Nat.testBit_zero]
      simpa [Nat.and_one_is_mod] using this

theorem findZeroBit_spec (word : Nat) :
    findZeroBit word ≤ 64 ∧ (∀ j, j < findZeroBit word → word.testBit j = true) ∧
    (findZeroBit word < 64 → word.testBit (findZeroBit word) = false) := by
  have h := findZeroBitLoop_spec 64 word 0 (by norm_num)
  simpa [findZeroBit, bpw] using h.2

theorem findZeroBit_lt (word : Nat) (hw : word < u64) (hne : word ≠ allFF) :
    findZeroBit word < 64 := by
  obtain ⟨h1, h2, _⟩ := findZeroBit_spec word
  rcases Nat.lt_or_ge (findZeroBit word) 64 with h | h
  · exact h
  · exact absurd (eq_allFF_of_testBit word hw (fun j hj => h2 j (by omega))) hne

theorem getElem?_eq_some_getD (ba : BitArray) (i : Nat) (h : i < ba.length) :
    ba[i]? = some (ba.getD i 0) := by
  rw [List.getD_eq_getElem?_getD, List.getElem?_eq_getElem h]; rfl

theorem scanWords_exhausted (ba : BitArray) (fuel : Nat) : ∀ s,
    (∀ j, s ≤ j → j < s + fuel → ba[j]? = some allFF) →
    scanWords ba fuel s = Scan.exhausted := by
  induction fuel with
  | zero => intro s _; rfl
  | succ fuel ih =>
    intro s h
    have hs := h s (le_refl _) (by omega)
    simp only [scanWords, hs, ne_eq, not_true_eq_false, if_false]
    exact ih (s + 1) (fun j h1 h2 => h j (by omega) (by omega))

theorem scanWords_found (ba : BitArray) (fuel : Nat) : ∀ s w word,
    s ≤ w → w < s + fuel → ba[w]? = some word → word ≠ allFF →
    (∀ j, s ≤ j → j < w → ba[j]? = some allFF) →
    scanWords ba fuel s = Scan.found ((w * bpw + findZeroBit word) % u64) := by
  induction fuel with
  | zero => intro s w word h1 h2; omega
  | succ fuel ih =>
    intro s w word h1 h2 hw hne hfull
    rcases Nat.eq_or_lt_of_le h1 with e | hlt
    · subst e
      simp only [scanWords, hw, ne_eq, hne, not_false_eq_true, if_true]
    · have hs := hfull s (le_refl _) hlt
      simp only [scanWords, hs, ne_eq, not_true_eq_false, if_false]
      exact ih (s + 1) w word hlt (by omega) hw hne (fun j h3 h4 => hfull j (by omega) h4)

theorem scanWords_cases (ba : BitArray) (fuel : Nat) : ∀ s, s + fuel ≤ ba.length →
    (scanWords ba fuel s = Scan.exhausted ∧ ∀ j, s ≤ j → j < s + fuel → ba[j]? = some allFF) ∨
    (∃ w word, s ≤ w ∧ w < s + fuel ∧ ba[w]? = some word ∧ word ≠ allFF ∧
      (∀ j, s ≤ j → j < w → ba[j]? = some allFF) ∧
      scanWords ba fuel s = Scan.found ((w * bpw + findZeroBit word) % u64)) := by
  induction fuel with
  | zero =>
    intro s _
    left
    exact ⟨rfl, fun j h1 h2 => by omega⟩
  | succ fuel ih =>
    intro s hs
    have hlt : s < ba.length := by omega
    have hget := getElem?_eq_some_getD ba s hlt
    by_cases hfull : ba.getD s 0 = allFF
    · rw [hfull] at hget
      rcases ih (s + 1) (by omega) with ⟨h1, h2⟩ | ⟨w, word, h1, h2, h3, h4, h5, h6⟩
      · left
        refine ⟨?_, ?_⟩
        · simp only [scanWords, hget, ne_eq, not_true_eq_false, if_false]; exact h1
        · intro j hj1 hj2
          rcases Nat.eq_or_lt_of_le hj1 with e | hl
          · subst e; exact hget
          · exact h2 j hl (by omega)
      · right
        refine ⟨w, word, by omega, by omega, h3, h4, ?_, ?_⟩
        · intro j hj1 hj2
          rcases Nat.eq_or_lt_of_le hj1 with e | hl
          · subst e; exact hget
          · exact h5 j hl hj2
        · simp only [scanWords, hget, ne_eq, not_true_eq_false, if_false]; exact h6
    · right
      refine ⟨s, ba.getD s 0, le_refl _, by omega, hget, hfull, fun j h1 h2 => by omega, ?_⟩
      simp only [scanWords, hget, ne_eq, hfull, not_false_eq_true, if_true]

theorem findZeroBit_eq_of_lowestZero (word z : Nat) (h : LowestZero word z) :
    findZeroBit word = z := by
  obtain ⟨hz, hclear, hset⟩ := h
  obtain ⟨_, h2, h3⟩ := findZeroBit_spec word
  rcases Nat.lt_trichotomy (findZeroBit word) z with hlt | heq | hgt
  · have := h3 (by omega)
    rw [hset _ hlt] at this
    exact absurd this (by decide)
  · exact heq
  · have := h2 z hgt
    rw [hclear] at this
    exact absurd this (by decide)

theorem lowestZero_findZeroBit (word : Nat) (hw : word < u64) (hne : word ≠ allFF) :
    LowestZero word (findZeroBit word) := by
  have hlt := findZeroBit_lt word hw hne
  obtain ⟨_, h2, h3⟩ := findZeroBit_spec word
  exact ⟨hlt, h3 hlt, h2⟩

theorem IsSet_eq (ba : BitArray) (i : Nat) (hi : i < u64) (hlen : i / 64 < ba.length) :
    IsSet ba i = Except.ok ((ba.getD (i / 64) 0).testBit (i % 64)) := by
  unfold IsSet
  rw [index2pos_eq i hi]
  simp only [getElem?_eq_some_getD ba _ hlen]
  generalize ba.getD (i / 64) 0 = w
  congr 1
  cases hb : w.testBit (i % 64)
  · have := (and_two_pow_eq_zero _ _).2 hb
    simp [this]
  · have : ¬ (w &&& 2 ^ (i % 64) = 0) := by
      intro h0
      rw [(and_two_pow_eq_zero _ _).1 h0] at hb
      exact absurd hb (by decide)
    simp [this]

theorem IsSet_error (ba : BitArray) (i : Nat) (hi : i < u64) (hlen : ba.length ≤ i / 64) :
    IsSet ba i = Except.error Panic.indexOutOfRange := by
  unfold IsSet
  rw [index2pos_eq i hi]
  simp only [List.getElem?_eq_none hlen]

theorem WF.getD_lt {ba : BitArray} (hwf : WF ba) (i : Nat) : ba.getD i 0 < u64 := by
  rcases Nat.lt_or_ge i ba.length with h | h
  · rw [List.getD_eq_getElem _ _ h]
    exact hwf.1 _ (List.getElem_mem _)
  · rw [List.getD_eq_default _ _ h]; decide

theorem cyclicPos_ge (L s v : Nat) (hv : v < L) (hsv : s ≤ v) : cyclicPos L s v = v - s := by
  unfold cyclicPos
  have e : v + L - s = (v - s) + L := by omega
  rw [e, Nat.add_mod_right, Nat.mod_eq_of_lt (by omega)]

theorem cyclicPos_lt (L s v : Nat) (hs : s ≤ L) (hsv : v < s) :
    cyclicPos L s v = v + L - s := by
  unfold cyclicPos
  exact Nat.mod_eq_of_lt (by omega)

theorem FirstNotFull.unique {ba : BitArray} {s w v : Nat} (hs : s ≤ ba.length)
    (hw : FirstNotFull ba s w) (hv : FirstNotFull ba s v) : w = v := by
  obtain ⟨hw1, hw2, hw3⟩ := hw
  obtain ⟨hv1, hv2, hv3⟩ := hv
  have h1 : ¬ cyclicPos ba.length s w < cyclicPos ba.length s v := fun h => hw2 (hv3 w hw1 h)
  have h2 : ¬ cyclicPos ba.length s v < cyclicPos ba.length s w := fun h => hv2 (hw3 v hv1 h)
  have e : cyclicPos ba.length s w = cyclicPos ba.length s v := by omega
  rcases Nat.lt_or_ge w s with a | a <;> rcases Nat.lt_or_ge v s with b | b
  · rw [cyclicPos_lt _ _ _ hs a, cyclicPos_lt _ _ _ hs b] at e; omega
  · rw [cyclicPos_lt _ _ _ hs a, cyclicPos_ge _ _ _ hv1 b] at e; omega
  · rw [cyclicPos_ge _ _ _ hw1 a, cyclicPos_lt _ _ _ hs b] at e; omega
  · rw [cyclicPos_ge _ _ _ hw1 a, cyclicPos_ge _ _ _ hv1 b] at e; omega

theorem FindZero_fast (ba : BitArray) (hint : Nat) (hhint : hint < u64)
    (hlen : hint / 64 < ba.length)
    (hbit : (ba.getD (hint / 64) 0).testBit (hint % 64) = false) :
    FindZero ba hint = Except.ok hint := by
  unfold FindZero
  rw [index2pos_eq hint hhint]
  have := (and_two_pow_eq_zero (ba.getD (hint / 64) 0) (hint % 64)).2 hbit
  simp only [hlen, this, and_self, if_true]

theorem FindZero_slow (ba : BitArray) (hint : Nat) (hhint : hint < u64)
    (hle : hint / 64 ≤ ba.length)
    (hnot : ¬ (hint / 64 < ba.length ∧ (ba.getD (hint / 64) 0).testBit (hint % 64) = false)) :
    ((∀ w, w < ba.length → ba.getD w 0 = allFF) ∧ FindZero ba hint = Except.ok NotFound) ∨
    (∃ w, FirstNotFull ba (hint / 64) w ∧
      FindZero ba hint = Except.ok ((w * bpw + findZeroBit (ba.getD w 0)) % u64)) := by
  have hcond : ¬ (hint / 64 < ba.length ∧ ba.getD (hint / 64) 0 &&& 2 ^ (hint % 64) = 0) := by
    rw [and_two_pow_eq_zero]; exact hnot
  have hunf : FindZero ba hint =
      match scanWords ba (ba.length - hint / 64) (hint / 64) with
      | Scan.found i => Except.ok i
      | Scan.outOfRange => Except.error Panic.indexOutOfRange
      | Scan.exhausted =>
        match scanWords ba (hint / 64 - 0) 0 with
        | Scan.found i => Except.ok i
        | Scan.outOfRange => Except.error Panic.indexOutOfRange
        | Scan.exhausted => Except.ok NotFound := by
    unfold FindZero
    rw [index2pos_eq hint hhint]
    simp only [hcond, if_false]
  have getD_of : ∀ j w, ba[j]? = some w → ba.getD j 0 = w := by
    intro j w h
    rw [List.getD_eq_getElem?_getD, h]; rfl
  rcases scanWords_cases ba (ba.length - hint / 64) (hint / 64) (by omega) with
    ⟨h1, h2⟩ | ⟨w, word, h1, h2, h3, h4, h5, h6⟩
  · rcases scanWords_cases ba (hint / 64 - 0) 0 (by omega) with
      ⟨g1, g2⟩ | ⟨w, word, g1, g2, g3, g4, g5, g6⟩
    · left
      refine ⟨?_, ?_⟩
      · intro w hw
        rcases Nat.lt_or_ge w (hint / 64) with a | a
        · exact getD_of _ _ (g2 w (Nat.zero_le _) (by omega))
        · exact getD_of _ _ (h2 w a (by omega))
      · rw [hunf, h1, g1]
    · right
      have hwlt : w < hint / 64 := by omega
      refine ⟨w, ⟨by omega, by rw [getD_of _ _ g3]; exact g4, ?_⟩, ?_⟩
      · intro v hv hpos
        rcases Nat.lt_or_ge v (hint / 64) with a | a
        · rw [cyclicPos_lt _ _ _ hle a, cyclicPos_lt _ _ _ hle hwlt] at hpos
          exact getD_of _ _ (g5 v (Nat.zero_le _) (by omega))
        · exact getD_of _ _ (h2 v a (by omega))
      · rw [hunf, h1, g6, getD_of _ _ g3]
  · right
    have hwlt : w < ba.length := by omega
    refine ⟨w, ⟨hwlt, by rw [getD_of _ _ h3]; exact h4, ?_⟩, ?_⟩
    · intro v hv hpos
      rcases Nat.lt_or_ge v (hint / 64) with a | a
      · rw [cyclicPos_lt _ _ _ hle a, cyclicPos_ge _ _ _ hwlt h1] at hpos
        omega
      · rw [cyclicPos_ge _ _ _ hv a, cyclicPos_ge _ _ _ hwlt h1] at hpos
        exact getD_of _ _ (h5 v a (by omega))
    · rw [hunf, h6, getD_of _ _ h3]

theorem NumBits_eq {ba : BitArray} (hwf : WF ba) : NumBits ba = ba.length * 64 := by
  unfold NumBits
  exact Nat.mod_eq_of_lt hwf.2

theorem fast_cond_iff (ba : BitArray) (hint : Nat) (hhint : hint < u64) :
    (hint < 64 * ba.length ∧ IsSet ba hint = Except.ok false) ↔
    (hint / 64 < ba.length ∧ (ba.getD (hint / 64) 0).testBit (hint % 64) = false) := by
  have hdiv : hint < 64 * ba.length ↔ hint / 64 < ba.length := by
    constructor <;> intro h <;> omega
  constructor
  · rintro ⟨h1, h2⟩
    have h3 := hdiv.1 h1
    rw [IsSet_eq ba hint hhint h3] at h2
    exact ⟨h3, by injection h2⟩
  · rintro ⟨h1, h2⟩
    refine ⟨hdiv.2 h1, ?_⟩
    rw [IsSet_eq ba hint hhint h1, h2]

theorem found_index (ba : BitArray) (hwf : WF ba) (w : Nat) (hw : w < ba.length)
    (hne : ba.getD w 0 ≠ allFF) :
    (w * bpw + findZeroBit (ba.getD w 0)) % u64 = 64 * w + findZeroBit (ba.getD w 0) ∧
      findZeroBit (ba.getD w 0) < 64 := by
  have hfz := findZeroBit_lt _ (hwf.getD_lt w) hne
  have h2 := hwf.2
  simp only [bpw] at h2 ⊢
  exact ⟨by rw [Nat.mod_eq_of_lt (by omega)]; omega, hfz⟩

/-- `FindZero` returns for every hint whose word index is at most `len(ba)`:
either `NotFound`, and then every word is all ones, or the index of a 0 bit. -/
theorem FindZero_total (ba : BitArray) (hint : Nat) (hwf : WF ba) (hhint : hint < u64)
    (hle : hint / 64 ≤ ba.length) :
    (FindZero ba hint = Except.ok NotFound ∧ ∀ w, w < ba.length → ba.getD w 0 = allFF) ∨
    (∃ r, FindZero ba hint = Except.ok r ∧ r < ba.length * 64 ∧ testBitAt ba r = false) := by
  by_cases hfast : hint / 64 < ba.length ∧ (ba.getD (hint / 64) 0).testBit (hint % 64) = false
  · right
    exact ⟨hint, FindZero_fast ba hint hhint hfast.1 hfast.2, by omega, hfast.2⟩
  · rcases FindZero_slow ba hint hhint hle hfast with ⟨hall, hres⟩ | ⟨w, hw, hres⟩
    · left; exact ⟨hres, hall⟩
    · right
      have hm := found_index ba hwf w hw.1 hw.2.1
      have hlz := lowestZero_findZeroBit _ (hwf.getD_lt w) hw.2.1
      refine ⟨64 * w + findZeroBit (ba.getD w 0), by rw [hres, hm.1], ?_, ?_⟩
      · have := hw.1; have := hm.2; omega
      · unfold testBitAt
        have hdiv : (64 * w + findZeroBit (ba.getD w 0)) / 64 = w := by
          have := hm.2; omega
        have hrem : (64 * w + findZeroBit (ba.getD w 0)) % 64 = findZeroBit (ba.getD w 0) := by
          have := hm.2; omega
        rw [hdiv, hrem]; exact hlz.2.1

theorem getD_set (ba : BitArray) (a b w : Nat) :
    (ba.set a w).getD b 0 = if a = b ∧ a < ba.length then w else ba.getD b 0 := by
  rw [List.getD_eq_getElem?_getD, List.getD_eq_getElem?_getD, List.getElem?_set]
  by_cases hab : a = b
  · subst hab
    by_cases hl : a < ba.length
    · simp [hl]
    · simp [hl, List.getElem?_eq_none (Nat.le_of_not_lt hl)]
  · simp [hab]

theorem Set_eq (ba : BitArray) (i : Nat) (hi : i < u64) (hlen : i / 64 < ba.length) :
    Set ba i = Except.ok (ba.set (i / 64) (ba.getD (i / 64) 0 ||| 2 ^ (i % 64))) := by
  unfold Set
  rw [index2pos_eq i hi]
  simp only [getElem?_eq_some_getD ba _ hlen]

theorem testBitAt_set_or (ba : BitArray) (i j : Nat) (hlen : i / 64 < ba.length) :
    testBitAt (ba.set (i / 64) (ba.getD (i / 64) 0 ||| 2 ^ (i % 64))) j =
      (testBitAt ba j || decide (i = j)) := by
  unfold testBitAt
  rw [getD_set]
  by_cases hw : i / 64 = j / 64
  · rw [if_pos ⟨hw, hlen⟩, testBit_or_two_pow, hw]
    by_cases hij : i = j
    · subst hij; simp
    · have : i % 64 ≠ j % 64 := by omega
      simp [hij, this]
  · have hij : i ≠ j := fun h => hw (by rw [h])
    rw [if_neg (fun h => hw h.1)]
    simp [hij]

theorem ClearIfSet_ok_true (ba mask : BitArray) (i : Nat) (hi : i < u64)
    (h : ClearIfSet ba i = Except.ok (mask, true)) :
    i / 64 < ba.length ∧ testBitAt ba i = true ∧
    mask = ba.set (i / 64) (andNot (ba.getD (i / 64) 0) (2 ^ (i % 64))) := by
  unfold ClearIfSet at h
  rw [index2pos_eq i hi] at h
  rcases Nat.lt_or_ge (i / 64) ba.length with hl | hl
  · simp only [getElem?_eq_some_getD ba _ hl] at h
    refine ⟨hl, ?_⟩
    by_cases hz : ba.getD (i / 64) 0 &&& 2 ^ (i % 64) = 0
    · rw [if_neg (not_not.2 hz)] at h
      injection h with h
      injection h with _ h
      exact absurd h (by decide)
    · rw [if_pos hz] at h
      injection h with h
      injection h with h _
      refine ⟨?_, h.symm⟩
      unfold testBitAt
      cases hb : (ba.getD (i / 64) 0).testBit (i % 64)
      · exact absurd ((and_two_pow_eq_zero _ _).2 hb) hz
      · rfl
  · simp only [List.getElem?_eq_none hl] at h
    injection h

theorem ClearIfSet_of_clear (ba : BitArray) (i : Nat) (hi : i < u64) (hlen : i / 64 < ba.length)
    (hbit : testBitAt ba i = false) : ClearIfSet ba i = Except.ok (ba, false) := by
  unfold ClearIfSet
  rw [index2pos_eq i hi]
  simp only [getElem?_eq_some_getD ba _ hlen]
  have hz := (and_two_pow_eq_zero _ _).2 hbit
  rw [if_neg (not_not.2 hz)]

theorem ClearIfSet_of_set (ba : BitArray) (i : Nat) (hi : i < u64) (hlen : i / 64 < ba.length)
    (hbit : testBitAt ba i = true) :
    ClearIfSet ba i =
      Except.ok (ba.set (i / 64) (andNot (ba.getD (i / 64) 0) (2 ^ (i % 64))), true) := by
  unfold ClearIfSet
  rw [index2pos_eq i hi]
  simp only [getElem?_eq_some_getD ba _ hlen]
  have hz : ba.getD (i / 64) 0 &&& 2 ^ (i % 64) ≠ 0 := by
    intro h0
    have := (and_two_pow_eq_zero _ _).1 h0
    unfold testBitAt at hbit
    rw [this] at hbit
    exact absurd hbit (by decide)
  rw [if_pos hz]

theorem testBitAt_set_andNot (ba : BitArray) (i j : Nat) (hlen : i / 64 < ba.length) :
    testBitAt (ba.set (i / 64) (andNot (ba.getD (i / 64) 0) (2 ^ (i % 64)))) j =
      (testBitAt ba j && !decide (i = j)) := by
  unfold testBitAt
  rw [getD_set]
  have hj : j % 64 < 64 := Nat.mod_lt _ (by norm_num)
  by_cases hw : i / 64 = j / 64
  · rw [if_pos ⟨hw, hlen⟩, testBit_andNot_two_pow _ _ _ hj, hw]
    by_cases hij : i = j
    · subst hij; simp
    · have : i % 64 ≠ j % 64 := by omega
      simp [hij, this]
  · have hij : i ≠ j := fun h => hw (by rw [h])
    rw [if_neg (fun h => hw h.1)]
    simp [hij]

theorem testBitAt_ClearAll (ba : BitArray) (i : Nat) : testBitAt (ClearAll ba) i = false := by
  unfold testBitAt ClearAll
  rw [List.getD_eq_getElem?_getD, List.getElem?_map]
  cases ba[i / 64]? <;> simp

theorem length_ClearAll (ba : BitArray) : (ClearAll ba).length = ba.length := by
  unfold ClearAll; simp

theorem numWords_bounds (m : Nat) :
    1 ≤ numWords m ∧ m ≤ 64 * numWords m ∧ (0 < m → 64 * numWords m < m + 64) := by
  unfold numWords
  split <;> omega

/-- The value of `NewBitArray` for every `uint64` argument: `make` decides. -/
theorem NewBitArray_cases (m : Nat) (hm : m < u64) :
    NewBitArray m =
      if 8 * numWords m ≤ maxAlloc then Except.ok (List.replicate (numWords m) 0)
      else Except.error Panic.makeLenOutOfRange := by
  unfold NewBitArray numWords
  simp only [bpwShift, Nat.shiftRight_eq_div_pow, Nat.shiftLeft_eq]
  have h1 : m / 2 ^ 6 * 2 ^ 6 ≤ m := Nat.div_mul_le_self m _
  rw [Nat.mod_eq_of_lt (lt_of_le_of_lt h1 hm)]
  have e6 : (2 : Nat) ^ 6 = 64 := by norm_num
  rw [e6]
  have hc : (m / 64 * 64 < m ∨ m / 64 = 0) ↔ (m % 64 ≠ 0 ∨ m / 64 = 0) := by
    constructor <;> intro h <;> omega
  simp only [hc]
  have hlt : (if m % 64 ≠ 0 ∨ m / 64 = 0 then m / 64 + 1 else m / 64) < 2 ^ 63 := by
    unfold u64 at hm
    split <;> omega
  rw [if_pos hlt]

theorem NewBitArray_eq (m : Nat) (hm : m < u64) (hw : 8 * numWords m ≤ maxAlloc) :
    NewBitArray m = Except.ok (List.replicate (numWords m) 0) := by
  rw [NewBitArray_cases m hm, if_pos hw]

/-- The words of a bitmap for at most `maxAlloc` bits take at most `maxAlloc`
bytes. -/
theorem numWords_le_maxAlloc (m : Nat) (h : m ≤ maxAlloc) : 8 * numWords m ≤ maxAlloc := by
  unfold numWords maxAlloc at *
  split <;> omega

theorem setLastNLoop_testBit (m : Nat) : ∀ (word b j : Nat), m ≤ b + 1 →
    (setLastNLoop m word (2 ^ b)).testBit j =
      (word.testBit j || (decide (b < j + m) && decide (j ≤ b))) := by
  induction m with
  | zero =>
    intro word b j _
    simp only [setLastNLoop]
    by_cases h1 : b < j + 0 <;> by_cases h2 : j ≤ b <;> simp [h1, h2]
  | succ m ih =>
    intro word b j hb
    simp only [setLastNLoop]
    rcases Nat.eq_zero_or_pos m with hm | hm
    · subst hm
      simp only [setLastNLoop]
      rw [testBit_or_two_pow]
      by_cases h : b = j
      · subst h; simp
      · have : ¬ (b < j + (0 + 1) ∧ j ≤ b) := by omega
        by_cases h1 : b < j + (0 + 1) <;> by_cases h2 : j ≤ b <;> simp [h, h1, h2]
        omega
    · have hb1 : 1 ≤ b := by omega
      have hshift : (2 : Nat) ^ b >>> 1 = 2 ^ (b - 1) := by
        rw [Nat.shiftRight_eq_div_pow, Nat.pow_one]
        conv_lhs => rw [← Nat.sub_add_cancel hb1, Nat.pow_succ]
        exact Nat.mul_div_cancel _ (by norm_num)
      rw [hshift, ih (word ||| 2 ^ b) (b - 1) j (by omega), testBit_or_two_pow]
      by_cases h : b = j
      · subst h
        have h1 : b < b + (m + 1) := by omega
        simp [h1]
      · by_cases h1 : b < j + (m + 1) <;> by_cases h2 : j ≤ b
        · have h3 : b - 1 < j + m := by omega
          have h4 : j ≤ b - 1 := by omega
          simp [h, h1, h2, h3, h4]
        · have h4 : ¬ j ≤ b - 1 := by omega
          simp [h, h1, h2, h4]
        · have h3 : ¬ b - 1 < j + m := by omega
          simp [h, h1, h2, h3]
        · have h4 : ¬ j ≤ b - 1 := by omega
          simp [h, h1, h2, h4]

theorem setLastNLoop_lt (m word : Nat) (hm : m ≤ 64) (hw : word < u64) :
    setLastNLoop m word (2 ^ 63) < u64 := by
  unfold u64
  apply Nat.lt_pow_two_of_testBit
  intro i hi
  rw [setLastNLoop_testBit m word 63 i (by omega)]
  have h1 : word.testBit i = false :=
    Nat.testBit_lt_two_pow (lt_of_lt_of_le hw (by
      unfold u64; exact Nat.pow_le_pow_right (by norm_num) hi))
  have h2 : ¬ i ≤ 63 := by omega
  simp [h1, h2]

theorem SetLastN_replicate (L pad : Nat) (hL : 1 ≤ L) (hpad : pad ≤ 64) :
    SetLastN (List.replicate L 0) pad =
      Except.ok ((List.replicate L 0).set (L - 1) (setLastNLoop pad 0 (2 ^ 63))) := by
  unfold SetLastN
  rw [if_neg (by simp only [bpw]; omega)]
  obtain ⟨k, rfl⟩ : ∃ k, L = k + 1 := ⟨L - 1, by omega⟩
  simp only [List.length_replicate, Nat.add_sub_cancel]
  rw [List.getElem?_replicate_of_lt (by omega)]

/-! ## Claims on `FindZero` -/

/-- C10.  `FindZero` on an array of `L` words with a hint whose word index is at
most `L`: a hinted bit that is in range and 0 is returned as it is; otherwise the
result is `64 * w + z` for the first word `w`, in the cyclic order from the word
of the hint, that is not all ones and the lowest 0 bit `z` of that word, and
`NotFound` when every word is all ones (one of the two cases always applies).
The call always returns, and a result other than `NotFound` is below `NumBits()`
and indexes a 0 bit.  (The array is an argument only: nothing is written.) -/
theorem FindZero_spec (ba : BitArray) (hint : Nat) (hwf : WF ba) (hhint : hint < u64)
    (hle : hint / 64 ≤ ba.length) :
    (hint < 64 * ba.length → IsSet ba hint = Except.ok false →
      FindZero ba hint = Except.ok hint) ∧
    (¬ (hint < 64 * ba.length ∧ IsSet ba hint = Except.ok false) →
      (∀ w z, FirstNotFull ba (hint / 64) w → LowestZero (ba.getD w 0) z →
        FindZero ba hint = Except.ok (64 * w + z)) ∧
      ((∀ w, w < ba.length → ba.getD w 0 = allFF) → FindZero ba hint = Except.ok NotFound) ∧
      ((∃ w z, FirstNotFull ba (hint / 64) w ∧ LowestZero (ba.getD w 0) z) ∨
        (∀ w, w < ba.length → ba.getD w 0 = allFF))) ∧
    (∃ r, FindZero ba hint = Except.ok r ∧
      (r ≠ NotFound → r < NumBits ba ∧ IsSet ba r = Except.ok false)) := by
  have hmod : ∀ w, w < ba.length → ba.getD w 0 ≠ allFF →
      (w * bpw + findZeroBit (ba.getD w 0)) % u64 = 64 * w + findZeroBit (ba.getD w 0) ∧
      findZeroBit (ba.getD w 0) < 64 := by
    intro w hw hne
    have hfz := findZeroBit_lt _ (hwf.getD_lt w) hne
    have h2 := hwf.2
    simp only [bpw] at h2 ⊢
    exact ⟨by rw [Nat.mod_eq_of_lt (by omega)]; omega, hfz⟩
  refine ⟨?_, ?_, ?_⟩
  · intro h1 h2
    have h := (fast_cond_iff ba hint hhint).1 ⟨h1, h2⟩
    exact FindZero_fast ba hint hhint h.1 h.2
  · intro hnot
    have hnot2 := fun h => hnot ((fast_cond_iff ba hint hhint).2 h)
    rcases FindZero_slow ba hint hhint hle hnot2 with ⟨hall, hres⟩ | ⟨w, hw, hres⟩
    · refine ⟨?_, fun _ => hres, Or.inr hall⟩
      intro w z hw _
      exact absurd (hall w hw.1) hw.2.1
    · have hm := hmod w hw.1 hw.2.1
      have hlz := lowestZero_findZeroBit _ (hwf.getD_lt w) hw.2.1
      refine ⟨?_, ?_, Or.inl ⟨w, _, hw, hlz⟩⟩
      · intro v z hv hz
        have e := FirstNotFull.unique hle hv hw
        subst e
        rw [hres, hm.1, findZeroBit_eq_of_lowestZero _ _ hz]
      · intro hall
        exact absurd (hall w hw.1) hw.2.1
  · by_cases hfast : hint / 64 < ba.length ∧ (ba.getD (hint / 64) 0).testBit (hint % 64) = false
    · refine ⟨hint, FindZero_fast ba hint hhint hfast.1 hfast.2, fun _ => ?_⟩
      have h := (fast_cond_iff ba hint hhint).2 hfast
      rw [NumBits_eq hwf]
      exact ⟨by omega, h.2⟩
    · rcases FindZero_slow ba hint hhint hle hfast with ⟨_, hres⟩ | ⟨w, hw, hres⟩
      · exact ⟨NotFound, hres, fun h => absurd rfl h⟩
      · have hm := hmod w hw.1 hw.2.1
        have hlz := lowestZero_findZeroBit _ (hwf.getD_lt w) hw.2.1
        refine ⟨64 * w + findZeroBit (ba.getD w 0), by rw [hres, hm.1], fun _ => ?_⟩
        have hlt : 64 * w + findZeroBit (ba.getD w 0) < ba.length * 64 := by
          have := hw.1; have := hm.2; omega
        have hdiv : (64 * w + findZeroBit (ba.getD w 0)) / 64 = w := by
          have := hm.2; omega
        have hrem : (64 * w + findZeroBit (ba.getD w 0)) % 64 = findZeroBit (ba.getD w 0) := by
          have := hm.2; omega
        rw [NumBits_eq hwf]
        refine ⟨hlt, ?_⟩
        rw [IsSet_eq ba _ (lt_trans hlt (by simpa [bpw] using hwf.2)) (by rw [hdiv]; exact hw.1),
          hdiv, hrem, hlz.2.1]

/-- Witness for C10: in the array `[allFF, 5, 0]` bit 3 is set, so the hint 3 is
not returned; word 1 is the first word from word 0 on that is not all ones and
bit 1 is its lowest 0 bit, and `FindZero(3)` returns `64 * 1 + 1`. -/
theorem FindZero_spec_witness :
    WF [allFF, 5, 0] ∧ FirstNotFull [allFF, 5, 0] (3 / 64) 1 ∧
      LowestZero (List.getD [allFF, 5, 0] 1 0) 1 ∧
      FindZero [allFF, 5, 0] 3 = Except.ok (64 * 1 + 1) :=
  have hwf : WF [allFF, 5, 0] := by unfold WF; decide
  have hfirst : FirstNotFull [allFF, 5, 0] (3 / 64) 1 := by unfold FirstNotFull; decide
  have hlow : LowestZero (List.getD [allFF, 5, 0] 1 0) 1 := by unfold LowestZero; decide
  ⟨hwf, hfirst, hlow,
    ((FindZero_spec [allFF, 5, 0] 3 hwf (by decide) (by decide)).2.1 (by decide)).1 1 1
      hfirst hlow⟩

/-- C9.  A 192-bit array with every bit set (the array of `Test_Find` after
`SetAll`) and the hint 999 of that test: every bit is 1, and `FindZero` panics
with an index out of range instead of returning `NotFound`. -/
theorem FindZero_far_hint_all_ones_panics :
    NewBitArray 192 = Except.ok [0, 0, 0] ∧ SetAll [0, 0, 0] = [allFF, allFF, allFF] ∧
    AllOnes [allFF, allFF, allFF] ∧
    FindZero [allFF, allFF, allFF] 999 = Except.error Panic.indexOutOfRange := by
  refine ⟨by decide, by decide, ?_, by decide⟩
  unfold AllOnes
  decide

end bitarray

/-! ## Lemmas on the pool -/

namespace fixedpool

open bitarray

theorem Free_ok_inv (pool p : Pool) (h : Nat) (h0 : h ≠ 0) (hf : pool.Free h = Except.ok p) :
    ∃ view mask, pool.Get h = Except.ok view ∧
      ClearIfSet pool.allocMask (h - 1) = Except.ok (mask, true) ∧
      p = { pool with
            data := fillZero pool.data view
            allocMask := mask
            nUsed := wrapInt64 (pool.nUsed - 1)
            nextAllocIndex := h - 1 } := by
  unfold Pool.Free at hf
  rw [if_neg h0] at hf
  cases hg : pool.Get h with
  | error e => rw [hg] at hf; injection hf
  | ok view =>
    rw [hg] at hf
    simp only at hf
    cases hc : ClearIfSet pool.allocMask (h - 1) with
    | error e => rw [hc] at hf; injection hf
    | ok r =>
      rw [hc] at hf
      obtain ⟨mask, b⟩ := r
      cases b with
      | false => injection hf
      | true =>
        injection hf with hf
        exact ⟨view, mask, rfl, rfl, hf.symm⟩

theorem Alloc_fast (pool : Pool) (hk : pool.nextAllocIndex < NotFound)
    (hlen : pool.nextAllocIndex / 64 < pool.allocMask.length)
    (hbit : testBitAt pool.allocMask pool.nextAllocIndex = false) :
    pool.Alloc = Except.ok
      ({ pool with
          allocMask := pool.allocMask.set (pool.nextAllocIndex / 64)
            (pool.allocMask.getD (pool.nextAllocIndex / 64) 0 ||| 2 ^ (pool.nextAllocIndex % 64))
          nextAllocIndex := (pool.nextAllocIndex + 1) % u64
          nUsed := wrapInt64 (pool.nUsed + 1) },
       (pool.nextAllocIndex % u32 + 1) % u32) := by
  have hk64 : pool.nextAllocIndex < u64 := lt_trans hk (by decide)
  unfold Pool.Alloc
  rw [FindZero_fast _ _ hk64 hlen hbit]
  simp only [if_neg (Nat.ne_of_lt hk), Set_eq _ _ hk64 hlen]

theorem Reachable.live_bounds {w fa : Bool} {bs n : Int} {t : Tracked}
    (hr : Reachable w fa bs n t) : ∀ h ∈ t.live, 0 < h ∧ h < u32 := by
  induction hr with
  | init _ => intro h hh; simp at hh
  | @alloc t p h _ ha ih =>
    intro x hx
    by_cases h0 : h = 0
    · simp only [h0, if_true] at hx; exact ih x hx
    · simp only [h0, if_false, List.mem_cons] at hx
      rcases hx with rfl | hx
      · refine ⟨Nat.pos_of_ne_zero h0, ?_⟩
        unfold Pool.Alloc at ha
        cases hfz : FindZero t.pool.allocMask t.pool.nextAllocIndex with
        | error e => rw [hfz] at ha; injection ha
        | ok r =>
          rw [hfz] at ha
          simp only at ha
          by_cases hnf : r = NotFound
          · rw [if_pos hnf] at ha
            injection ha with ha
            injection ha with _ ha
            exact absurd ha.symm h0
          · rw [if_neg hnf] at ha
            cases hs : Set t.pool.allocMask r with
            | error e => rw [hs] at ha; injection ha
            | ok m =>
              rw [hs] at ha
              injection ha with ha
              injection ha with _ ha
              rw [← ha]
              exact Nat.mod_lt _ (by decide)
      · exact ih x hx
  | free h _ _ _ ih => intro x hx; exact ih x (List.mem_of_mem_erase hx)
  | write _ _ _ _ _ _ _ ih => exact ih
  | freeAll _ _ _ => intro h hh; simp at hh

theorem wrapInt64_of_range (x : Int) (h1 : -(2 ^ 63) ≤ x) (h2 : x < 2 ^ 63) :
    wrapInt64 x = x := by
  unfold wrapInt64
  omega

theorem wrapInt64_le (x : Int) (h : 0 ≤ x) : wrapInt64 x ≤ x := by
  unfold wrapInt64
  omega

/-- The value of `NewPool` for positive sizes whose buffer length, as an `int`,
is not negative, when `make` accepts the buffer and the bitmap. -/
theorem NewPool_eq (bs n : Int) (hbs : 0 < bs) (hn : 0 < n) (hn63 : n < 2 ^ 63)
    (hsize : 0 ≤ wrapInt64 (n * bs)) (hmax : wrapInt64 (n * bs) ≤ maxAlloc)
    (hw : 8 * numWords n.toNat ≤ maxAlloc) :
    NewPool bs n = Except.ok
      { blockSize := bs
        nUsed := 0
        data := { len := (wrapInt64 (n * bs)).toNat, get := fun _ => 0 }
        allocMask := (List.replicate (numWords n.toNat) 0).set (numWords n.toNat - 1)
          (setLastNLoop (64 * numWords n.toNat - n.toNat) 0 (2 ^ 63))
        nextAllocIndex := 0 } := by
  have hm : n.toNat < u64 := by unfold u64; omega
  obtain ⟨hL1, hL2, hL3⟩ := numWords_bounds n.toNat
  have hL3 := hL3 (by omega)
  unfold NewPool
  rw [if_neg (by omega)]
  simp only
  rw [if_neg (by omega), Nat.mod_eq_of_lt hm, NewBitArray_eq _ hm hw]
  simp only
  have hnb : NumBits (List.replicate (numWords n.toNat) 0) = 64 * numWords n.toNat := by
    unfold NumBits
    rw [List.length_replicate, Nat.mod_eq_of_lt (by unfold u64 bpw at *; omega)]
    unfold bpw; omega
  have hpad : (NumBits (List.replicate (numWords n.toNat) 0) + u64 - n.toNat) % u64
      = 64 * numWords n.toNat - n.toNat := by
    rw [hnb]
    have e : 64 * numWords n.toNat + u64 - n.toNat = (64 * numWords n.toNat - n.toNat) + u64 := by
      omega
    rw [e, Nat.add_mod_right, Nat.mod_eq_of_lt (by unfold u64; omega)]
  rw [hpad, SetLastN_replicate _ _ hL1 (by omega)]

theorem getD_replicate_zero (L k : Nat) : (List.replicate L 0).getD k 0 = 0 := by
  rw [List.getD_eq_getElem?_getD, List.getElem?_replicate]
  split <;> rfl

theorem testBitAt_newMask (m i : Nat) (hm : 0 < m) :
    testBitAt ((List.replicate (numWords m) 0).set (numWords m - 1)
      (setLastNLoop (64 * numWords m - m) 0 (2 ^ 63))) i
      = decide (m ≤ i ∧ i < 64 * numWords m) := by
  obtain ⟨hL1, hL2, hL3⟩ := numWords_bounds m
  have hL3 := hL3 hm
  unfold testBitAt
  rw [getD_set, List.length_replicate]
  by_cases hw : numWords m - 1 = i / 64
  · rw [if_pos ⟨hw, by omega⟩, setLastNLoop_testBit _ _ 63 _ (by omega), Nat.zero_testBit]
    have hj : i % 64 ≤ 63 := by omega
    by_cases hc : m ≤ i ∧ i < 64 * numWords m
    · have : 63 < i % 64 + (64 * numWords m - m) := by omega
      simp [hc, this, hj]
    · have : ¬ 63 < i % 64 + (64 * numWords m - m) := by omega
      simp [hc, this]
  · rw [if_neg (fun h => hw h.1), getD_replicate_zero, Nat.zero_testBit]
    have : ¬ (m ≤ i ∧ i < 64 * numWords m) := by omega
    simp [this]

theorem WF_newMask (m : Nat) (hm : m < 2 ^ 63) :
    WF ((List.replicate (numWords m) 0).set (numWords m - 1)
      (setLastNLoop (64 * numWords m - m) 0 (2 ^ 63))) := by
  obtain ⟨hL1, hL2, hL3⟩ := numWords_bounds m
  refine ⟨?_, ?_⟩
  · intro w hw
    rcases List.mem_or_eq_of_mem_set hw with h | h
    · rw [List.eq_of_mem_replicate h]; decide
    · rw [h]
      refine setLastNLoop_lt _ _ ?_ (by decide)
      rcases Nat.eq_zero_or_pos m with h0 | h0
      · subst h0
        have : numWords 0 = 1 := by decide
        rw [this]
      · have := hL3 h0; omega
  · rw [List.length_set, List.length_replicate]
    rcases Nat.eq_zero_or_pos m with h0 | h0
    · subst h0
      have : numWords 0 = 1 := by decide
      rw [this]; decide
    · have := hL3 h0
      unfold bpw u64; omega

/-- A pool of positive sizes whose buffer `make` accepts. -/
theorem NewPool_ok (bs n : Int) (hbs0 : 0 < bs) (hn0 : 0 < n) (hsz : bs * n ≤ maxAlloc) :
    ∃ p, NewPool bs n = Except.ok p ∧ p.BlockSize = bs ∧ p.NumBlocks = Except.ok n ∧
      p.NumUsed = 0 ∧ p.NumFree = Except.ok n ∧
      (p.data.len : Int) = n * bs ∧ (∀ i, i < p.data.len → p.data.get i = 0) ∧
      WF p.allocMask ∧ (n : Int) ≤ NumBits p.allocMask ∧
      ∀ i, i < NumBits p.allocMask →
        IsSet p.allocMask i = Except.ok (decide (n ≤ (i : Int))) := by
  have hprod : 0 < n * bs := Int.mul_pos hn0 hbs0
  have hcomm : n * bs = bs * n := Int.mul_comm _ _
  have hma : (maxAlloc : Int) = 2 ^ 48 := by unfold maxAlloc; norm_num
  have hw : wrapInt64 (n * bs) = n * bs :=
    wrapInt64_of_range _ (by omega) (by omega)
  have hnle : n ≤ maxAlloc := by
    have : n * 1 ≤ n * bs := Int.mul_le_mul_of_nonneg_left (by omega) (by omega)
    omega
  have hn63 : n < 2 ^ 63 := by omega
  have heq := NewPool_eq bs n hbs0 hn0 hn63 (by rw [hw]; omega) (by rw [hw]; omega)
    (numWords_le_maxAlloc _ (by omega))
  have hwf := WF_newMask n.toNat (by omega)
  have hlenI : (((wrapInt64 (n * bs)).toNat : Nat) : Int) = n * bs := by
    rw [hw]; exact Int.toNat_of_nonneg (by omega)
  have hnb : Int.tdiv (n * bs) bs = n := Int.mul_tdiv_cancel n (by omega)
  obtain ⟨hL1, hL2, hL3⟩ := numWords_bounds n.toNat
  refine ⟨_, heq, rfl, ?_, rfl, ?_, hlenI, fun _ _ => rfl, hwf, ?_, ?_⟩
  · simp only [Pool.NumBlocks]
    rw [if_neg (by omega), hlenI, hnb]
  · simp only [Pool.NumFree, Pool.NumBlocks]
    rw [if_neg (by omega), hlenI, hnb]
    simp only [Int.sub_zero]
    rw [wrapInt64_of_range n (by omega) hn63]
  · rw [NumBits_eq hwf, List.length_set, List.length_replicate]
    omega
  · intro i hi
    rw [NumBits_eq hwf, List.length_set, List.length_replicate] at hi
    have hi64 : i < u64 := lt_trans hi (by
      have := hwf.2
      rw [List.length_set, List.length_replicate] at this
      simpa [bpw] using this)
    rw [IsSet_eq _ i hi64 (by rw [List.length_set, List.length_replicate]; omega)]
    have := testBitAt_newMask n.toNat i (by omega)
    unfold testBitAt at this
    rw [this]
    congr 1
    have e : (n.toNat ≤ i ∧ i < 64 * numWords n.toNat) ↔ n ≤ (i : Int) := by
      constructor
      · intro h; omega
      · intro h; omega
    simp only [e]

theorem fillZeroLoop_get (fuel : Nat) : ∀ (get : Nat → Nat) (lo hi i j : Nat),
    fillZeroLoop fuel get lo hi i j =
      if lo + i ≤ j ∧ j < min hi (lo + i + 128 * fuel) then 0 else get j := by
  induction fuel with
  | zero =>
    intro get lo hi i j
    simp only [fillZeroLoop]
    rw [if_neg (by omega)]
  | succ fuel ih =>
    intro get lo hi i j
    simp only [fillZeroLoop]
    by_cases hc : i < hi - lo
    · rw [if_pos hc, ih]
      unfold copyZeros
      by_cases h1 : lo + (i + 128) ≤ j ∧ j < min hi (lo + (i + 128) + 128 * fuel)
      · rw [if_pos h1, if_pos (by omega)]
      · rw [if_neg h1]
        by_cases h2 : lo + i ≤ j ∧ j < min (lo + i + 128) hi
        · rw [if_pos h2, if_pos (by omega)]
        · rw [if_neg h2, if_neg (by omega)]
    · rw [if_neg hc, if_neg (by omega)]

theorem fillZero_get (d : Bytes) (lo hi j : Nat) :
    (fillZero d (lo, hi)).get j = if lo ≤ j ∧ j < hi then 0 else d.get j := by
  simp only [fillZero, fillZeroLoop_get]
  by_cases h : lo ≤ j ∧ j < hi
  · rw [if_pos h, if_pos (by omega)]
  · rw [if_neg h, if_neg (by omega)]

theorem fillZero_len (d : Bytes) (view : Nat × Nat) : (fillZero d view).len = d.len := rfl

theorem Set_length (ba mask : BitArray) (i : Nat) (h : Set ba i = Except.ok mask) :
    mask.length = ba.length := by
  unfold bitarray.Set at h
  simp only at h
  cases hg : ba[(index2pos i).1]? with
  | none => rw [hg] at h; injection h
  | some w =>
    rw [hg] at h
    injection h with h
    rw [← h, List.length_set]

theorem Alloc_ok_inv (pool p : Pool) (h : Nat) (ha : pool.Alloc = Except.ok (p, h)) :
    (p = pool ∧ h = 0 ∧
      FindZero pool.allocMask pool.nextAllocIndex = Except.ok NotFound) ∨
    (∃ r mask, FindZero pool.allocMask pool.nextAllocIndex = Except.ok r ∧ r ≠ NotFound ∧
      Set pool.allocMask r = Except.ok mask ∧
      p = { pool with
            allocMask := mask
            nextAllocIndex := (r + 1) % u64
            nUsed := wrapInt64 (pool.nUsed + 1) } ∧
      h = (r % u32 + 1) % u32) := by
  unfold Pool.Alloc at ha
  cases hfz : FindZero pool.allocMask pool.nextAllocIndex with
  | error e => rw [hfz] at ha; injection ha
  | ok r =>
    rw [hfz] at ha
    simp only at ha
    by_cases hnf : r = NotFound
    · rw [if_pos hnf] at ha
      injection ha with ha
      injection ha with h1 h2
      left
      exact ⟨h1.symm, h2.symm, by rw [hnf]⟩
    · rw [if_neg hnf] at ha
      cases hs : Set pool.allocMask r with
      | error e => rw [hs] at ha; injection ha
      | ok m =>
        rw [hs] at ha
        injection ha with ha
        injection ha with h1 h2
        right
        exact ⟨r, m, rfl, hnf, hs, h1.symm, h2.symm⟩

/-- What a call of `NewPool` that returns says of its arguments: `make` has
accepted the buffer and the bitmap. -/
theorem NewPool_of_ok (bs n : Int) (p : Pool) (hn : n < 2 ^ 63)
    (h : NewPool bs n = Except.ok p) :
    0 < bs ∧ 0 < n ∧ 0 ≤ wrapInt64 (n * bs) ∧ wrapInt64 (n * bs) ≤ maxAlloc ∧
      8 * numWords n.toNat ≤ maxAlloc := by
  have hpos : ¬ (n ≤ 0 ∨ bs ≤ 0) := by
    intro hc
    unfold NewPool at h
    rw [if_pos hc] at h
    injection h
  have hsz : ¬ (wrapInt64 (n * bs) < 0 ∨ (maxAlloc : Int) < wrapInt64 (n * bs)) := by
    intro hc
    unfold NewPool at h
    rw [if_neg hpos] at h
    simp only at h
    rw [if_pos hc] at h
    injection h
  have hm : n.toNat < u64 := by unfold u64; omega
  have hw : 8 * numWords n.toNat ≤ maxAlloc := by
    by_contra hc
    unfold NewPool at h
    rw [if_neg hpos] at h
    simp only at h
    rw [if_neg hsz, Nat.mod_eq_of_lt hm, NewBitArray_cases _ hm, if_neg hc] at h
    injection h
  exact ⟨by omega, by omega, by omega, by omega, hw⟩

theorem NewPool_shape (bs n : Int) (p : Pool) (hn : n < 2 ^ 63)
    (h : NewPool bs n = Except.ok p) : Shape bs n p := by
  obtain ⟨hbs, hn0, hsz, hmax, hw⟩ := NewPool_of_ok bs n p hn h
  rw [NewPool_eq bs n hbs hn0 hn hsz hmax hw] at h
  injection h with h
  subst h
  exact ⟨hbs, hn0, hsz, rfl, rfl, by
    rw [List.length_set, List.length_replicate]⟩

theorem Reachable.shape {w fa : Bool} {bs n : Int} {t : Tracked} (hn : n < 2 ^ 63)
    (hr : Reachable w fa bs n t) : Shape bs n t.pool := by
  induction hr with
  | init h => exact NewPool_shape bs n _ hn h
  | @alloc t p h _ ha ih =>
    rcases Alloc_ok_inv _ _ _ ha with ⟨hp, _, _⟩ | ⟨r, mask, _, _, hs, hp, _⟩
    · simp only; rw [hp]; exact ih
    · simp only
      rw [hp]
      exact ⟨ih.pos_bs, ih.pos_n, ih.size_nonneg, ih.blockSize_eq, ih.len_eq, by
        rw [Set_length _ _ _ hs]; exact ih.words_eq⟩
  | @free t p h _ hlt hf ih =>
    by_cases h0 : h = 0
    · subst h0
      have : p = t.pool := by
        unfold Pool.Free at hf
        rw [if_pos rfl] at hf
        injection hf with hf
        exact hf.symm
      simp only; rw [this]; exact ih
    · obtain ⟨view, mask, _, hc, hp⟩ := Free_ok_inv _ _ _ h0 hf
      have hi : h - 1 < u64 :=
        lt_of_le_of_lt (Nat.sub_le _ _) (lt_trans hlt (by decide))
      obtain ⟨_, _, hmask⟩ := ClearIfSet_ok_true _ _ _ hi hc
      simp only
      rw [hp]
      exact ⟨ih.pos_bs, ih.pos_n, ih.size_nonneg, ih.blockSize_eq, ih.len_eq, by
        rw [hmask, List.length_set]; exact ih.words_eq⟩
  | @write t p h i v _ _ _ hw ih =>
    unfold Pool.Write at hw
    cases hg : t.pool.Get h with
    | error e => rw [hg] at hw; injection hw
    | ok view =>
      rw [hg] at hw
      simp only at hw
      by_cases hc : i < view.2 - view.1
      · rw [if_pos hc] at hw
        injection hw with hw
        simp only
        rw [← hw]
        exact ⟨ih.pos_bs, ih.pos_n, ih.size_nonneg, ih.blockSize_eq, ih.len_eq, ih.words_eq⟩
      · rw [if_neg hc] at hw
        injection hw
  | freeAll _ _ ih =>
    exact ⟨ih.pos_bs, ih.pos_n, ih.size_nonneg, ih.blockSize_eq, ih.len_eq, by
      simp only [Pool.FreeAll, length_ClearAll]; exact ih.words_eq⟩

/-- Consecutive calls of `Alloc` on a pool whose bits from the hint on are all
clear take the fast path of `FindZero` and return the handles `hint + 1`,
`hint + 2`, ... reduced to `uint32`; each of them counts a block. -/
theorem allocN_seq (j : Nat) : ∀ (q : Pool),
    q.nextAllocIndex + j ≤ 64 * q.allocMask.length → q.nextAllocIndex + j ≤ 2 ^ 32 →
    (∀ i, q.nextAllocIndex ≤ i → testBitAt q.allocMask i = false) →
    ∃ q', q.allocN j =
      Except.ok (q', (List.range' q.nextAllocIndex j).map (fun i => (i % u32 + 1) % u32)) ∧
      q'.data = q.data ∧ q'.blockSize = q.blockSize ∧
      (0 ≤ q.nUsed → q.nUsed + j < 2 ^ 63 → q'.nUsed = q.nUsed + j) := by
  induction j with
  | zero => intro q _ _ _; exact ⟨q, rfl, rfl, rfl, fun _ _ => by simp⟩
  | succ j ih =>
    intro q h1 h2 h3
    have hk : q.nextAllocIndex < NotFound :=
      lt_of_lt_of_le (by omega : q.nextAllocIndex < 2 ^ 32) (by decide)
    have hlen : q.nextAllocIndex / 64 < q.allocMask.length := by omega
    have ha := Alloc_fast q hk hlen (h3 _ (le_refl _))
    have hnext : (q.nextAllocIndex + 1) % u64 = q.nextAllocIndex + 1 :=
      Nat.mod_eq_of_lt (by unfold u64; omega)
    rw [hnext] at ha
    have key := ih
      { blockSize := q.blockSize
        nUsed := wrapInt64 (q.nUsed + 1)
        data := q.data
        allocMask := q.allocMask.set (q.nextAllocIndex / 64)
          (q.allocMask.getD (q.nextAllocIndex / 64) 0 ||| 2 ^ (q.nextAllocIndex % 64))
        nextAllocIndex := q.nextAllocIndex + 1 }
    simp only [List.length_set] at key
    obtain ⟨q', hq', hd, hb, hu⟩ := key (by omega) (by omega) (by
      intro i hi
      rw [testBitAt_set_or _ _ _ hlen, h3 i (by omega)]
      have : q.nextAllocIndex ≠ i := by omega
      simp [this])
    refine ⟨q', ?_, hd, hb, ?_⟩
    · simp only [Pool.allocN, ha, hq', List.range'_succ, List.map_cons]
    · intro h0 hlt
      have hw : wrapInt64 (q.nUsed + 1) = q.nUsed + 1 :=
        wrapInt64_of_range _ (by omega) (by omega)
      rw [hw] at hu
      rw [hu (by omega) (by push_cast at hlt ⊢; omega)]
      push_cast
      omega

theorem NumBlocks_le (bs n : Int) (p : Pool) (hs : Shape bs n p) :
    ∃ N : Nat, p.NumBlocks = Except.ok (N : Int) ∧ (N : Int) ≤ n := by
  have hbs := hs.pos_bs
  have hn := hs.pos_n
  have hw := hs.size_nonneg
  have hle : wrapInt64 (n * bs) ≤ n * bs :=
    wrapInt64_le _ (Int.le_of_lt (Int.mul_pos hn hbs))
  have hlen : (p.data.len : Int) = wrapInt64 (n * bs) := by
    rw [hs.len_eq]; exact Int.toNat_of_nonneg hw
  have hdiv : Int.tdiv (p.data.len : Int) p.blockSize = wrapInt64 (n * bs) / bs := by
    rw [hlen, hs.blockSize_eq, Int.tdiv_eq_ediv hw (Int.le_of_lt hbs)]
  have h1 : wrapInt64 (n * bs) / bs ≤ n := by
    have := Int.ediv_le_ediv hbs hle
    rwa [Int.mul_ediv_cancel n (by omega : bs ≠ 0)] at this
  have h0 : 0 ≤ wrapInt64 (n * bs) / bs := Int.ediv_nonneg hw (Int.le_of_lt hbs)
  refine ⟨(wrapInt64 (n * bs) / bs).toNat, ?_, ?_⟩
  · unfold Pool.NumBlocks
    rw [if_neg (by rw [hs.blockSize_eq]; omega), hdiv, Int.toNat_of_nonneg h0]
  · rw [Int.toNat_of_nonneg h0]; exact h1

theorem mem_seq_handles_ne_zero (N h : Nat) (hN : N ≤ 2 ^ 32 - 1)
    (hh : h ∈ (List.range' 0 N).map (fun i => (i % u32 + 1) % u32)) : h ≠ 0 := by
  rw [List.mem_map] at hh
  obtain ⟨i, hi, rfl⟩ := hh
  rw [List.mem_range'_1] at hi
  unfold u32
  omega

theorem WF_set (ba : BitArray) (a w : Nat) (hwf : WF ba) (hw : w < u64) : WF (ba.set a w) := by
  refine ⟨?_, by rw [List.length_set]; exact hwf.2⟩
  intro x hx
  rcases List.mem_or_eq_of_mem_set hx with h | h
  · exact hwf.1 x h
  · rw [h]; exact hw

theorem two_pow_mod_lt (k : Nat) : 2 ^ (k % 64) < u64 := by
  unfold u64
  exact Nat.pow_lt_pow_right (by norm_num) (Nat.mod_lt _ (by norm_num))

theorem live_length_le (l : List Nat) (m : Nat) (hnd : l.Nodup)
    (hr : ∀ h ∈ l, 1 ≤ h ∧ h ≤ m) : l.length ≤ m := by
  have hsub : l ⊆ List.range' 1 m := by
    intro h hh
    rw [List.mem_range'_1]
    have := hr h hh
    omega
  have := (List.subperm_of_subset hnd hsub).length_le
  rwa [List.length_range'] at this

/-- The arithmetic of `Get` for a handle whose block ends below byte `2^32`. -/
theorem Get_eq (pool : Pool) (h : Nat) (h0 : h ≠ 0) (hbs : 0 ≤ pool.blockSize)
    (hlt : (h : Int) * pool.blockSize < 2 ^ 32) :
    pool.Get h =
      if h * pool.blockSize.toNat ≤ pool.data.len then
        Except.ok ((h - 1) * pool.blockSize.toNat, h * pool.blockSize.toNat)
      else Except.error Panic.sliceBoundsOutOfRange := by
  obtain ⟨B, hB⟩ : ∃ B : Nat, pool.blockSize = (B : Int) := ⟨pool.blockSize.toNat, by omega⟩
  have hhB : h * B < 2 ^ 32 := by
    rw [hB] at hlt
    exact_mod_cast hlt
  have hBlt : B < 2 ^ 32 := by
    have : 1 * B ≤ h * B := Nat.mul_le_mul_right B (by omega)
    omega
  have hsplit : h * B = (h - 1) * B + B := by
    conv_lhs => rw [← Nat.sub_add_cancel (Nat.pos_of_ne_zero h0)]
    rw [Nat.add_mul, Nat.one_mul]
  unfold Pool.Get
  rw [if_neg h0, hB]
  have e1 : (((B : Int) % 2 ^ 32).toNat) = B := by omega
  simp only [e1, Int.toNat_ofNat]
  have e2 : ((h - 1) * B) % u32 = (h - 1) * B := Nat.mod_eq_of_lt (by unfold u32; omega)
  rw [e2]
  have e3 : ((h - 1) * B + B) % u32 = h * B := by
    rw [← hsplit]; exact Nat.mod_eq_of_lt (by unfold u32; omega)
  rw [e3]
  by_cases hc : h * B ≤ pool.data.len
  · rw [if_pos ⟨by omega, hc⟩, if_pos hc]
  · rw [if_neg (fun h' => hc h'.2), if_neg hc]

/-- The sizes of a pool of shape `(bs, n)` in `SafeSize`, as natural numbers. -/
theorem safe_sizes (bs n : Int) (p : Pool) (hsafe : SafeSize bs n) (hs : Shape bs n p) :
    ∃ B m : Nat, bs = (B : Int) ∧ n = (m : Int) ∧ p.blockSize = (B : Int) ∧
      p.data.len = m * B ∧ p.allocMask.length = numWords m ∧ 0 < B ∧ 0 < m ∧
      m ≤ 64 * numWords m ∧ 64 * numWords m < m + 64 ∧ 64 * numWords m * B < 2 ^ 32 ∧
      n.toNat = m ∧ bs.toNat = B := by
  obtain ⟨hbs, hn, hlt⟩ := hsafe
  obtain ⟨B, hB⟩ : ∃ B : Nat, bs = (B : Int) := ⟨bs.toNat, by omega⟩
  obtain ⟨m, hm⟩ : ∃ m : Nat, n = (m : Int) := ⟨n.toNat, by omega⟩
  subst hB hm
  have hmt : (m : Int).toNat = m := Int.toNat_ofNat m
  have hBt : (B : Int).toNat = B := Int.toNat_ofNat B
  rw [hmt] at hlt
  have hltN : 64 * numWords m * B < 2 ^ 32 := by exact_mod_cast hlt
  obtain ⟨hL1, hL2, hL3⟩ := numWords_bounds m
  have hB0 : 0 < B := by omega
  have hm0 : 0 < m := by omega
  have hmB : m * B ≤ 64 * numWords m * B := Nat.mul_le_mul_right B hL2
  have hw : wrapInt64 ((m : Int) * (B : Int)) = ((m * B : Nat) : Int) := by
    rw [wrapInt64_of_range]
    · push_cast; rfl
    · have : (0 : Int) ≤ (m : Int) * (B : Int) := by positivity
      omega
    · have : ((m : Int) * (B : Int)) = ((m * B : Nat) : Int) := by push_cast; rfl
      rw [this]; omega
  refine ⟨B, m, rfl, rfl, hs.blockSize_eq, ?_, ?_, hB0, hm0, hL2, hL3 hm0, hltN, hmt, hBt⟩
  · rw [hs.len_eq, hw, Int.toNat_ofNat]
  · rw [hs.words_eq, hmt]

theorem PoolInv_init (bs n : Int) (p : Pool) (hsafe : SafeSize bs n)
    (h : NewPool bs n = Except.ok p) : PoolInv bs n ⟨p, []⟩ := by
  have hn63 : n < 2 ^ 63 := by
    obtain ⟨hbs, hn, hlt⟩ := hsafe
    obtain ⟨_, hL2, _⟩ := numWords_bounds n.toNat
    have h1 : (n.toNat : Int) ≤ 64 * (numWords n.toNat : Int) := by exact_mod_cast hL2
    have h2 : 64 * (numWords n.toNat : Int) * 1 ≤ 64 * (numWords n.toNat : Int) * bs :=
      Int.mul_le_mul_of_nonneg_left (by omega) (by omega)
    omega
  have hshape := NewPool_shape bs n p hn63 h
  obtain ⟨_, _, _, hmax, hwords⟩ := NewPool_of_ok bs n p hn63 h
  rw [NewPool_eq bs n hshape.pos_bs hshape.pos_n hn63 hshape.size_nonneg hmax hwords] at h
  injection h with h
  subst h
  have hm0 : 0 < n.toNat := by have := hshape.pos_n; omega
  refine ⟨hshape, WF_newMask _ (by omega), Nat.zero_le _, ?_, ?_, ?_, List.nodup_nil, rfl, ?_⟩
  · intro i h1 h2
    simp only
    rw [testBitAt_newMask _ _ hm0]
    simp [h1, h2]
  · intro i hi
    simp only
    rw [testBitAt_newMask _ _ hm0]
    have : ¬ n.toNat ≤ i := by omega
    simp [this]
  · intro h hh; simp at hh
  · intro _ _ _ _ _ _ _; rfl

theorem FindZero_full (ba : BitArray) (hint : Nat) (hwf : WF ba) (hhint : hint < u64)
    (hle : hint / 64 ≤ ba.length)
    (hall : ∀ i, i < ba.length * 64 → testBitAt ba i = true) :
    FindZero ba hint = Except.ok NotFound := by
  rcases FindZero_total ba hint hwf hhint hle with ⟨h, _⟩ | ⟨r, _, hr, hbit⟩
  · exact h
  · rw [hall r hr] at hbit
    exact absurd hbit (by decide)

/-- What `Alloc` does in a state that satisfies the invariant: either the
bitmap is full, the pool is unchanged and 0 is returned, or the handle `r + 1`
of a clear bit `r` below `numBlocks` is returned and its bit is set. -/
theorem Alloc_cases (bs n : Int) (t : Tracked) (hsafe : SafeSize bs n)
    (hinv : PoolInv bs n t) :
    (t.pool.Alloc = Except.ok (t.pool, 0) ∧
      ∀ i, i < 64 * numWords n.toNat → testBitAt t.pool.allocMask i = true) ∨
    (∃ r, r < n.toNat ∧ testBitAt t.pool.allocMask r = false ∧
      t.pool.Alloc = Except.ok
        ({ t.pool with
            allocMask := t.pool.allocMask.set (r / 64)
              (t.pool.allocMask.getD (r / 64) 0 ||| 2 ^ (r % 64))
            nextAllocIndex := r + 1
            nUsed := t.pool.nUsed + 1 }, r + 1)) := by
  obtain ⟨B, m, hB, hm, _, _, hwords, hB0, hm0, hL2, hL3, hlt, hmt, hBt⟩ :=
    safe_sizes bs n t.pool hsafe hinv.shape
  have hhint := hinv.hint_le
  rw [hmt] at hhint
  have hlen : t.pool.nextAllocIndex / 64 ≤ t.pool.allocMask.length := by
    rw [hwords]; omega
  have hNum : 64 * numWords m < 2 ^ 32 := by
    have : 64 * numWords m * 1 ≤ 64 * numWords m * B := Nat.mul_le_mul_left _ hB0
    omega
  have hh64 : t.pool.nextAllocIndex < u64 := by unfold u64; omega
  rcases FindZero_total _ _ hinv.wf hh64 hlen with ⟨hnf, hall⟩ | ⟨r, hfz, hr, hbit⟩
  · left
    refine ⟨?_, ?_⟩
    · unfold Pool.Alloc
      rw [hnf]
      simp only [if_true]
    · intro i hi
      rw [hmt] at hi
      unfold testBitAt
      rw [hall (i / 64) (by rw [hwords]; omega), allFF_eq, Nat.testBit_two_pow_sub_one]
      have : i % 64 < 64 := Nat.mod_lt _ (by norm_num)
      simp [this]
  · right
    rw [hwords] at hr
    have hrn : r < m := by
      rcases Nat.lt_or_ge r m with h | h
      · exact h
      · have := hinv.padding r (by rw [hmt]; exact h) (by rw [hmt]; omega)
        rw [hbit] at this
        exact absurd this (by decide)
    refine ⟨r, by rw [hmt]; exact hrn, hbit, ?_⟩
    have hr64 : r < u64 := by unfold u64; omega
    have hrl : r / 64 < t.pool.allocMask.length := by rw [hwords]; omega
    have hnf : r ≠ NotFound := by
      have : NotFound = 2 ^ 64 - 1 := by decide
      omega
    have hused : wrapInt64 (t.pool.nUsed + 1) = t.pool.nUsed + 1 := by
      have hl := live_length_le t.live n.toNat hinv.nodup hinv.live_range
      have hu := hinv.used
      rw [hmt] at hl
      exact wrapInt64_of_range _ (by omega) (by omega)
    unfold Pool.Alloc
    rw [hfz]
    simp only [if_neg hnf, Set_eq _ _ hr64 hrl, hused]
    have e1 : (r + 1) % u64 = r + 1 := Nat.mod_eq_of_lt (by unfold u64; omega)
    have e2 : (r % u32 + 1) % u32 = r + 1 := by unfold u32; omega
    rw [e1, e2]

theorem PoolInv_alloc (bs n : Int) (t : Tracked) (p : Pool) (h : Nat)
    (hsafe : SafeSize bs n) (hinv : PoolInv bs n t) (ha : t.pool.Alloc = Except.ok (p, h)) :
    PoolInv bs n ⟨p, if h = 0 then t.live else h :: t.live⟩ := by
  obtain ⟨B, m, hB, hm, _, _, hwords, hB0, hm0, hL2, hL3, hlt, hmt, hBt⟩ :=
    safe_sizes bs n t.pool hsafe hinv.shape
  rcases Alloc_cases bs n t hsafe hinv with ⟨h1, _⟩ | ⟨r, hrn, hbit, h1⟩
  · rw [h1] at ha
    injection ha with ha
    injection ha with hp hh
    subst hp hh
    simp only [if_true]
    exact hinv
  · rw [h1] at ha
    injection ha with ha
    injection ha with hp hh
    subst hp hh
    have hrl : r / 64 < t.pool.allocMask.length := by rw [hwords]; omega
    have hnotin : r + 1 ∉ t.live := by
      intro hmem
      have := (hinv.live_iff r hrn).2 hmem
      rw [hbit] at this
      exact absurd this (by decide)
    simp only [Nat.succ_ne_zero, if_false]
    refine ⟨?_, ?_, ?_, ?_, ?_, ?_, ?_, ?_, ?_⟩
    · exact ⟨hinv.shape.pos_bs, hinv.shape.pos_n, hinv.shape.size_nonneg,
        hinv.shape.blockSize_eq, hinv.shape.len_eq, by
          simp only [List.length_set]; exact hinv.shape.words_eq⟩
    · exact WF_set _ _ _ hinv.wf
        (Nat.or_lt_two_pow (hinv.wf.getD_lt _) (two_pow_mod_lt r))
    · simp only; rw [hmt]; omega
    · intro i hi1 hi2
      simp only
      rw [testBitAt_set_or _ _ _ hrl, hinv.padding i hi1 hi2]
      rfl
    · intro i hi
      simp only
      rw [testBitAt_set_or _ _ _ hrl, List.mem_cons]
      have := hinv.live_iff i hi
      by_cases hri : r = i
      · subst hri; simp
      · have hne : i + 1 ≠ r + 1 := by omega
        simp [hri, hne, this]
    · intro x hx
      simp only [List.mem_cons] at hx
      rcases hx with rfl | hx
      · omega
      · exact hinv.live_range x hx
    · exact List.nodup_cons.2 ⟨hnotin, hinv.nodup⟩
    · simp only [List.length_cons]
      rw [hinv.used]
      push_cast; rfl
    · intro x hx1 hx2 hx3 j hj1 hj2
      simp only [List.mem_cons, not_or] at hx3
      exact hinv.zero x hx1 hx2 hx3.2 j hj1 hj2

theorem ClearIfSet_error (ba : BitArray) (i : Nat) (hi : i < u64) (hlen : ba.length ≤ i / 64) :
    ClearIfSet ba i = Except.error Panic.indexOutOfRange := by
  unfold ClearIfSet
  rw [index2pos_eq i hi]
  simp only [List.getElem?_eq_none hlen]

/-- The view of `Get(h)` in a pool of shape `(bs, n)` with sizes in `SafeSize`,
for a handle up to `NumBits()`: the block of `h` when `h <= numBlocks`, and a
panic for a padding handle. -/
theorem Get_safe (bs n : Int) (p : Pool) (h : Nat) (hsafe : SafeSize bs n)
    (hs : Shape bs n p) (h0 : h ≠ 0) (hle : h ≤ 64 * numWords n.toNat) :
    p.Get h =
      if h ≤ n.toNat then Except.ok ((h - 1) * bs.toNat, h * bs.toNat)
      else Except.error Panic.sliceBoundsOutOfRange := by
  obtain ⟨B, m, hB, hm, hblock, hlen, hwords, hB0, hm0, hL2, hL3, hlt, hmt, hBt⟩ :=
    safe_sizes bs n p hsafe hs
  rw [hmt] at hle ⊢
  rw [hBt]
  have hhB : h * B ≤ 64 * numWords m * B := Nat.mul_le_mul_right B hle
  have hget := Get_eq p h h0 (by rw [hblock]; omega) (by
    rw [hblock]
    have : ((h : Int) * (B : Int)) = ((h * B : Nat) : Int) := by push_cast; rfl
    rw [this]; omega)
  rw [hget, hblock, Int.toNat_ofNat, hlen]
  by_cases hc : h ≤ m
  · rw [if_pos (Nat.mul_le_mul_right B hc), if_pos hc]
  · have : ¬ h * B ≤ m * B := by
      intro hcon
      exact hc (Nat.le_of_mul_le_mul_right hcon hB0)
    rw [if_neg this, if_neg hc]

/-- What `Free` does in a state that satisfies the invariant. -/
theorem Free_cases (bs n : Int) (t : Tracked) (h : Nat) (hsafe : SafeSize bs n)
    (hinv : PoolInv bs n t) (h32 : h < u32) :
    (h = 0 → t.pool.Free h = Except.ok t.pool) ∧
    (h ∈ t.live → t.pool.Free h = Except.ok
      { t.pool with
        data := fillZero t.pool.data ((h - 1) * bs.toNat, h * bs.toNat)
        allocMask := t.pool.allocMask.set ((h - 1) / 64)
          (andNot (t.pool.allocMask.getD ((h - 1) / 64) 0) (2 ^ ((h - 1) % 64)))
        nUsed := t.pool.nUsed - 1
        nextAllocIndex := h - 1 }) ∧
    (1 ≤ h → h ≤ n.toNat → h ∉ t.live → t.pool.Free h = Except.error Panic.alreadyFreed) ∧
    (n.toNat < h → ∃ e, t.pool.Free h = Except.error e) := by
  obtain ⟨B, m, hB, hm, hblock, hlen, hwords, hB0, hm0, hL2, hL3, hlt, hmt, hBt⟩ :=
    safe_sizes bs n t.pool hsafe hinv.shape
  have hi64 : h - 1 < u64 := lt_of_le_of_lt (Nat.sub_le _ _) (lt_trans h32 (by decide))
  have hin : ∀ x, 1 ≤ x → x ≤ n.toNat →
      t.pool.Get x = Except.ok ((x - 1) * bs.toNat, x * bs.toNat) := by
    intro x hx1 hx2
    rw [Get_safe bs n t.pool x hsafe hinv.shape (by omega) (by rw [hmt] at hx2 ⊢; omega),
      if_pos hx2]
  refine ⟨?_, ?_, ?_, ?_⟩
  · intro h0
    unfold Pool.Free
    rw [if_pos h0]
  · intro hlive
    obtain ⟨h1, h2⟩ := hinv.live_range h hlive
    have hbit : testBitAt t.pool.allocMask (h - 1) = true := by
      have := (hinv.live_iff (h - 1) (by omega)).2 (by rwa [Nat.sub_add_cancel h1])
      exact this
    have hwl : (h - 1) / 64 < t.pool.allocMask.length := by
      rw [hwords]; rw [hmt] at h2; omega
    have hused : wrapInt64 (t.pool.nUsed - 1) = t.pool.nUsed - 1 := by
      have hl := live_length_le t.live n.toNat hinv.nodup hinv.live_range
      have hu := hinv.used
      have hpos : 0 < t.live.length := List.length_pos_of_mem hlive
      rw [hmt] at hl
      have : 64 * numWords m * 1 ≤ 64 * numWords m * B := Nat.mul_le_mul_left _ hB0
      exact wrapInt64_of_range _ (by omega) (by omega)
    unfold Pool.Free
    rw [if_neg (by omega), hin h h1 h2]
    simp only [ClearIfSet_of_set _ _ hi64 hwl hbit, hused]
  · intro h1 h2 hnl
    have hbit : testBitAt t.pool.allocMask (h - 1) = false := by
      cases hb : testBitAt t.pool.allocMask (h - 1)
      · rfl
      · have := (hinv.live_iff (h - 1) (by omega)).1 hb
        rw [Nat.sub_add_cancel h1] at this
        exact absurd this hnl
    have hwl : (h - 1) / 64 < t.pool.allocMask.length := by
      rw [hwords]; rw [hmt] at h2; omega
    unfold Pool.Free
    rw [if_neg (by omega), hin h h1 h2]
    simp only [ClearIfSet_of_clear _ _ hi64 hwl hbit]
  · intro hgt
    rw [hmt] at hgt
    have h0 : h ≠ 0 := by omega
    rcases Nat.lt_or_ge (64 * numWords m) h with hbig | hsmall
    · have hcl := ClearIfSet_error t.pool.allocMask (h - 1) hi64 (by rw [hwords]; omega)
      unfold Pool.Free
      rw [if_neg h0]
      cases hg : t.pool.Get h with
      | error e => exact ⟨e, rfl⟩
      | ok view =>
        simp only [hcl]
        exact ⟨_, rfl⟩
    · refine ⟨Panic.sliceBoundsOutOfRange, ?_⟩
      unfold Pool.Free
      rw [if_neg h0, Get_safe bs n t.pool h hsafe hinv.shape h0 (by rw [hmt]; exact hsmall),
        if_neg (by rw [hmt]; omega)]

/-- Distinct blocks do not overlap: a byte index lies in the block of at most
one handle. -/
theorem block_unique (B x y j : Nat) (hx : 1 ≤ x) (hy : 1 ≤ y)
    (hx1 : (x - 1) * B ≤ j) (hx2 : j < x * B) (hy1 : (y - 1) * B ≤ j) (hy2 : j < y * B) :
    x = y := by
  have e1 : j / B = x - 1 :=
    Nat.div_eq_of_lt_le hx1 (by rwa [Nat.sub_add_cancel hx])
  have e2 : j / B = y - 1 :=
    Nat.div_eq_of_lt_le hy1 (by rwa [Nat.sub_add_cancel hy])
  omega

theorem Free_live_or_zero (bs n : Int) (t : Tracked) (h : Nat) (p : Pool)
    (hsafe : SafeSize bs n) (hinv : PoolInv bs n t) (h32 : h < u32)
    (hf : t.pool.Free h = Except.ok p) : h = 0 ∨ h ∈ t.live := by
  obtain ⟨_, _, h3, h4⟩ := Free_cases bs n t h hsafe hinv h32
  by_cases h0 : h = 0
  · exact Or.inl h0
  · by_cases hl : h ∈ t.live
    · exact Or.inr hl
    · rcases Nat.lt_or_ge n.toNat h with hgt | hle
      · obtain ⟨e, he⟩ := h4 hgt
        rw [he] at hf; injection hf
      · rw [h3 (by omega) hle hl] at hf; injection hf

theorem PoolInv_free (bs n : Int) (t : Tracked) (h : Nat) (p : Pool)
    (hsafe : SafeSize bs n) (hinv : PoolInv bs n t) (h32 : h < u32)
    (hf : t.pool.Free h = Except.ok p) : PoolInv bs n ⟨p, t.live.erase h⟩ := by
  obtain ⟨B, m, hB, hm, hblock, hlen, hwords, hB0, hm0, hL2, hL3, hlt, hmt, hBt⟩ :=
    safe_sizes bs n t.pool hsafe hinv.shape
  obtain ⟨c1, c2, _, _⟩ := Free_cases bs n t h hsafe hinv h32
  rcases Free_live_or_zero bs n t h p hsafe hinv h32 hf with h0 | hlive
  · rw [c1 h0] at hf
    injection hf with hf
    subst hf
    have : t.live.erase h = t.live := by
      apply List.erase_of_not_mem
      intro hmem
      have := (hinv.live_range h hmem).1
      omega
    rw [this]
    exact hinv
  · rw [c2 hlive] at hf
    injection hf with hf
    subst hf
    obtain ⟨h1, h2⟩ := hinv.live_range h hlive
    have hwl : (h - 1) / 64 < t.pool.allocMask.length := by
      rw [hwords]; rw [hmt] at h2; omega
    refine ⟨?_, ?_, ?_, ?_, ?_, ?_, ?_, ?_, ?_⟩
    · exact ⟨hinv.shape.pos_bs, hinv.shape.pos_n, hinv.shape.size_nonneg,
        hinv.shape.blockSize_eq, hinv.shape.len_eq, by
          simp only [List.length_set]; exact hinv.shape.words_eq⟩
    · exact WF_set _ _ _ hinv.wf (andNot_lt _ _ (hinv.wf.getD_lt _))
    · simp only; rw [hmt]; rw [hmt] at h2; omega
    · intro i hi1 hi2
      simp only
      rw [testBitAt_set_andNot _ _ _ hwl, hinv.padding i hi1 hi2]
      have : h - 1 ≠ i := by omega
      simp [this]
    · intro i hi
      simp only
      rw [testBitAt_set_andNot _ _ _ hwl, hinv.nodup.mem_erase_iff]
      have := hinv.live_iff i hi
      by_cases hri : h - 1 = i
      · have : i + 1 = h := by omega
        simp [hri, this]
      · have hne : i + 1 ≠ h := by omega
        simp [hri, hne, this]
    · intro x hx
      exact hinv.live_range x (List.mem_of_mem_erase hx)
    · exact hinv.nodup.erase h
    · simp only
      rw [List.length_erase_of_mem hlive, hinv.used]
      have hpos : 0 < t.live.length := List.length_pos_of_mem hlive
      omega
    · intro x hx1 hx2 hx3 j hj1 hj2
      simp only
      rw [fillZero_get]
      by_cases hc : (h - 1) * bs.toNat ≤ j ∧ j < h * bs.toNat
      · rw [if_pos hc]
      · rw [if_neg hc]
        have hxl : x ∉ t.live := by
          intro hmem
          apply hx3
          rw [hinv.nodup.mem_erase_iff]
          refine ⟨?_, hmem⟩
          intro hxh
          subst hxh
          exact hc ⟨hj1, hj2⟩
        exact hinv.zero x hx1 hx2 hxl j hj1 hj2

theorem PoolInv_write (bs n : Int) (t : Tracked) (h i v : Nat) (p : Pool)
    (hsafe : SafeSize bs n) (hinv : PoolInv bs n t) (hlive : h ∈ t.live)
    (hw : t.pool.Write h i v = Except.ok p) : PoolInv bs n ⟨p, t.live⟩ := by
  obtain ⟨B, m, hB, hm, hblock, hlen, hwords, hB0, hm0, hL2, hL3, hlt, hmt, hBt⟩ :=
    safe_sizes bs n t.pool hsafe hinv.shape
  obtain ⟨h1, h2⟩ := hinv.live_range h hlive
  have hget : t.pool.Get h = Except.ok ((h - 1) * bs.toNat, h * bs.toNat) := by
    rw [Get_safe bs n t.pool h hsafe hinv.shape (by omega) (by rw [hmt] at h2 ⊢; omega),
      if_pos h2]
  unfold Pool.Write at hw
  rw [hget] at hw
  simp only at hw
  by_cases hc : i < h * bs.toNat - (h - 1) * bs.toNat
  · rw [if_pos hc] at hw
    injection hw with hw
    subst hw
    refine ⟨⟨hinv.shape.pos_bs, hinv.shape.pos_n, hinv.shape.size_nonneg,
        hinv.shape.blockSize_eq, hinv.shape.len_eq, hinv.shape.words_eq⟩,
      hinv.wf, hinv.hint_le, hinv.padding, hinv.live_iff, hinv.live_range, hinv.nodup,
      hinv.used, ?_⟩
    intro x hx1 hx2 hx3 j hj1 hj2
    simp only [Bytes.set]
    have hne : j ≠ (h - 1) * bs.toNat + i := by
      intro hj
      have hxh : x = h := block_unique bs.toNat x h j hx1 h1 hj1 hj2 (by omega) (by omega)
      subst hxh
      exact hx3 hlive
    rw [if_neg hne]
    exact hinv.zero x hx1 hx2 hx3 j hj1 hj2
  · rw [if_neg hc] at hw
    injection hw

/-- The invariant holds in every state reachable without `FreeAll` from a pool
with sizes in `SafeSize`. -/
theorem Reachable.inv {w : Bool} {bs n : Int} {t : Tracked} (hsafe : SafeSize bs n)
    (hr : Reachable w false bs n t) : PoolInv bs n t := by
  induction hr with
  | init h => exact PoolInv_init bs n _ hsafe h
  | alloc _ ha ih => exact PoolInv_alloc bs n _ _ _ hsafe ih ha
  | free h _ hlt hf ih => exact PoolInv_free bs n _ h _ hsafe ih hlt hf
  | write h i v _ _ hl hw ih => exact PoolInv_write bs n _ h i v _ hsafe ih hl hw
  | freeAll hfa _ _ => exact absurd hfa (by decide)

theorem NumBlocks_safe (bs n : Int) (p : Pool) (hsafe : SafeSize bs n) (hs : Shape bs n p) :
    p.NumBlocks = Except.ok n := by
  obtain ⟨B, m, hB, hm, hblock, hlen, hwords, hB0, hm0, hL2, hL3, hlt, hmt, hBt⟩ :=
    safe_sizes bs n p hsafe hs
  unfold Pool.NumBlocks
  rw [hblock, if_neg (by omega), hlen, hm]
  have : (((m * B : Nat) : Int)) = (m : Int) * (B : Int) := by push_cast; rfl
  rw [this, Int.mul_tdiv_cancel _ (by omega)]

theorem NumFree_safe (bs n : Int) (t : Tracked) (hsafe : SafeSize bs n)
    (hinv : PoolInv bs n t) :
    t.pool.NumFree = Except.ok (n - (t.live.length : Int)) ∧ t.live.length ≤ n.toNat := by
  obtain ⟨B, m, hB, hm, hblock, hlen, hwords, hB0, hm0, hL2, hL3, hlt, hmt, hBt⟩ :=
    safe_sizes bs n t.pool hsafe hinv.shape
  have hl := live_length_le t.live n.toNat hinv.nodup hinv.live_range
  refine ⟨?_, hl⟩
  unfold Pool.NumFree
  rw [NumBlocks_safe bs n t.pool hsafe hinv.shape]
  simp only
  rw [hinv.used]
  have : 64 * numWords m * 1 ≤ 64 * numWords m * B := Nat.mul_le_mul_left _ hB0
  rw [wrapInt64_of_range _ (by omega) (by omega)]

/-! ## Claims on the pool -/

/-- Support for C1: with sizes in `SafeSize`, `Get(h)` for `1 <= h <= numBlocks`
returns the view `data[(h-1)*bs : h*bs]`, which lies inside the buffer, and the
views of two distinct handles share no byte. -/
theorem Get_block_safe (w : Bool) (bs n : Int) (t : Tracked) (h : Nat)
    (hsafe : SafeSize bs n) (hr : Reachable w false bs n t) (h1 : 1 ≤ h) (h2 : h ≤ n.toNat) :
    t.pool.Get h = Except.ok ((h - 1) * bs.toNat, h * bs.toNat) ∧
    h * bs.toNat ≤ t.pool.data.len ∧
    ∀ x j, 1 ≤ x → (x - 1) * bs.toNat ≤ j → j < x * bs.toNat →
      (h - 1) * bs.toNat ≤ j → j < h * bs.toNat → x = h := by
  have hinv := hr.inv hsafe
  obtain ⟨B, m, hB, hm, hblock, hlen, hwords, hB0, hm0, hL2, hL3, hlt, hmt, hBt⟩ :=
    safe_sizes bs n t.pool hsafe hinv.shape
  refine ⟨?_, ?_, ?_⟩
  · rw [Get_safe bs n t.pool h hsafe hinv.shape (by omega) (by rw [hmt] at h2 ⊢; omega),
      if_pos h2]
  · rw [hlen, hBt]
    rw [hmt] at h2
    exact Nat.mul_le_mul_right B h2
  · intro x j hx a b c d
    exact block_unique bs.toNat x h j hx h1 a b c d

/-- C1.  The pool `NewPool(2^31, 3)` has three blocks of `2^31` bytes in a buffer
of `3 * 2^31` bytes.  `Get(3)` returns the view `data[0 : 2^31]`, which is the
view of handle 1 and not `data[2^32 : 3 * 2^31]`, and `Get(2)` panics: the
offset and the end of the view are computed in `uint32`. -/
theorem Get_offset_wraps :
    ∃ p, NewPool (2 ^ 31) 3 = Except.ok p ∧ p.NumBlocks = Except.ok 3 ∧
      p.data.len = 3 * 2 ^ 31 ∧
      p.Get 1 = Except.ok (0, 2 ^ 31) ∧
      p.Get 3 = Except.ok (0, 2 ^ 31) ∧
      p.Get 2 = Except.error Panic.sliceBoundsOutOfRange := by
  refine ⟨_, rfl, ?_, ?_, ?_, ?_, ?_⟩ <;> decide

/-- Support for C2: with sizes in `SafeSize`, in every state reachable by
`Alloc`, `Free` (and stores), `Alloc` returns; it returns 0 exactly when
`NumFree() = 0`, and then the pool is unchanged; otherwise it returns a handle
`h` with `1 <= h <= NumBlocks()` that was not live, and `NumUsed()` grows by 1. -/
theorem Alloc_spec_safe (w : Bool) (bs n : Int) (t : Tracked) (hsafe : SafeSize bs n)
    (hr : Reachable w false bs n t) :
    t.pool.NumBlocks = Except.ok n ∧
    ∃ p h, t.pool.Alloc = Except.ok (p, h) ∧
      (h = 0 ↔ t.pool.NumFree = Except.ok 0) ∧ (h = 0 → p = t.pool) ∧
      (h ≠ 0 → 1 ≤ h ∧ (h : Int) ≤ n ∧ h ∉ t.live ∧ p.NumUsed = t.pool.NumUsed + 1) := by
  have hinv := hr.inv hsafe
  obtain ⟨B, m, hB, hm, hblock, hlen, hwords, hB0, hm0, hL2, hL3, hlt, hmt, hBt⟩ :=
    safe_sizes bs n t.pool hsafe hinv.shape
  obtain ⟨hfree, hl⟩ := NumFree_safe bs n t hsafe hinv
  refine ⟨NumBlocks_safe bs n t.pool hsafe hinv.shape, ?_⟩
  rcases Alloc_cases bs n t hsafe hinv with ⟨h1, hall⟩ | ⟨r, hrn, hbit, h1⟩
  · refine ⟨t.pool, 0, h1, ?_, fun _ => rfl, fun h => absurd rfl h⟩
    have hsub : List.range' 1 n.toNat ⊆ t.live := by
      intro x hx
      rw [List.mem_range'_1] at hx
      have := (hinv.live_iff (x - 1) (by omega)).1 (hall (x - 1) (by rw [hmt]; omega))
      rwa [Nat.sub_add_cancel hx.1] at this
    have hge := (List.subperm_of_subset (List.nodup_range' 1 n.toNat) hsub).length_le
    rw [List.length_range'] at hge
    constructor
    · intro _
      rw [hfree]
      congr 1
      omega
    · intro _; rfl
  · refine ⟨_, r + 1, h1, ?_, fun h => absurd h (Nat.succ_ne_zero r), ?_⟩
    · have hnotin : r + 1 ∉ t.live := by
        intro hmem
        have := (hinv.live_iff r hrn).2 hmem
        rw [hbit] at this
        exact absurd this (by decide)
      have hlen' := live_length_le ((r + 1) :: t.live) n.toNat
        (List.nodup_cons.2 ⟨hnotin, hinv.nodup⟩) (by
          intro x hx
          rcases List.mem_cons.1 hx with rfl | hx
          · omega
          · exact hinv.live_range x hx)
      rw [List.length_cons] at hlen'
      constructor
      · intro h; exact absurd h (Nat.succ_ne_zero r)
      · intro h
        rw [hfree] at h
        injection h with h
        omega
    · intro _
      refine ⟨by omega, by omega, ?_, rfl⟩
      intro hmem
      have := (hinv.live_iff r hrn).2 hmem
      rw [hbit] at this
      exact absurd this (by decide)

/-- C2.  On the two-block pool `NewPool(2^31, 2)`, `Free(3)` returns normally
(the view of `Get(3)` wraps around to `data[0 : 2^31]`, and bit 2 of the bitmap
is a set padding bit), leaving `NumUsed() = -1` and `NumFree() = 3`; the next
`Alloc` then returns the handle 3, above `NumBlocks() = 2`. -/
theorem Alloc_returns_handle_above_NumBlocks :
    ∃ t p, Reachable false false (2 ^ 31) 2 t ∧ t.live = [] ∧
      t.pool.NumBlocks = Except.ok 2 ∧ t.pool.NumUsed = -1 ∧
      t.pool.NumFree = Except.ok 3 ∧ t.pool.Alloc = Except.ok (p, 3) := by
  refine ⟨_, _, Reachable.free 3 (Reachable.init rfl) (by decide) rfl, ?_, ?_, ?_, ?_, rfl⟩ <;>
    decide

/-- C3.  After `FreeAll` on `NewPool(7, 13)` no padding bit of the bitmap is set
(bits 13 to 63 are all 0): the next 14 calls of `Alloc` return the handles 1 to
14, the last of them above `NumBlocks() = 13`, where `Get` panics, and leave
`NumFree() = -1`. -/
theorem FreeAll_clears_padding_bits :
    ∃ t p, Reachable false true 7 13 t ∧ t.pool.NumBlocks = Except.ok 13 ∧
      NumBits t.pool.allocMask = 64 ∧
      (∀ i, i < 64 → IsSet t.pool.allocMask i = Except.ok false) ∧
      t.pool.allocN 14 = Except.ok (p, [1, 2, 3, 4, 5, 6, 7, 8, 9, 10, 11, 12, 13, 14]) ∧
      p.NumFree = Except.ok (-1) ∧
      p.Get 14 = Except.error Panic.sliceBoundsOutOfRange := by
  refine ⟨_, _, Reachable.freeAll rfl (Reachable.init rfl), ?_, ?_, ?_, rfl, ?_, ?_⟩ <;> decide

/-- Support for C4: with sizes in `SafeSize`, in every state reachable by
`Alloc`, `Free` (and stores), `Free(h)` of a handle `1 <= h <= numBlocks` that
is not live panics with 'already freed', and `Free(h)` returns normally exactly
when `h = 0` or `h` is live. -/
theorem Free_spec_safe (w : Bool) (bs n : Int) (t : Tracked) (h : Nat)
    (hsafe : SafeSize bs n) (hr : Reachable w false bs n t) (h32 : h < u32) :
    (1 ≤ h → h ≤ n.toNat → h ∉ t.live →
      t.pool.Free h = Except.error Panic.alreadyFreed) ∧
    ((∃ p, t.pool.Free h = Except.ok p) ↔ (h = 0 ∨ h ∈ t.live)) := by
  have hinv := hr.inv hsafe
  obtain ⟨c1, c2, c3, _⟩ := Free_cases bs n t h hsafe hinv h32
  refine ⟨c3, ?_, ?_⟩
  · rintro ⟨p, hp⟩
    exact Free_live_or_zero bs n t h p hsafe hinv h32 hp
  · rintro (h0 | hl)
    · exact ⟨_, c1 h0⟩
    · exact ⟨_, c2 hl⟩

/-- C4.  On the fresh pool `NewPool(2^31, 2)`, where no handle is live, `Free(3)`
returns normally: it does not panic although 3 is neither 0 nor live. -/
theorem Free_of_padding_handle_returns :
    ∃ t p, Reachable false false (2 ^ 31) 2 t ∧ t.live = [] ∧
      t.pool.NumBlocks = Except.ok 2 ∧ t.pool.Free 3 = Except.ok p := by
  refine ⟨_, _, Reachable.init rfl, ?_, ?_, rfl⟩ <;> decide

/-- Support for C5: with sizes in `SafeSize`, in every state reachable by
`Alloc`, `Free` and stores into blocks of live handles, the block of every
handle that is not live is all zero, and so is the block of a handle that
`Alloc` returns. -/
theorem free_blocks_zero_safe (bs n : Int) (t : Tracked) (hsafe : SafeSize bs n)
    (hr : Reachable true false bs n t) :
    (∀ h, 1 ≤ h → h ≤ n.toNat → h ∉ t.live →
      t.pool.Get h = Except.ok ((h - 1) * bs.toNat, h * bs.toNat) ∧
      ∀ j, (h - 1) * bs.toNat ≤ j → j < h * bs.toNat → t.pool.data.get j = 0) ∧
    (∀ p h, t.pool.Alloc = Except.ok (p, h) → h ≠ 0 →
      p.Get h = Except.ok ((h - 1) * bs.toNat, h * bs.toNat) ∧
      ∀ j, (h - 1) * bs.toNat ≤ j → j < h * bs.toNat → p.data.get j = 0) := by
  have hinv := hr.inv hsafe
  refine ⟨?_, ?_⟩
  · intro h h1 h2 hnl
    exact ⟨(Get_block_safe true bs n t h hsafe hr h1 h2).1, hinv.zero h h1 h2 hnl⟩
  · intro p h ha h0
    have hr' : Reachable true false bs n ⟨p, if h = 0 then t.live else h :: t.live⟩ :=
      Reachable.alloc hr ha
    have hinv' := hr'.inv hsafe
    rw [if_neg h0] at hr' hinv'
    obtain ⟨h1, h2⟩ := hinv'.live_range h (List.mem_cons_self _ _)
    refine ⟨(Get_block_safe true bs n _ h hsafe hr' h1 h2).1, ?_⟩
    rcases Alloc_cases bs n t hsafe hinv with ⟨e, _⟩ | ⟨r, hrn, hbit, e⟩
    · rw [e] at ha
      injection ha with ha
      injection ha with _ hh
      exact absurd hh.symm h0
    · rw [e] at ha
      injection ha with ha
      injection ha with hp hh
      subst hp hh
      have hnotin : r + 1 ∉ t.live := by
        intro hmem
        have := (hinv.live_iff r hrn).2 hmem
        rw [hbit] at this
        exact absurd this (by decide)
      exact hinv.zero (r + 1) h1 h2 hnotin

/-- C5.  The pool `NewPool(2^27, 31)` has a buffer of `31 * 2^27 < 2^32` bytes.
`Free(33)` returns normally and `Alloc` then returns the handle 33, whose view
is `data[0 : 2^27]`, the block of handle 1.  After a store of 1 into its first
byte, handle 1 is not live and its block is not all zero; the next `Alloc`
returns handle 1 with that block. -/
theorem block_of_free_handle_not_zero :
    ∃ t p, Reachable true false (2 ^ 27) 31 t ∧ t.pool.data.len < 2 ^ 32 ∧
      t.live = [33] ∧ t.pool.Get 1 = Except.ok (0, 2 ^ 27) ∧ t.pool.data.get 0 = 1 ∧
      t.pool.Alloc = Except.ok (p, 1) ∧ p.Get 1 = Except.ok (0, 2 ^ 27) ∧
      p.data.get 0 = 1 := by
  refine ⟨_, _,
    Reachable.write 33 0 1 rfl
      (Reachable.alloc (h := 33)
        (Reachable.free 33 (Reachable.init rfl) (by decide) rfl) rfl)
      (by decide) rfl,
    ?_, ?_, ?_, ?_, rfl, ?_, ?_⟩ <;> decide

/-- C6, as stated, fails.  On `NewPool(2^31, 3)` three calls of `Alloc` return the
handles 1, 2 and 3 and a fourth returns 0: the pool is exhausted.  `Free(2)` of
the live handle 2 then panics: `Get(2)` computes the offset `2^31` and the end
`2^31 + 2^31`, which is 0 as a `uint32`, and the slice `data[2^31 : 0]` is out of
range.  So the pool does not allocate again after the `Free` of a live
handle. -/
theorem Free_of_live_handle_panics :
    ∃ t, Reachable false false (2 ^ 31) 3 t ∧ t.live = [3, 2, 1] ∧
      t.pool.NumBlocks = Except.ok 3 ∧ t.pool.NumFree = Except.ok 0 ∧
      (∃ q, t.pool.Alloc = Except.ok (q, 0)) ∧
      t.pool.Free 2 = Except.error Panic.sliceBoundsOutOfRange := by
  refine ⟨_,
    Reachable.alloc (h := 3)
      (Reachable.alloc (h := 2) (Reachable.alloc (h := 1) (Reachable.init rfl) rfl) rfl) rfl,
    ?_, ?_, ?_, ⟨_, rfl⟩, rfl⟩ <;> decide

/-- Support for C6: in every state reachable from `NewPool` by `Alloc` and `Free`,
when `Free(h)` of a live handle `h` has returned, the next `Alloc` returns
exactly `h`, which is not 0; so a pool on which `Alloc` returned 0 allocates
again after a `Free` of a live handle that returns. -/
theorem Alloc_after_Free (bs n : Int) (t : Tracked) (h : Nat) (p : Pool)
    (hr : Reachable false false bs n t) (hlive : h ∈ t.live)
    (hfree : t.pool.Free h = Except.ok p) :
    ∃ p', p.Alloc = Except.ok (p', h) ∧ h ≠ 0 := by
  obtain ⟨hpos, hlt⟩ := hr.live_bounds h hlive
  have h0 : h ≠ 0 := Nat.pos_iff_ne_zero.1 hpos
  obtain ⟨view, mask, _, hc, hp⟩ := Free_ok_inv t.pool p h h0 hfree
  have hi : h - 1 < u64 := lt_of_le_of_lt (Nat.sub_le _ _) (lt_trans hlt (by decide))
  obtain ⟨hlen, _, hmask⟩ := ClearIfSet_ok_true _ _ _ hi hc
  have hidx : p.nextAllocIndex = h - 1 := by rw [hp]
  have hm : p.allocMask = mask := by rw [hp]
  have hbit : testBitAt p.allocMask p.nextAllocIndex = false := by
    rw [hm, hidx, hmask, testBitAt_set_andNot _ _ _ hlen]
    simp
  have hlen' : p.nextAllocIndex / 64 < p.allocMask.length := by
    rw [hm, hidx, hmask, List.length_set]; exact hlen
  have hnf : p.nextAllocIndex < NotFound := by
    rw [hidx]
    exact lt_of_le_of_lt (Nat.sub_le _ _) (lt_trans hlt (by decide))
  have hh : (p.nextAllocIndex % u32 + 1) % u32 = h := by
    rw [hidx]
    unfold u32 at *
    omega
  have ha := Alloc_fast p hnf hlen' hbit
  rw [hh] at ha
  exact ⟨_, ha, h0⟩

/-- On `NewPool(7, 2)` two calls of `Alloc` return the handles 1 and 2 and a third
returns 0; after `Free(1)` the next `Alloc` returns 1. -/
theorem Alloc_after_Free_witness :
    ∃ t p, Reachable false false 7 2 t ∧ t.live = [2, 1] ∧
      (∃ q, t.pool.Alloc = Except.ok (q, 0)) ∧ t.pool.Free 1 = Except.ok p ∧
      ∃ p', p.Alloc = Except.ok (p', 1) ∧ 1 ≠ 0 :=
  ⟨_, _, Reachable.alloc (h := 2) (Reachable.alloc (h := 1) (Reachable.init rfl) rfl) rfl,
    by decide, ⟨_, rfl⟩, rfl,
    Alloc_after_Free 7 2 _ 1 _
      (Reachable.alloc (h := 2) (Reachable.alloc (h := 1) (Reachable.init rfl) rfl) rfl)
      (by decide) rfl⟩

/-- Support for C6: with sizes in `SafeSize`, in every state reachable from
`NewPool` by `Alloc` and `Free`, `Free(h)` of a live handle `h` returns and the
next `Alloc` returns exactly `h`, which is not 0. -/
theorem Alloc_after_Free_safe (bs n : Int) (t : Tracked) (h : Nat) (hsafe : SafeSize bs n)
    (hr : Reachable false false bs n t) (hlive : h ∈ t.live) :
    ∃ p p', t.pool.Free h = Except.ok p ∧ p.Alloc = Except.ok (p', h) ∧ h ≠ 0 := by
  obtain ⟨_, h32⟩ := hr.live_bounds h hlive
  obtain ⟨_, c2, _, _⟩ := Free_cases bs n t h hsafe (hr.inv hsafe) h32
  obtain ⟨p', hp', h0⟩ := Alloc_after_Free bs n t h _ hr hlive (c2 hlive)
  exact ⟨_, p', c2 hlive, hp', h0⟩

/-- C7, as stated, fails: the pool `NewPool(1, 2^32)` has `2^32` blocks, and of
the `NumBlocks()` calls of `Alloc` that follow `FreeAll`, the last one returns
the handle 0 (its bit index `2^32 - 1` plus 1, reduced to `uint32`), although it
has allocated a block: `NumUsed()` is `2^32` and `NumFree()` is 0 after it. -/
theorem Alloc_after_FreeAll_returns_zero :
    ∃ t q hs, Reachable true false 1 (2 ^ 32) t ∧
      t.pool.FreeAll.NumBlocks = Except.ok (2 ^ 32) ∧
      t.pool.FreeAll.allocN (2 ^ 32) = Except.ok (q, hs) ∧ hs.length = 2 ^ 32 ∧
      hs[2 ^ 32 - 1]? = some 0 ∧ q.NumUsed = 2 ^ 32 ∧ q.NumFree = Except.ok 0 := by
  obtain ⟨p, hp, _, hnb, _, _, _, _, hwf, hbits, _⟩ :=
    NewPool_ok 1 (2 ^ 32) (by decide) (by decide) (by decide)
  have hlenM : (2 : Nat) ^ 32 ≤ 64 * p.allocMask.length := by
    rw [NumBits_eq hwf] at hbits
    omega
  obtain ⟨q, hq, hqd, hqb, hqu⟩ := allocN_seq (2 ^ 32) p.FreeAll
    (by
      have : p.FreeAll.allocMask.length = p.allocMask.length := length_ClearAll _
      rw [this]
      have : p.FreeAll.nextAllocIndex = 0 := rfl
      omega)
    (by
      have : p.FreeAll.nextAllocIndex = 0 := rfl
      omega)
    (by intro i _; exact testBitAt_ClearAll _ _)
  have hz : p.FreeAll.nextAllocIndex = 0 := rfl
  rw [hz] at hq
  have hu0 : p.FreeAll.nUsed = 0 := rfl
  have hused : q.nUsed = 2 ^ 32 := by
    rw [hqu (by rw [hu0]) (by rw [hu0]; norm_num), hu0]
    norm_num
  have hnbq : q.NumBlocks = Except.ok (2 ^ 32) := by
    have h1 : p.FreeAll.NumBlocks = Except.ok (2 ^ 32) := hnb
    unfold Pool.NumBlocks at h1 ⊢
    rw [hqd, hqb]
    exact h1
  refine ⟨⟨p, []⟩, q, _, Reachable.init hp, hnb, hq, ?_, ?_, hused, ?_⟩
  · rw [List.length_map, List.length_range']
  · rw [List.getElem?_map, List.getElem?_range' 0 1 (by norm_num)]
    decide
  · unfold Pool.NumFree
    rw [hnbq]
    simp only
    rw [hused]
    rfl

/-- Support for C7: with `numBlocks <= 2^32 - 1`, in every state reachable from
`NewPool(bs, n)` by `Alloc`, `Free` and stores into blocks (and `FreeAll`):
after `FreeAll` every byte of the buffer is 0, `NumUsed() = 0`, `NumFree() =
NumBlocks()`, and the next `NumBlocks()` calls of `Alloc` all return, each a
handle other than 0. -/
theorem FreeAll_spec (w fa : Bool) (bs n : Int) (t : Tracked) (hn : n ≤ 2 ^ 32 - 1)
    (hr : Reachable w fa bs n t) :
    (∀ i, i < t.pool.FreeAll.data.len → t.pool.FreeAll.data.get i = 0) ∧
    t.pool.FreeAll.NumUsed = 0 ∧
    ∃ N : Nat, t.pool.FreeAll.NumBlocks = Except.ok (N : Int) ∧
      t.pool.FreeAll.NumFree = Except.ok (N : Int) ∧
      ∃ q hs, t.pool.FreeAll.allocN N = Except.ok (q, hs) ∧ hs.length = N ∧
        ∀ h ∈ hs, h ≠ 0 := by
  have hr' : Reachable w true bs n t := by
    clear hn
    induction hr with
    | init h => exact Reachable.init h
    | alloc _ ha ih => exact Reachable.alloc ih ha
    | free h _ hlt hf ih => exact Reachable.free h ih hlt hf
    | write h i v hw _ hl hwr ih => exact Reachable.write h i v hw ih hl hwr
    | freeAll _ _ ih => exact Reachable.freeAll rfl ih
  have hall : Reachable w true bs n ⟨t.pool.FreeAll, []⟩ := Reachable.freeAll rfl hr'
  have hshape : Shape bs n t.pool.FreeAll := hall.shape (by omega)
  obtain ⟨N, hN, hNn⟩ := NumBlocks_le bs n _ hshape
  obtain ⟨hL1, hL2, hL3⟩ := numWords_bounds n.toNat
  have hwords := hshape.words_eq
  have hz : t.pool.FreeAll.nextAllocIndex = 0 := rfl
  obtain ⟨q, hq, -⟩ := allocN_seq N t.pool.FreeAll
    (by rw [hwords, hz]; omega)
    (by rw [hz]; omega)
    (by intro i _; exact testBitAt_ClearAll _ _)
  rw [hz] at hq
  refine ⟨?_, rfl, N, hN, ?_, q, _, hq, ?_, ?_⟩
  · intro i hi
    simp only [Pool.FreeAll] at hi ⊢
    rw [fillZero_get, if_pos ⟨Nat.zero_le _, hi⟩]
  · unfold Pool.NumFree
    rw [hN]
    simp only
    have : (t.pool.FreeAll).nUsed = 0 := rfl
    rw [this, Int.sub_zero, wrapInt64_of_range _ (by omega) (by omega)]
  · rw [List.length_map, List.length_range']
  · intro h hh
    exact mem_seq_handles_ne_zero N h (by omega) hh

/-- On `NewPool(7, 13)`, after `Alloc` has returned handle 1 and
the client has stored 9 into the first byte of its block, `FreeAll` leaves an
all-zero buffer and the 13 calls of `Alloc` that follow return handles other
than 0. -/
theorem FreeAll_spec_witness :
    ∃ t, Reachable true false 7 13 t ∧ t.live = [1] ∧ t.pool.data.get 0 = 9 ∧
      ((∀ i, i < t.pool.FreeAll.data.len → t.pool.FreeAll.data.get i = 0) ∧
        t.pool.FreeAll.NumUsed = 0 ∧
        ∃ N : Nat, t.pool.FreeAll.NumBlocks = Except.ok (N : Int) ∧
          t.pool.FreeAll.NumFree = Except.ok (N : Int) ∧
          ∃ q hs, t.pool.FreeAll.allocN N = Except.ok (q, hs) ∧ hs.length = N ∧
            ∀ h ∈ hs, h ≠ 0) :=
  ⟨_, Reachable.write 1 0 9 rfl (Reachable.alloc (h := 1) (Reachable.init rfl) rfl)
      (by decide) rfl,
    by decide, by decide,
    FreeAll_spec true false 7 13 _ (by decide)
      (Reachable.write 1 0 9 rfl (Reachable.alloc (h := 1) (Reachable.init rfl) rfl)
        (by decide) rfl)⟩

/-- C8, as stated, fails: both arguments of `NewPool(2^62, 2)` are positive, and
the call panics, because the buffer length `2 * 2^62` wraps around to `-2^63`
and `make` rejects it; `NewPool(2^30, 2^20)` panics as well, because `make`
rejects a buffer of `2^50` bytes. -/
theorem NewPool_positive_args_panics :
    IsInt64 (2 ^ 62) ∧ IsInt64 2 ∧
      NewPool (2 ^ 62) 2 = Except.error Panic.makeLenOutOfRange ∧
      NewPool (2 ^ 30) (2 ^ 20) = Except.error Panic.makeLenOutOfRange := by
  refine ⟨?_, ?_, rfl, rfl⟩ <;> unfold IsInt64 <;> decide

/-- C8, amended.  For all integers: `NewPool(blockSize, numBlocks)` panics when
`blockSize <= 0` or `numBlocks <= 0`.  When both are positive and
`blockSize * numBlocks <= maxAlloc = 2^48` (the largest buffer that `make`
accepts), it returns a pool with `BlockSize() = blockSize`, `NumBlocks() =
numBlocks`, `NumUsed() = 0`, `NumFree() = numBlocks`, a buffer of `numBlocks *
blockSize` bytes that are all 0, and a bitmap in which bit `i < NumBits()` is
set exactly when `numBlocks <= i`.  When both are positive and the product is
above `2^48` and below `2^63`, it panics in `make`. -/
theorem NewPool_spec (bs n : Int) :
    (bs ≤ 0 ∨ n ≤ 0 → NewPool bs n = Except.error Panic.newPoolIllegalArg) ∧
    (0 < bs → 0 < n → bs * n ≤ maxAlloc →
      ∃ p, NewPool bs n = Except.ok p ∧ p.BlockSize = bs ∧ p.NumBlocks = Except.ok n ∧
        p.NumUsed = 0 ∧ p.NumFree = Except.ok n ∧
        (p.data.len : Int) = n * bs ∧ (∀ i, i < p.data.len → p.data.get i = 0) ∧
        WF p.allocMask ∧ (n : Int) ≤ NumBits p.allocMask ∧
        ∀ i, i < NumBits p.allocMask →
          IsSet p.allocMask i = Except.ok (decide (n ≤ (i : Int)))) ∧
    (0 < bs → 0 < n → (maxAlloc : Int) < bs * n → bs * n < 2 ^ 63 →
      NewPool bs n = Except.error Panic.makeLenOutOfRange) := by
  refine ⟨?_, NewPool_ok bs n, ?_⟩
  · intro h
    unfold NewPool
    rw [if_pos (by omega)]
  · intro hbs hn hbig hlt
    have hprod : 0 < n * bs := Int.mul_pos hn hbs
    have hcomm : n * bs = bs * n := Int.mul_comm _ _
    have hw : wrapInt64 (n * bs) = n * bs :=
      wrapInt64_of_range _ (by omega) (by omega)
    unfold NewPool
    rw [if_neg (by omega)]
    simp only
    rw [if_pos (by rw [hw]; omega)]

/-- Witness for C8: `NewPool(7, 13)`, the pool of `Test_Basic`. -/
theorem NewPool_spec_witness :
    ∃ p, NewPool 7 13 = Except.ok p ∧ p.BlockSize = 7 ∧ p.NumBlocks = Except.ok 13 ∧
      p.NumUsed = 0 ∧ p.NumFree = Except.ok 13 ∧
      (p.data.len : Int) = 13 * 7 ∧ (∀ i, i < p.data.len → p.data.get i = 0) ∧
      WF p.allocMask ∧ (13 : Int) ≤ NumBits p.allocMask ∧
      ∀ i, i < NumBits p.allocMask →
        IsSet p.allocMask i = Except.ok (decide ((13 : Int) ≤ (i : Int))) :=
  (NewPool_spec 7 13).2.1 (by decide) (by decide) (by decide)

end fixedpool

/-! ## Claims on the bit array operations -/

namespace bitarray

theorem FindZero_unfold_slow (ba : BitArray) (hint : Nat) (hhint : hint < u64)
    (hnot : ¬ (hint / 64 < ba.length ∧ (ba.getD (hint / 64) 0).testBit (hint % 64) = false)) :
    FindZero ba hint =
      match scanWords ba (ba.length - hint / 64) (hint / 64) with
      | Scan.found i => Except.ok i
      | Scan.outOfRange => Except.error Panic.indexOutOfRange
      | Scan.exhausted =>
        match scanWords ba (hint / 64 - 0) 0 with
        | Scan.found i => Except.ok i
        | Scan.outOfRange => Except.error Panic.indexOutOfRange
        | Scan.exhausted => Except.ok NotFound := by
  have hcond : ¬ (hint / 64 < ba.length ∧ ba.getD (hint / 64) 0 &&& 2 ^ (hint % 64) = 0) := by
    rw [and_two_pow_eq_zero]; exact hnot
  unfold FindZero
  rw [index2pos_eq hint hhint]
  simp only [hcond, if_false]

/-- An array in which bit `i` is the only 0 bit: the word of `i` is not all
ones and `i % 64` is its lowest 0 bit, and every other word is all ones. -/
theorem single_zero_words (ba : BitArray) (i : Nat) (hwf : WF ba) (hi : i < ba.length * 64)
    (hone : ∀ j, j < ba.length * 64 → testBitAt ba j = decide (j ≠ i)) :
    ba.getD (i / 64) 0 ≠ allFF ∧ findZeroBit (ba.getD (i / 64) 0) = i % 64 ∧
    ∀ v, v < ba.length → v ≠ i / 64 → ba[v]? = some allFF := by
  have hclear : (ba.getD (i / 64) 0).testBit (i % 64) = false := by
    have := hone i hi
    simpa [testBitAt] using this
  refine ⟨?_, ?_, ?_⟩
  · intro h
    rw [h, allFF_eq, Nat.testBit_two_pow_sub_one] at hclear
    have : i % 64 < 64 := Nat.mod_lt _ (by norm_num)
    simp [this] at hclear
  · apply findZeroBit_eq_of_lowestZero
    refine ⟨Nat.mod_lt _ (by norm_num), hclear, ?_⟩
    intro j hj
    have h64 : i % 64 < 64 := Nat.mod_lt _ (by norm_num)
    have := hone (64 * (i / 64) + j) (by omega)
    unfold testBitAt at this
    have e1 : (64 * (i / 64) + j) / 64 = i / 64 := by omega
    have e2 : (64 * (i / 64) + j) % 64 = j := by omega
    rw [e1, e2] at this
    rw [this]
    have : 64 * (i / 64) + j ≠ i := by omega
    simp [this]
  · intro v hv hne
    rw [getElem?_eq_some_getD ba v hv]
    congr 1
    apply eq_allFF_of_testBit _ (hwf.getD_lt v)
    intro j hj
    have := hone (64 * v + j) (by omega)
    unfold testBitAt at this
    have e1 : (64 * v + j) / 64 = v := by omega
    have e2 : (64 * v + j) % 64 = j := by omega
    rw [e1, e2] at this
    rw [this]
    have : 64 * v + j ≠ i := by
      intro h
      apply hne
      omega
    simp [this]

/-- C11.  In an array whose only 0 bit is bit `i`, `FindZero(hint)` returns `i`
for every `uint64` hint: before `i`, after `i` (the search wraps around) or past
the end of the array. -/
theorem FindZero_single_zero (ba : BitArray) (i hint : Nat) (hwf : WF ba)
    (hi : i < NumBits ba) (hhint : hint < u64)
    (hone : ∀ j, j < NumBits ba → IsSet ba j = Except.ok (decide (j ≠ i))) :
    FindZero ba hint = Except.ok i := by
  rw [NumBits_eq hwf] at hi hone
  have hL := hwf.2
  simp only [bpw] at hL
  have hone' : ∀ j, j < ba.length * 64 → testBitAt ba j = decide (j ≠ i) := by
    intro j hj
    have := hone j hj
    rw [IsSet_eq ba j (by omega) (by omega)] at this
    injection this
  obtain ⟨hne, hfz, hfull⟩ := single_zero_words ba i hwf hi hone'
  have hw : i / 64 < ba.length := by omega
  have hres : (i / 64 * bpw + findZeroBit (ba.getD (i / 64) 0)) % u64 = i := by
    rw [hfz]
    simp only [bpw]
    rw [Nat.mod_eq_of_lt (by omega)]
    omega
  by_cases hfast : hint / 64 < ba.length ∧ (ba.getD (hint / 64) 0).testBit (hint % 64) = false
  · have hh : hint < ba.length * 64 := by omega
    have := hone' hint hh
    unfold testBitAt at this
    rw [hfast.2] at this
    have hEq : hint = i := by
      by_contra hne'
      simp [hne'] at this
    rw [FindZero_fast ba hint hhint hfast.1 hfast.2, hEq]
  · rw [FindZero_unfold_slow ba hint hhint hfast]
    have hget := getElem?_eq_some_getD ba (i / 64) hw
    rcases Nat.lt_or_ge (i / 64) (hint / 64) with hlt | hge
    · rw [scanWords_exhausted ba (ba.length - hint / 64) (hint / 64) (by
        intro j h1 h2
        exact hfull j (by omega) (by omega))]
      simp only
      rw [scanWords_found ba (hint / 64 - 0) 0 (i / 64) _ (Nat.zero_le _) (by omega) hget hne
        (by intro j _ h2; exact hfull j (by omega) (by omega))]
      simp only [hres]
    · rw [scanWords_found ba (ba.length - hint / 64) (hint / 64) (i / 64) _ hge (by omega)
        hget hne (by intro j h1 h2; exact hfull j (by omega) (by omega))]
      simp only [hres]

/-- Witness for C11: the 192-bit array of `Test_Find` with only bit 99 clear, and
the hint 999 past its end. -/
theorem FindZero_single_zero_witness :
    FindZero [allFF, allFF - 2 ^ 35, allFF] 999 = Except.ok 99 :=
  FindZero_single_zero [allFF, allFF - 2 ^ 35, allFF] 99 999
    (by unfold WF; decide) (by decide) (by decide) (by decide)

end bitarray

namespace bitarray

theorem numWords_eq_max (m : Nat) : numWords m = max 1 ((m + 63) / 64) := by
  unfold numWords
  split <;> omega

theorem IsSet_replicate_zero (L i : Nat) (hi : i < L * 64) (hL : L * 64 < u64) :
    IsSet (List.replicate L 0) i = Except.ok false := by
  rw [IsSet_eq _ i (by omega) (by rw [List.length_replicate]; omega)]
  congr 1
  rw [List.getD_eq_getElem?_getD, List.getElem?_replicate]
  split <;> simp

/-- C12, as stated, fails: `NewBitArray(0)` allocates one word, so `NumBits()` is
64, while `ceil(0 / 64)` is 0; and `NewBitArray(0xFFFFFFFFFFFFFFC0)` allocates
nothing: it panics, because `make` rejects an array of `2^58 - 1` words. -/
theorem NewBitArray_zero_allocates_one_word :
    NewBitArray 0 = Except.ok [0] ∧ NumBits [0] = 64 ∧ (0 + 63) / 64 = 0 ∧
      NewBitArray 0xFFFFFFFFFFFFFFC0 = Except.error Panic.makeLenOutOfRange := by
  decide

/-- C12, amended.  For every `nBits <= 2^51` (`8 * maxAlloc`: the words take at
most `maxAlloc` bytes), `NewBitArray(nBits)` allocates `ceil(nBits / 64)` words,
and one word for `nBits = 0`; every word is 0; `NumBits()` is 64 times the
number of words.  For `1 <= nBits <= 2^51` this is `nBits` rounded up to a
multiple of 64, and `IsSet` is false for every bit index below it.  For every
`uint64` value `nBits > 2^51`, `NewBitArray(nBits)` panics in `make`. -/
theorem NewBitArray_spec (nBits : Nat) (h : nBits < u64) :
    (nBits ≤ 8 * maxAlloc →
      ∃ ba, NewBitArray nBits = Except.ok ba ∧
        ba.length = max 1 ((nBits + 63) / 64) ∧ (∀ w ∈ ba, w = 0) ∧
        NumBits ba = 64 * ba.length ∧
        (1 ≤ nBits →
          NumBits ba = 64 * ((nBits + 63) / 64) ∧ nBits ≤ NumBits ba ∧
          NumBits ba < nBits + 64 ∧
          ∀ i, i < NumBits ba → IsSet ba i = Except.ok false)) ∧
    (8 * maxAlloc < nBits → NewBitArray nBits = Except.error Panic.makeLenOutOfRange) := by
  have hmax : numWords nBits = max 1 ((nBits + 63) / 64) := numWords_eq_max nBits
  constructor
  · intro hle
    have hw : 8 * numWords nBits ≤ maxAlloc := by
      rw [hmax]; unfold maxAlloc at *; omega
    have hsmall : 64 * numWords nBits < u64 := by
      unfold u64 maxAlloc at *; omega
    refine ⟨_, NewBitArray_eq nBits h hw, ?_, ?_, ?_, ?_⟩
    · rw [List.length_replicate, hmax]
    · intro w hw
      exact List.eq_of_mem_replicate hw
    · unfold NumBits bpw
      rw [List.length_replicate, Nat.mul_comm, Nat.mod_eq_of_lt hsmall]
    · intro h1
      have hlen : numWords nBits = (nBits + 63) / 64 := by
        rw [hmax]; omega
      have hnb : NumBits (List.replicate (numWords nBits) 0) = 64 * ((nBits + 63) / 64) := by
        unfold NumBits bpw
        rw [List.length_replicate, hlen, Nat.mod_eq_of_lt (by rw [hlen] at hsmall; omega)]
        omega
      refine ⟨hnb, by rw [hnb]; omega, by rw [hnb]; omega, ?_⟩
      intro i hi
      rw [hnb] at hi
      exact IsSet_replicate_zero _ i (by rw [hlen]; omega)
        (by rw [hlen] at hsmall ⊢; omega)
  · intro hbig
    have hw : ¬ 8 * numWords nBits ≤ maxAlloc := by
      rw [hmax]; unfold maxAlloc at *; omega
    rw [NewBitArray_cases nBits h, if_neg hw]

/-- Witness for C12: `NewBitArray(190)`, the array of `Test_Basic`, has 3 words
and 192 bits. -/
theorem NewBitArray_spec_witness :
    190 ≤ 8 * maxAlloc ∧
    ∃ ba, NewBitArray 190 = Except.ok ba ∧
      ba.length = max 1 ((190 + 63) / 64) ∧ (∀ w ∈ ba, w = 0) ∧
      NumBits ba = 64 * ba.length ∧
      (1 ≤ 190 →
        NumBits ba = 64 * ((190 + 63) / 64) ∧ 190 ≤ NumBits ba ∧
        NumBits ba < 190 + 64 ∧ ∀ i, i < NumBits ba → IsSet ba i = Except.ok false) :=
  ⟨by decide, (NewBitArray_spec 190 (by decide)).1 (by decide)⟩

end bitarray

namespace bitarray

theorem SetLastN_eq (ba : BitArray) (n : Nat) (hlen : 1 ≤ ba.length) (hn : n ≤ 64) :
    SetLastN ba n = Except.ok
      (ba.set (ba.length - 1) (setLastNLoop n (ba.getD (ba.length - 1) 0) (2 ^ 63))) := by
  unfold SetLastN
  rw [if_neg (by simp only [bpw]; omega)]
  obtain ⟨k, hk⟩ : ∃ k, ba.length = k + 1 := ⟨ba.length - 1, by omega⟩
  rw [hk]
  simp only [Nat.add_sub_cancel]
  rw [getElem?_eq_some_getD ba k (by omega)]

theorem testBitAt_SetLastN (ba : BitArray) (n i : Nat) (hlen : 1 ≤ ba.length) (hn : n ≤ 64) :
    testBitAt (ba.set (ba.length - 1) (setLastNLoop n (ba.getD (ba.length - 1) 0) (2 ^ 63))) i
      = (testBitAt ba i || (decide (ba.length * 64 - n ≤ i) && decide (i < ba.length * 64))) := by
  unfold testBitAt
  rw [getD_set]
  have hj : i % 64 < 64 := Nat.mod_lt _ (by norm_num)
  by_cases hw : ba.length - 1 = i / 64
  · rw [if_pos ⟨hw, by omega⟩, setLastNLoop_testBit _ _ 63 _ (by omega), hw]
    by_cases hc : ba.length * 64 - n ≤ i
    · have h1 : 63 < i % 64 + n := by omega
      have h2 : i < ba.length * 64 := by omega
      simp [hc, h1, h2]
      omega
    · have h1 : ¬ 63 < i % 64 + n := by omega
      simp [hc, h1]
  · rw [if_neg (fun h => hw h.1)]
    by_cases hc : ba.length * 64 - n ≤ i
    · have h2 : ¬ i < ba.length * 64 := by omega
      simp [h2]
    · simp [hc]

/-- C13, as stated, fails: on the array of no words `SetLastN(0)` panics with an
index out of range; it does not leave the array as it is. -/
theorem SetLastN_empty_panics :
    WF [] ∧ SetLastN [] 0 = Except.error Panic.indexOutOfRange := by
  refine ⟨?_, by decide⟩
  unfold WF
  decide

/-- C13, amended.  For every array of at least one word: `SetLastN(n)` with
`n > 64` panics; with `n <= 64` it returns, keeps the number of bits, sets the
bits `NumBits() - n .. NumBits() - 1` and leaves every other bit as it was. -/
theorem SetLastN_spec (ba : BitArray) (n : Nat) (hwf : WF ba) (hlen : 1 ≤ ba.length) :
    (64 < n → SetLastN ba n = Except.error Panic.setLastNExceeds64) ∧
    (n ≤ 64 → ∃ ba', SetLastN ba n = Except.ok ba' ∧ NumBits ba' = NumBits ba ∧
      ∀ i, i < NumBits ba →
        IsSet ba' i = if NumBits ba - n ≤ i then Except.ok true else IsSet ba i) := by
  refine ⟨?_, ?_⟩
  · intro h
    unfold SetLastN
    rw [if_pos (by simp only [bpw]; omega)]
  · intro hn
    have hL := hwf.2
    simp only [bpw] at hL
    refine ⟨_, SetLastN_eq ba n hlen hn, ?_, ?_⟩
    · unfold NumBits
      rw [List.length_set]
    · intro i hi
      rw [NumBits_eq hwf] at hi ⊢
      rw [IsSet_eq _ i (by omega) (by rw [List.length_set]; omega),
        IsSet_eq ba i (by omega) (by omega)]
      have := testBitAt_SetLastN ba n i hlen hn
      unfold testBitAt at this
      rw [this]
      by_cases hc : ba.length * 64 - n ≤ i
      · simp [hc, hi]
      · simp [hc]

/-- Witness for C13: the last 13 bits of a cleared 192-bit array, as in
`Test_SetLastN`. -/
theorem SetLastN_spec_witness :
    ∃ ba', SetLastN [0, 0, 0] 13 = Except.ok ba' ∧ NumBits ba' = NumBits [0, 0, 0] ∧
      ∀ i, i < NumBits [0, 0, 0] →
        IsSet ba' i =
          if NumBits [0, 0, 0] - 13 ≤ i then Except.ok true else IsSet [0, 0, 0] i :=
  (SetLastN_spec [0, 0, 0] 13 (by unfold WF; decide) (by decide)).2 (by decide)

end bitarray

namespace bitarray

theorem Clear_eq (ba : BitArray) (i : Nat) (hi : i < u64) (hlen : i / 64 < ba.length) :
    Clear ba i =
      Except.ok (ba.set (i / 64) (andNot (ba.getD (i / 64) 0) (2 ^ (i % 64)))) := by
  unfold Clear
  rw [index2pos_eq i hi]
  simp only [getElem?_eq_some_getD ba _ hlen]

/-- `IsSet` on an array in which one word has been replaced, in terms of the
bits of the new array. -/
theorem IsSet_set (ba : BitArray) (a w j : Nat) (hj : j < u64) (hlen : j / 64 < ba.length) :
    IsSet (ba.set a w) j = Except.ok (testBitAt (ba.set a w) j) := by
  rw [IsSet_eq _ j hj (by rw [List.length_set]; exact hlen)]
  rfl

/-- C14.  For an index `i` below `NumBits()`: `ClearIfSet(i)` returns the value
that bit `i` had; afterwards bit `i` is 0 and every other bit is as before, and
a second `ClearIfSet(i)` returns false and changes nothing. -/
theorem ClearIfSet_spec (ba : BitArray) (i : Nat) (hwf : WF ba) (hi : i < NumBits ba) :
    ∃ ba' b, ClearIfSet ba i = Except.ok (ba', b) ∧ IsSet ba i = Except.ok b ∧
      NumBits ba' = NumBits ba ∧ IsSet ba' i = Except.ok false ∧
      (∀ j, j < NumBits ba → j ≠ i → IsSet ba' j = IsSet ba j) ∧
      ClearIfSet ba' i = Except.ok (ba', false) := by
  rw [NumBits_eq hwf] at hi
  have hL := hwf.2
  simp only [bpw] at hL
  have hi64 : i < u64 := by omega
  have hw : i / 64 < ba.length := by omega
  cases hb : testBitAt ba i
  · refine ⟨ba, false, ClearIfSet_of_clear ba i hi64 hw hb, ?_, rfl, ?_, fun _ _ _ => rfl,
      ClearIfSet_of_clear ba i hi64 hw hb⟩
    · rw [IsSet_eq ba i hi64 hw]; exact congrArg Except.ok hb
    · rw [IsSet_eq ba i hi64 hw]; exact congrArg Except.ok hb
  · have hnew : testBitAt (ba.set (i / 64) (andNot (ba.getD (i / 64) 0) (2 ^ (i % 64)))) i
        = false := by
      rw [testBitAt_set_andNot _ _ _ hw]; simp
    refine ⟨_, true, ClearIfSet_of_set ba i hi64 hw hb, ?_, ?_, ?_, ?_, ?_⟩
    · rw [IsSet_eq ba i hi64 hw]; exact congrArg Except.ok hb
    · unfold NumBits; rw [List.length_set]
    · rw [IsSet_set ba _ _ i hi64 hw, hnew]
    · intro j hj hne
      rw [NumBits_eq hwf] at hj
      rw [IsSet_set ba _ _ j (by omega) (by omega), IsSet_eq ba j (by omega) (by omega),
        testBitAt_set_andNot _ _ _ hw]
      have : i ≠ j := fun h => hne h.symm
      simp [this, testBitAt]
    · exact ClearIfSet_of_clear _ i hi64 (by rw [List.length_set]; exact hw) hnew

/-- Witness for C14: bit 99 of a 192-bit array in which only that bit is set, as
in `Test_ClearIfSet`. -/
theorem ClearIfSet_spec_witness :
    ∃ ba' b, ClearIfSet [0, 2 ^ 35, 0] 99 = Except.ok (ba', b) ∧
      IsSet [0, 2 ^ 35, 0] 99 = Except.ok b ∧
      NumBits ba' = NumBits [0, 2 ^ 35, 0] ∧ IsSet ba' 99 = Except.ok false ∧
      (∀ j, j < NumBits [0, 2 ^ 35, 0] → j ≠ 99 → IsSet ba' j = IsSet [0, 2 ^ 35, 0] j) ∧
      ClearIfSet ba' 99 = Except.ok (ba', false) :=
  ClearIfSet_spec [0, 2 ^ 35, 0] 99 (by unfold WF; decide) (by decide)

/-- C15.  For indices `i` and `j` below `NumBits()`: `Set(i)` and `Clear(i)`
return; after `Set(i)`, `IsSet(i)` is true, after `Clear(i)` it is false, and in
both cases `IsSet(j)` is as before for `j ≠ i`. -/
theorem Set_Clear_spec (ba : BitArray) (i j : Nat) (hwf : WF ba) (hi : i < NumBits ba)
    (hj : j < NumBits ba) :
    (∃ ba', Set ba i = Except.ok ba' ∧ IsSet ba' i = Except.ok true ∧
      (j ≠ i → IsSet ba' j = IsSet ba j)) ∧
    (∃ ba', Clear ba i = Except.ok ba' ∧ IsSet ba' i = Except.ok false ∧
      (j ≠ i → IsSet ba' j = IsSet ba j)) := by
  rw [NumBits_eq hwf] at hi hj
  have hL := hwf.2
  simp only [bpw] at hL
  have hi64 : i < u64 := by omega
  have hj64 : j < u64 := by omega
  have hw : i / 64 < ba.length := by omega
  have hwj : j / 64 < ba.length := by omega
  refine ⟨⟨_, Set_eq ba i hi64 hw, ?_, ?_⟩, ⟨_, Clear_eq ba i hi64 hw, ?_, ?_⟩⟩
  · rw [IsSet_set ba _ _ i hi64 hw, testBitAt_set_or _ _ _ hw]; simp
  · intro hne
    rw [IsSet_set ba _ _ j hj64 hwj, IsSet_eq ba j hj64 hwj, testBitAt_set_or _ _ _ hw]
    have : i ≠ j := fun h => hne h.symm
    simp [this, testBitAt]
  · rw [IsSet_set ba _ _ i hi64 hw, testBitAt_set_andNot _ _ _ hw]; simp
  · intro hne
    rw [IsSet_set ba _ _ j hj64 hwj, IsSet_eq ba j hj64 hwj, testBitAt_set_andNot _ _ _ hw]
    have : i ≠ j := fun h => hne h.symm
    simp [this, testBitAt]

/-- Witness for C15: bits 63 and 64, on the two sides of a word boundary. -/
theorem Set_Clear_spec_witness :
    (∃ ba', Set [5, 1, 0] 63 = Except.ok ba' ∧ IsSet ba' 63 = Except.ok true ∧
      (64 ≠ 63 → IsSet ba' 64 = IsSet [5, 1, 0] 64)) ∧
    (∃ ba', Clear [5, 1, 0] 63 = Except.ok ba' ∧ IsSet ba' 63 = Except.ok false ∧
      (64 ≠ 63 → IsSet ba' 64 = IsSet [5, 1, 0] 64)) :=
  Set_Clear_spec [5, 1, 0] 63 64 (by unfold WF; decide) (by decide) (by decide)

end bitarray


/-! ## Claims on the byte-packing functions -/

namespace util

theorem or_shift (lo hi k : Nat) (h : lo < 2 ^ k) : lo ||| (hi <<< k) = lo + hi * 2 ^ k := by
  rw [Nat.shiftLeft_eq, Nat.mul_comm hi, Nat.lor_comm, ← Nat.mul_add_lt_is_or h, Nat.add_comm]

theorem exists_four (bb : List Nat) (h : 4 ≤ bb.length) :
    ∃ a0 a1 a2 a3 rest, bb = a0 :: a1 :: a2 :: a3 :: rest := by
  rcases bb with _ | ⟨a0, _ | ⟨a1, _ | ⟨a2, _ | ⟨a3, rest⟩⟩⟩⟩
  all_goals first
    | exact ⟨_, _, _, _, _, rfl⟩
    | (simp at h)

theorem Uint32ToBytes_cons (x a0 a1 a2 a3 : Nat) (rest : List Nat) :
    Uint32ToBytes x (a0 :: a1 :: a2 :: a3 :: rest) =
      Except.ok (byte (x &&& 0xFF) :: byte ((x >>> 8) &&& 0xFF) ::
        byte ((x >>> 16) &&& 0xFF) :: byte ((x >>> 24) &&& 0xFF) :: rest) := by
  simp [Uint32ToBytes, store, bind, Except.bind]

theorem Uint32FromBytes_cons (a0 a1 a2 a3 : Nat) (rest : List Nat) :
    Uint32FromBytes (a0 :: a1 :: a2 :: a3 :: rest) =
      Except.ok ((a0 % 2 ^ 32) ||| (((a1 % 2 ^ 32) <<< 8) % 2 ^ 32) |||
        (((a2 % 2 ^ 32) <<< 16) % 2 ^ 32) ||| (((a3 % 2 ^ 32) <<< 24) % 2 ^ 32)) := by
  simp [Uint32FromBytes, load, bind, Except.bind, pure, Except.pure]

theorem byte_and (y : Nat) : byte (y &&& 0xFF) = y % 256 := by
  unfold byte
  have h : (0xFF : Nat) = 2 ^ 8 - 1 := by norm_num
  rw [h, Nat.and_pow_two_sub_one_eq_mod]
  omega

theorem byte_shift_and (x k : Nat) : byte ((x >>> k) &&& 0xFF) = x / 2 ^ k % 256 := by
  rw [byte_and, Nat.shiftRight_eq_div_pow]

theorem shl_mod (b k w : Nat) (hb : b < 256) (hk : k + 8 ≤ w) :
    ((b % 2 ^ w) <<< k) % 2 ^ w = b <<< k := by
  have h8 : (256 : Nat) = 2 ^ 8 := by norm_num
  have hbw : b < 2 ^ w := lt_of_lt_of_le (h8 ▸ hb) (Nat.pow_le_pow_right (by norm_num) (by omega))
  rw [Nat.mod_eq_of_lt hbw]
  apply Nat.mod_eq_of_lt
  rw [Nat.shiftLeft_eq]
  calc b * 2 ^ k < 2 ^ 8 * 2 ^ k := Nat.mul_lt_mul_of_pos_right (h8 ▸ hb) (Nat.pow_pos (by norm_num))
    _ = 2 ^ (8 + k) := (Nat.pow_add 2 8 k).symm
    _ ≤ 2 ^ w := Nat.pow_le_pow_right (by norm_num) (by omega)

theorem pack32 (b0 b1 b2 b3 : Nat) (h0 : b0 < 256) (h1 : b1 < 256) (h2 : b2 < 256)
    (h3 : b3 < 256) :
    (b0 % 2 ^ 32) ||| (((b1 % 2 ^ 32) <<< 8) % 2 ^ 32) ||| (((b2 % 2 ^ 32) <<< 16) % 2 ^ 32) |||
      (((b3 % 2 ^ 32) <<< 24) % 2 ^ 32)
      = b0 + 2 ^ 8 * b1 + 2 ^ 16 * b2 + 2 ^ 24 * b3 := by
  rw [shl_mod b1 8 32 h1 (by norm_num), shl_mod b2 16 32 h2 (by norm_num),
    shl_mod b3 24 32 h3 (by norm_num), Nat.mod_eq_of_lt (by omega : b0 < 2 ^ 32),
    or_shift b0 b1 8 (by omega), or_shift _ b2 16 (by omega), or_shift _ b3 24 (by omega)]
  omega

theorem pack24 (b0 b1 b2 : Nat) (h0 : b0 < 256) (h1 : b1 < 256) (h2 : b2 < 256) :
    (b0 % 2 ^ 32) ||| (((b1 % 2 ^ 32) <<< 8) % 2 ^ 32) ||| (((b2 % 2 ^ 32) <<< 16) % 2 ^ 32)
      = b0 + 2 ^ 8 * b1 + 2 ^ 16 * b2 := by
  rw [shl_mod b1 8 32 h1 (by norm_num), shl_mod b2 16 32 h2 (by norm_num),
    Nat.mod_eq_of_lt (by omega : b0 < 2 ^ 32),
    or_shift b0 b1 8 (by omega), or_shift _ b2 16 (by omega)]
  omega

theorem pack64 (b0 b1 b2 b3 b4 b5 b6 b7 : Nat) (h0 : b0 < 256) (h1 : b1 < 256)
    (h2 : b2 < 256) (h3 : b3 < 256) (h4 : b4 < 256) (h5 : b5 < 256) (h6 : b6 < 256)
    (h7 : b7 < 256) :
    (b0 % 2 ^ 64) ||| (((b1 % 2 ^ 64) <<< 8) % 2 ^ 64) ||| (((b2 % 2 ^ 64) <<< 16) % 2 ^ 64) |||
      (((b3 % 2 ^ 64) <<< 24) % 2 ^ 64) ||| (((b4 % 2 ^ 64) <<< 32) % 2 ^ 64) |||
      (((b5 % 2 ^ 64) <<< 40) % 2 ^ 64) ||| (((b6 % 2 ^ 64) <<< 48) % 2 ^ 64) |||
      (((b7 % 2 ^ 64) <<< 56) % 2 ^ 64)
      = b0 + 2 ^ 8 * b1 + 2 ^ 16 * b2 + 2 ^ 24 * b3 + 2 ^ 32 * b4 + 2 ^ 40 * b5 +
        2 ^ 48 * b6 + 2 ^ 56 * b7 := by
  rw [shl_mod b1 8 64 h1 (by norm_num), shl_mod b2 16 64 h2 (by norm_num),
    shl_mod b3 24 64 h3 (by norm_num), shl_mod b4 32 64 h4 (by norm_num),
    shl_mod b5 40 64 h5 (by norm_num), shl_mod b6 48 64 h6 (by norm_num),
    shl_mod b7 56 64 h7 (by norm_num), Nat.mod_eq_of_lt (by omega : b0 < 2 ^ 64),
    or_shift b0 b1 8 (by omega), or_shift _ b2 16 (by omega), or_shift _ b3 24 (by omega),
    or_shift _ b4 32 (by omega), or_shift _ b5 40 (by omega), or_shift _ b6 48 (by omega),
    or_shift _ b7 56 (by omega)]
  omega

theorem exists_eight (bb : List Nat) (h : 8 ≤ bb.length) :
    ∃ a0 a1 a2 a3 a4 a5 a6 a7 rest, bb = a0 :: a1 :: a2 :: a3 :: a4 :: a5 :: a6 :: a7 :: rest := by
  obtain ⟨a0, a1, a2, a3, r, rfl⟩ := exists_four bb (by omega)
  obtain ⟨a4, a5, a6, a7, rest, rfl⟩ := exists_four r (by simp at h; omega)
  exact ⟨_, _, _, _, _, _, _, _, _, rfl⟩

theorem Uint64ToBytes_cons (x a0 a1 a2 a3 a4 a5 a6 a7 : Nat) (rest : List Nat) :
    Uint64ToBytes x (a0 :: a1 :: a2 :: a3 :: a4 :: a5 :: a6 :: a7 :: rest) =
      Except.ok (byte (x &&& 0xFF) :: byte ((x >>> 8) &&& 0xFF) ::
        byte ((x >>> 16) &&& 0xFF) :: byte ((x >>> 24) &&& 0xFF) ::
        byte ((x >>> 32) &&& 0xFF) :: byte ((x >>> 40) &&& 0xFF) ::
        byte ((x >>> 48) &&& 0xFF) :: byte ((x >>> 56) &&& 0xFF) :: rest) := by
  simp [Uint64ToBytes, store, bind, Except.bind]

theorem load_zero (a : Nat) (l : List Nat) : load (a :: l) 0 = Except.ok a := by
  simp [load]

theorem load_succ (a : Nat) (l : List Nat) (i : Nat) : load (a :: l) (i + 1) = load l i := by
  simp [load]

theorem Uint64FromBytes_cons (a0 a1 a2 a3 a4 a5 a6 a7 : Nat) (rest : List Nat) :
    Uint64FromBytes (a0 :: a1 :: a2 :: a3 :: a4 :: a5 :: a6 :: a7 :: rest) =
      Except.ok ((a0 % 2 ^ 64) ||| (((a1 % 2 ^ 64) <<< 8) % 2 ^ 64) |||
        (((a2 % 2 ^ 64) <<< 16) % 2 ^ 64) ||| (((a3 % 2 ^ 64) <<< 24) % 2 ^ 64) |||
        (((a4 % 2 ^ 64) <<< 32) % 2 ^ 64) ||| (((a5 % 2 ^ 64) <<< 40) % 2 ^ 64) |||
        (((a6 % 2 ^ 64) <<< 48) % 2 ^ 64) ||| (((a7 % 2 ^ 64) <<< 56) % 2 ^ 64)) := by
  unfold Uint64FromBytes
  rw [show (7 : Nat) = 0 + 1 + 1 + 1 + 1 + 1 + 1 + 1 from rfl,
    show (6 : Nat) = 0 + 1 + 1 + 1 + 1 + 1 + 1 from rfl,
    show (5 : Nat) = 0 + 1 + 1 + 1 + 1 + 1 from rfl, show (4 : Nat) = 0 + 1 + 1 + 1 + 1 from rfl,
    show (3 : Nat) = 0 + 1 + 1 + 1 from rfl, show (2 : Nat) = 0 + 1 + 1 from rfl,
    show (1 : Nat) = 0 + 1 from rfl]
  simp only [load_succ, load_zero]
  rfl

/-- C18.  For every `uint64` value `x` and every buffer of at least 8 bytes (of
8 bytes in particular): `Uint64ToBytes(x, bb)` returns, the buffer keeps its
length, `bb[0]` then holds the least significant byte of `x`, and
`Uint64FromBytes(bb)` returns `x`. -/
theorem Uint64_roundtrip (x : Nat) (bb : List Nat) (hx : x < 2 ^ 64) (hlen : 8 ≤ bb.length) :
    ∃ bb', Uint64ToBytes x bb = Except.ok bb' ∧ bb'.length = bb.length ∧
      bb'[0]? = some (x % 256) ∧ Uint64FromBytes bb' = Except.ok x := by
  obtain ⟨a0, a1, a2, a3, a4, a5, a6, a7, rest, rfl⟩ := exists_eight bb hlen
  refine ⟨_, Uint64ToBytes_cons x _ _ _ _ _ _ _ _ rest, by simp, ?_, ?_⟩
  · rw [byte_and]; rfl
  · rw [Uint64FromBytes_cons]
    simp only [byte_and, Nat.shiftRight_eq_div_pow]
    rw [pack64 _ _ _ _ _ _ _ _ (by omega) (by omega) (by omega) (by omega) (by omega)
      (by omega) (by omega) (by omega)]
    congr 1
    omega

/-- Witness for C18: the value and the buffer of `Test_utils`. -/
theorem Uint64_roundtrip_witness :
    ∃ bb', Uint64ToBytes 0x7d43670ae96abcd1 [0, 0, 0, 0, 0, 0, 0, 0] = Except.ok bb' ∧
      bb'.length = [0, 0, 0, 0, 0, 0, 0, 0].length ∧
      bb'[0]? = some (0x7d43670ae96abcd1 % 256) ∧
      Uint64FromBytes bb' = Except.ok 0x7d43670ae96abcd1 :=
  Uint64_roundtrip 0x7d43670ae96abcd1 [0, 0, 0, 0, 0, 0, 0, 0] (by decide) (by decide)

/-- C19.  For every `uint32` value `x` and every buffer of at least 4 bytes:
`Uint32ToBytes(x, bb)` followed by `Uint32FromBytes(bb)` returns `x`;
`Uint32FromBytes` reads `bb[0] + 2^8 bb[1] + 2^16 bb[2] + 2^24 bb[3]`; and
`Uint32ToBytes(Uint32FromBytes(bb), bb)` leaves the buffer as it is. -/
theorem Uint32_roundtrip (x : Nat) (bb : List Nat) (hx : x < 2 ^ 32) (hbb : IsBytes bb)
    (hlen : 4 ≤ bb.length) :
    (∃ bb', Uint32ToBytes x bb = Except.ok bb' ∧ bb'.length = bb.length ∧
      Uint32FromBytes bb' = Except.ok x) ∧
    Uint32FromBytes bb = Except.ok
      (bb.getD 0 0 + 2 ^ 8 * bb.getD 1 0 + 2 ^ 16 * bb.getD 2 0 + 2 ^ 24 * bb.getD 3 0) ∧
    Uint32ToBytes
      (bb.getD 0 0 + 2 ^ 8 * bb.getD 1 0 + 2 ^ 16 * bb.getD 2 0 + 2 ^ 24 * bb.getD 3 0) bb
      = Except.ok bb := by
  obtain ⟨a0, a1, a2, a3, rest, rfl⟩ := exists_four bb hlen
  have h0 : a0 < 256 := hbb a0 (by simp)
  have h1 : a1 < 256 := hbb a1 (by simp)
  have h2 : a2 < 256 := hbb a2 (by simp)
  have h3 : a3 < 256 := hbb a3 (by simp)
  refine ⟨⟨_, Uint32ToBytes_cons x _ _ _ _ rest, by simp, ?_⟩, ?_, ?_⟩
  · rw [Uint32FromBytes_cons]
    simp only [byte_and, Nat.shiftRight_eq_div_pow]
    rw [pack32 _ _ _ _ (by omega) (by omega) (by omega) (by omega)]
    congr 1
    omega
  · rw [Uint32FromBytes_cons, pack32 _ _ _ _ h0 h1 h2 h3]
    rfl
  · rw [Uint32ToBytes_cons]
    simp only [byte_and, Nat.shiftRight_eq_div_pow, List.getD_cons_zero, List.getD_cons_succ]
    have e0 : (a0 + 2 ^ 8 * a1 + 2 ^ 16 * a2 + 2 ^ 24 * a3) % 256 = a0 := by omega
    have e1 : (a0 + 2 ^ 8 * a1 + 2 ^ 16 * a2 + 2 ^ 24 * a3) / 2 ^ 8 % 256 = a1 := by omega
    have e2 : (a0 + 2 ^ 8 * a1 + 2 ^ 16 * a2 + 2 ^ 24 * a3) / 2 ^ 16 % 256 = a2 := by omega
    have e3 : (a0 + 2 ^ 8 * a1 + 2 ^ 16 * a2 + 2 ^ 24 * a3) / 2 ^ 24 % 256 = a3 := by omega
    rw [e0, e1, e2, e3]

/-- Witness for C19: the value of `Test_utils` and a buffer of 8 bytes. -/
theorem Uint32_roundtrip_witness :
    ∃ bb', Uint32ToBytes 0xe96abcd1 [1, 2, 3, 4, 5, 6, 7, 8] = Except.ok bb' ∧
      bb'.length = [1, 2, 3, 4, 5, 6, 7, 8].length ∧
      Uint32FromBytes bb' = Except.ok 0xe96abcd1 :=
  (Uint32_roundtrip 0xe96abcd1 [1, 2, 3, 4, 5, 6, 7, 8] (by decide)
    (by unfold IsBytes; decide) (by decide)).1

theorem Uint24ToBytes_cons (x a0 a1 a2 a3 : Nat) (rest : List Nat) :
    Uint24ToBytes x (a0 :: a1 :: a2 :: a3 :: rest) =
      Except.ok (byte (x &&& 0xFF) :: byte ((x >>> 8) &&& 0xFF) ::
        byte ((x >>> 16) &&& 0xFF) :: byte ((x >>> 24) &&& 0xFF) :: rest) := by
  simp [Uint24ToBytes, store, bind, Except.bind]

theorem Uint24FromBytes_cons (a0 a1 a2 : Nat) (rest : List Nat) :
    Uint24FromBytes (a0 :: a1 :: a2 :: rest) =
      Except.ok ((a0 % 2 ^ 32) ||| (((a1 % 2 ^ 32) <<< 8) % 2 ^ 32) |||
        (((a2 % 2 ^ 32) <<< 16) % 2 ^ 32)) := by
  simp [Uint24FromBytes, load, bind, Except.bind, pure, Except.pure]

/-- C20, the failing input.  `Uint24ToBytes` stores a fourth byte, `dest[3]`:
on a buffer of 3 bytes it panics with an index out of range, for every value,
and on a buffer of 4 bytes it overwrites `bb[3]` (here 7) with 0. -/
theorem Uint24ToBytes_writes_fourth_byte :
    (∀ val b0 b1 b2, Uint24ToBytes val [b0, b1, b2] = Except.error Panic.indexOutOfRange) ∧
    Uint24ToBytes 0xd5c8a9 [0, 0, 0] = Except.error Panic.indexOutOfRange ∧
    Uint24ToBytes 0xd5c8a9 [1, 2, 3, 7] = Except.ok [0xa9, 0xc8, 0xd5, 0] := by
  refine ⟨?_, by decide, by decide⟩
  intro val b0 b1 b2
  simp [Uint24ToBytes, store, bind, Except.bind]

/-- What holds in place of C20: for every `val < 2^24` and every buffer of at
least 4 bytes, `Uint24ToBytes(val, bb)` returns, `bb[0..2]` then hold `val` in
little-endian order, `bb[3]` holds 0, the bytes from `bb[4]` on are unchanged,
and `Uint24FromBytes(bb)` returns `val`. -/
theorem Uint24_roundtrip_four (val : Nat) (bb : List Nat) (hval : val < 2 ^ 24)
    (hlen : 4 ≤ bb.length) :
    ∃ bb', Uint24ToBytes val bb = Except.ok bb' ∧ bb'.length = bb.length ∧
      bb'.take 4 = [val % 256, val / 2 ^ 8 % 256, val / 2 ^ 16 % 256, 0] ∧
      bb'.drop 4 = bb.drop 4 ∧ Uint24FromBytes bb' = Except.ok val := by
  obtain ⟨a0, a1, a2, a3, rest, rfl⟩ := exists_four bb hlen
  refine ⟨_, Uint24ToBytes_cons val _ _ _ _ rest, by simp, ?_, by simp, ?_⟩
  · simp only [byte_and, Nat.shiftRight_eq_div_pow, List.take_succ_cons, List.take_zero]
    have h : val / 2 ^ 24 % 256 = 0 := by omega
    rw [h]
  · rw [Uint24FromBytes_cons]
    simp only [byte_and, Nat.shiftRight_eq_div_pow]
    rw [pack24 _ _ _ (by omega) (by omega) (by omega)]
    congr 1
    omega

/-- Evaluation of `Uint24_roundtrip_four` on the value of `Test_utils`. -/
theorem Uint24_roundtrip_four_witness :
    ∃ bb', Uint24ToBytes 0xd5c8a9 [0, 0, 0, 0, 0, 0, 0, 0] = Except.ok bb' ∧
      bb'.length = [0, 0, 0, 0, 0, 0, 0, 0].length ∧
      bb'.take 4 = [0xd5c8a9 % 256, 0xd5c8a9 / 2 ^ 8 % 256, 0xd5c8a9 / 2 ^ 16 % 256, 0] ∧
      bb'.drop 4 = [0, 0, 0, 0, 0, 0, 0, 0].drop 4 ∧ Uint24FromBytes bb' = Except.ok 0xd5c8a9 :=
  Uint24_roundtrip_four 0xd5c8a9 [0, 0, 0, 0, 0, 0, 0, 0] (by decide) (by decide)

end util

/-! ## Lemmas on the Robin Hood map -/

namespace robin1

theorem bitLenLoop_spec : ∀ fuel x, x ≤ fuel → x ≠ 0 →
    2 ^ (bitLenLoop fuel x - 1) ≤ x ∧ x < 2 ^ bitLenLoop fuel x
  | 0, x, h, h0 => by omega
  | fuel + 1, x, h, h0 => by
    unfold bitLenLoop
    rw [if_neg h0]
    by_cases hx : x / 2 = 0
    · have h1 : x = 1 := by omega
      subst h1
      cases fuel <;> simp [bitLenLoop]
    · have ih := bitLenLoop_spec fuel (x / 2) (by omega) hx
      obtain ⟨k, hk⟩ : ∃ k, bitLenLoop fuel (x / 2) = k + 1 := by
        refine ⟨bitLenLoop fuel (x / 2) - 1, ?_⟩
        have h1 : bitLenLoop fuel (x / 2) ≠ 0 := by
          intro h0
          rw [h0] at ih
          simp at ih
          omega
        omega
      rw [hk] at ih ⊢
      simp only [Nat.add_sub_cancel] at ih ⊢
      rw [pow_succ] at ih ⊢
      rw [pow_succ]
      omega

theorem bitLen_spec (n : Nat) (h : n ≠ 0) : 2 ^ (bitLen n - 1) ≤ n ∧ n < 2 ^ bitLen n :=
  bitLenLoop_spec n n (Nat.le_refl n) h

/-- The shape of a rounded number: at most 24 significant digits, and at most
half a unit in the last place away from the argument. -/
theorem roundFloat32_cases (n : Nat) :
    ∃ s q, roundFloat32 n = q * 2 ^ s ∧ q ≤ 2 ^ 24 ∧ (s = 0 ∨ 2 ^ 23 * 2 ^ s ≤ n) ∧
      2 * n ≤ 2 * (q * 2 ^ s) + 2 ^ s ∧ 2 * (q * 2 ^ s) ≤ 2 * n + 2 ^ s := by
  have hq : n / 2 ^ (bitLen n - 24) < 2 ^ 24 := by
    rw [Nat.div_lt_iff_lt_mul (Nat.pow_pos (by norm_num))]
    by_cases h0 : n = 0
    · subst h0
      exact Nat.mul_pos (Nat.pow_pos (by norm_num)) (Nat.pow_pos (by norm_num))
    · have h1 := (bitLen_spec n h0).2
      rw [← Nat.pow_add]
      exact lt_of_lt_of_le h1 (Nat.pow_le_pow_right (by norm_num) (by omega))
  have hs : bitLen n - 24 = 0 ∨ 2 ^ 23 * 2 ^ (bitLen n - 24) ≤ n := by
    by_cases h : bitLen n - 24 = 0
    · exact Or.inl h
    · right
      have h0 : n ≠ 0 := by
        intro h0
        subst h0
        simp [bitLen, bitLenLoop] at h
      have h1 := (bitLen_spec n h0).1
      rw [← Nat.pow_add]
      exact le_trans (Nat.pow_le_pow_right (by norm_num) (by omega)) h1
  have hd := Nat.div_add_mod n (2 ^ (bitLen n - 24))
  have hr := Nat.mod_lt n (Nat.pow_pos (by norm_num : 0 < 2) : 0 < 2 ^ (bitLen n - 24))
  rw [Nat.mul_comm] at hd
  unfold roundFloat32
  simp only
  generalize hP : 2 ^ (bitLen n - 24) = P at *
  generalize n / P = q at *
  generalize n % P = r at *
  split_ifs with h1 h2
  · exact ⟨bitLen n - 24, q, by rw [hP], by omega, by rw [hP]; exact hs, by rw [hP]; omega,
      by rw [hP]; omega⟩
  · exact ⟨bitLen n - 24, q, by rw [hP], by omega, by rw [hP]; exact hs, by rw [hP]; omega,
      by rw [hP]; omega⟩
  · refine ⟨bitLen n - 24, q + 1, by rw [hP], by omega, by rw [hP]; exact hs, ?_, ?_⟩
    · rw [hP, Nat.add_mul]
      omega
    · rw [hP, Nat.add_mul]
      omega

theorem roundFloat32_lower (n : Nat) : (2 ^ 24 - 1) * n ≤ 2 ^ 24 * roundFloat32 n := by
  obtain ⟨s, q, h, _, hs, h1, _⟩ := roundFloat32_cases n
  rw [h]
  generalize q * 2 ^ s = X at *
  rcases hs with hs | hs
  · subst hs
    simp at h1
    omega
  · generalize 2 ^ s = P at *
    omega

theorem roundFloat32_upper (n : Nat) : 2 ^ 24 * roundFloat32 n ≤ (2 ^ 24 + 1) * n := by
  obtain ⟨s, q, h, _, hs, _, h2⟩ := roundFloat32_cases n
  rw [h]
  generalize q * 2 ^ s = X at *
  rcases hs with hs | hs
  · subst hs
    simp at h2
    omega
  · generalize 2 ^ s = P at *
    omega

theorem roundFloat32_trunc (n : Nat) :
    roundFloat32 n / 2 ^ 23 ≤ 2 ^ 24 ∨ (roundFloat32 n / 2 ^ 23) % 2 = 0 := by
  obtain ⟨s, q, h, hq, _, _, _⟩ := roundFloat32_cases n
  rw [h]
  by_cases hs : s ≤ 23
  · left
    have h1 : q * 2 ^ s ≤ 2 ^ 24 * 2 ^ 23 :=
      Nat.mul_le_mul hq (Nat.pow_le_pow_right (by norm_num) hs)
    omega
  · right
    obtain ⟨t, rfl⟩ : ∃ t, s = 24 + t := ⟨s - 24, by omega⟩
    rw [Nat.pow_add]
    have h2 : q * (2 ^ 24 * 2 ^ t) = 2 ^ 24 * (q * 2 ^ t) := by ring
    rw [h2]
    generalize q * 2 ^ t = Y
    omega

/-- What `NewMap` returns: empty buckets, more of them than `maxAllowed`, and
a bucket count that `uint32` does not take to 0. -/
theorem NewMap_ok (c : Int) (m : Map) (h : NewMap c = Except.ok m) :
    ∃ nB : Nat, m.buckets = List.replicate nB { Key := 0, Value := 0, used := false } ∧
      m.nUsed = 0 ∧ m.maxAllowed = max 1 c ∧ m.maxAllowed < nB ∧ nB % 2 ^ 32 ≠ 0 ∧
      nB < 2 ^ 63 := by
  have hl1 := roundFloat32_lower (if c < 1 then 1 else c).toNat
  have hl2 := roundFloat32_lower (roundFloat32 (if c < 1 then 1 else c).toNat * float32Const110)
  have ht := roundFloat32_trunc (roundFloat32 (if c < 1 then 1 else c).toNat * float32Const110)
  unfold NewMap at h
  simp only at h
  generalize roundFloat32 (roundFloat32 (if c < 1 then 1 else c).toNat * float32Const110) = r2
    at h hl2 ht
  generalize roundFloat32 (if c < 1 then 1 else c).toNat = r1 at hl1 hl2
  unfold float32Const110 at hl2
  have hc : (if c < 1 then 1 else c) = max 1 c := by
    split_ifs <;> omega
  rw [hc] at h hl1
  have hcn : ((max 1 c).toNat : Int) = max 1 c := Int.toNat_of_nonneg (by omega)
  generalize (max 1 c).toNat = cn at hl1 hcn
  unfold fixedpool.wrapInt64 at h
  by_cases hbig : 2 ^ 63 ≤ r2 / 2 ^ 23
  · rw [if_pos hbig] at h
    simp at h
  · rw [if_neg hbig] at h
    split_ifs at h with hneg
    simp only [Except.ok.injEq] at h
    subst h
    have hnb : ((((r2 / 2 ^ 23 : Nat) : Int) + 1 + 2 ^ 63) % 2 ^ 64 - 2 ^ 63).toNat
        = r2 / 2 ^ 23 + 1 := by omega
    refine ⟨r2 / 2 ^ 23 + 1, ?_, rfl, rfl, ?_, ?_, ?_⟩
    · simp only
      rw [hnb]
    · simp only
      omega
    · omega
    · omega

/-- The function `NewMap` returns for every capacity up to `2^40`. -/
theorem NewMap_returns (c : Int) (h : c ≤ 2 ^ 40) : ∃ m, NewMap c = Except.ok m := by
  have hu1 := roundFloat32_upper (if c < 1 then 1 else c).toNat
  have hu2 := roundFloat32_upper (roundFloat32 (if c < 1 then 1 else c).toNat * float32Const110)
  unfold NewMap
  simp only
  generalize roundFloat32 (roundFloat32 (if c < 1 then 1 else c).toNat * float32Const110) = r2
    at hu2
  generalize roundFloat32 (if c < 1 then 1 else c).toNat = r1 at hu1 hu2
  unfold float32Const110 at hu2
  have hc : (if c < 1 then 1 else c) = max 1 c := by
    split_ifs <;> omega
  rw [hc] at hu1
  rw [hc]
  have hcn : ((max 1 c).toNat : Int) = max 1 c := Int.toNat_of_nonneg (by omega)
  generalize (max 1 c).toNat = cn at hu1 hcn
  have hsmall : ¬ 2 ^ 63 ≤ r2 / 2 ^ 23 := by omega
  rw [if_neg hsmall]
  unfold fixedpool.wrapInt64
  have hma : (maxAlloc : Int) = 2 ^ 48 := by unfold maxAlloc; norm_num
  rw [hma]
  have hnn : ¬ ((((r2 / 2 ^ 23 : Nat) : Int) + 1 + 2 ^ 63) % 2 ^ 64 - 2 ^ 63 < 0 ∨
      (2 : Int) ^ 48 < 24 * ((((r2 / 2 ^ 23 : Nat) : Int) + 1 + 2 ^ 63) % 2 ^ 64 - 2 ^ 63)) := by
    omega
  rw [if_neg hnn]
  exact ⟨_, rfl⟩

theorem index_lt (m : Map) (k : Nat) (hn : m.buckets.length % 2 ^ 32 ≠ 0) :
    index m k < m.buckets.length := by
  unfold index
  have h1 : k % (m.buckets.length % 2 ^ 32) < m.buckets.length % 2 ^ 32 :=
    Nat.mod_lt _ (Nat.pos_of_ne_zero hn)
  have h2 : m.buckets.length % 2 ^ 32 ≤ m.buckets.length := Nat.mod_le _ _
  omega

theorem probeDist_lt (m : Map) (b : Bucket) (i : Nat) (hn : m.buckets.length % 2 ^ 32 ≠ 0)
    (hi : i < m.buckets.length) : probeDist m b i < m.buckets.length := by
  have h := index_lt m b.Key hn
  unfold probeDist
  simp only
  split_ifs <;> omega

theorem lt_of_getElem? {α : Type} (l : List α) (i : Nat) (a : α) (h : l[i]? = some a) :
    i < l.length := by
  obtain ⟨h1, _⟩ := List.getElem?_eq_some.1 h
  exact h1

/-- The global form of the Robin Hood property: every slot on the way from the
ideal slot of a used bucket to its slot is used, by a bucket that is at least
as far from its own ideal slot. -/
theorem rh_path (m : Map) (hn : m.buckets.length % 2 ^ 32 ≠ 0) (hrh : RobinHood m)
    (i : Nat) (b : Bucket) (hb : m.buckets[i]? = some b) (hu : b.used = true) :
    ∀ s, s ≤ probeDist m b i →
      ∃ c, m.buckets[slotAt m (index m b.Key) (probeDist m b i - s)]? = some c ∧
        c.used = true ∧
        probeDist m b i - s ≤ probeDist m c (slotAt m (index m b.Key) (probeDist m b i - s)) := by
  have hi := lt_of_getElem? _ _ _ hb
  have hh := index_lt m b.Key hn
  have hd : (i < index m b.Key → probeDist m b i = m.buckets.length - index m b.Key + i) ∧
      (¬ i < index m b.Key → probeDist m b i = i - index m b.Key) := by
    unfold probeDist
    simp only
    constructor <;> intro h <;> simp [h]
  intro s
  induction s with
  | zero =>
    intro _
    have hslot : slotAt m (index m b.Key) (probeDist m b i - 0) = i := by
      unfold slotAt
      split_ifs <;> omega
    rw [hslot]
    exact ⟨b, hb, hu, by omega⟩
  | succ s ih =>
    intro hs
    obtain ⟨c, hc, hcu, hcd⟩ := ih (by omega)
    obtain ⟨p, hp, hpu, hpd⟩ := hrh _ c hc hcu (by omega)
    have hslot : prevSlot m (slotAt m (index m b.Key) (probeDist m b i - s))
        = slotAt m (index m b.Key) (probeDist m b i - (s + 1)) := by
      unfold prevSlot slotAt
      split_ifs <;> omega
    rw [hslot] at hp hpd
    exact ⟨p, hp, hpu, by omega⟩

theorem getLoop_returns (m : Map) (key : Nat) :
    ∀ (fuel idx dist : Nat) (wrapped : Bool), idx < m.buckets.length →
      (if wrapped then 0 else m.buckets.length) + (m.buckets.length - idx) ≤ fuel →
      ∃ r, getLoop fuel m key idx dist wrapped = some r := by
  intro fuel
  induction fuel with
  | zero =>
    intro idx dist wrapped hidx hf
    omega
  | succ fuel ih =>
    intro idx dist wrapped hidx hf
    unfold getLoop
    obtain ⟨other, ho⟩ : ∃ other, m.buckets[idx]? = some other :=
      ⟨m.buckets[idx], List.getElem?_eq_getElem hidx⟩
    rw [ho]
    simp only
    split_ifs with h1 h2 h3 h4 h5
    · exact ⟨_, rfl⟩
    · exact ⟨_, rfl⟩
    · exact ⟨_, rfl⟩
    · exact ⟨_, rfl⟩
    · refine ih 0 (dist + 1) true (by omega) ?_
      simp only [Bool.not_eq_true] at h5
      rw [h5] at hf
      simp only [if_true, Bool.false_eq_true, if_false] at hf ⊢
      omega
    · refine ih (idx + 1) (dist + 1) wrapped (by omega) ?_
      split_ifs at hf ⊢ <;> omega

theorem getLoop_sound (m : Map) (key : Nat) :
    ∀ (fuel idx dist : Nat) (wrapped : Bool) (r : Except Panic (Int × Bool)),
      idx < m.buckets.length → getLoop fuel m key idx dist wrapped = some r →
      r = Except.ok (0, false) ∨
        ∃ (i : Nat) (b : Bucket), m.buckets[i]? = some b ∧ b.used = true ∧ b.Key = key ∧
          r = Except.ok (b.Value, true) := by
  intro fuel
  induction fuel with
  | zero =>
    intro idx dist wrapped r hidx h
    simp [getLoop] at h
  | succ fuel ih =>
    intro idx dist wrapped r hidx h
    unfold getLoop at h
    obtain ⟨other, ho⟩ : ∃ other, m.buckets[idx]? = some other :=
      ⟨m.buckets[idx], List.getElem?_eq_getElem hidx⟩
    rw [ho] at h
    simp only at h
    split_ifs at h with h1 h2 h3 h4 h5
    · left
      simpa using h.symm
    · right
      refine ⟨idx, other, ho, by simpa using h1, h2, by simpa using h.symm⟩
    · left
      simpa using h.symm
    · left
      simpa using h.symm
    · exact ih 0 (dist + 1) true r (by omega) h
    · exact ih (idx + 1) (dist + 1) wrapped r (by omega) h

theorem probeDist_cases (m : Map) (b : Bucket) (i : Nat) :
    (i < index m b.Key → probeDist m b i = m.buckets.length - index m b.Key + i) ∧
      (¬ i < index m b.Key → probeDist m b i = i - index m b.Key) := by
  unfold probeDist
  simp only
  constructor <;> intro h <;> simp [h]

theorem getLoop_found (m : Map) (hn : m.buckets.length % 2 ^ 32 ≠ 0) (hrh : RobinHood m)
    (hdk : DistinctKeys m) (i : Nat) (b : Bucket) (hb : m.buckets[i]? = some b)
    (hu : b.used = true) :
    ∀ (s fuel t idx : Nat) (w : Bool), t + s = probeDist m b i → s < fuel →
      idx = slotAt m (index m b.Key) t → (w = true ↔ m.buckets.length ≤ index m b.Key + t) →
      getLoop fuel m b.Key idx t w = some (Except.ok (b.Value, true)) := by
  have hi := lt_of_getElem? _ _ _ hb
  have hh := index_lt m b.Key hn
  have hd := probeDist_cases m b i
  have hdn := probeDist_lt m b i hn hi
  intro s
  induction s with
  | zero =>
    intro fuel t idx w ht hf hidx hw
    obtain ⟨fuel, rfl⟩ : ∃ f, fuel = f + 1 := ⟨fuel - 1, by omega⟩
    have hslot : idx = i := by
      rw [hidx]
      unfold slotAt
      split_ifs <;> omega
    subst hslot
    unfold getLoop
    rw [hb]
    simp [hu]
  | succ s ih =>
    intro fuel t idx w ht hf hidx hw
    obtain ⟨fuel, rfl⟩ : ∃ f, fuel = f + 1 := ⟨fuel - 1, by omega⟩
    obtain ⟨c, hc, hcu, hcd⟩ := rh_path m hn hrh i b hb hu (s + 1) (by omega)
    have ht2 : probeDist m b i - (s + 1) = t := by omega
    rw [ht2, ← hidx] at hc hcd
    have hidxn := lt_of_getElem? _ _ _ hc
    have hck : c.Key ≠ b.Key := by
      intro hk
      have h1 := hdk idx i c b hc hb hcu hu hk
      rw [hidx] at h1
      unfold slotAt at h1
      split_ifs at h1 <;> omega
    unfold getLoop
    rw [hc]
    simp only [hcu, hck, Bool.true_eq_false, if_false]
    rw [if_neg (by omega)]
    have hsl : idx = slotAt m (index m b.Key) t := hidx
    unfold slotAt at hsl
    by_cases hwrap : idx + 1 ≥ m.buckets.length
    · rw [if_pos hwrap]
      have hwf : w = false := by
        cases w
        · rfl
        · have := hw.1 rfl
          split_ifs at hsl <;> omega
      rw [hwf]
      simp only [Bool.false_eq_true, if_false]
      refine ih fuel (t + 1) 0 true (by omega) (by omega) ?_ ?_
      · unfold slotAt
        split_ifs at hsl ⊢ <;> omega
      · simp only [true_iff]
        split_ifs at hsl <;> omega
    · rw [if_neg hwrap]
      refine ih fuel (t + 1) (idx + 1) w (by omega) (by omega) ?_ ?_
      · unfold slotAt
        split_ifs at hsl ⊢ <;> omega
      · rw [hw]
        split_ifs at hsl <;> omega

/-- The result of `Get` in a map with the invariant that stores `f`. -/
theorem Get_of_inv (m : Map) (f : Nat → Option Int) (hinv : Inv m) (hst : Stores m f)
    (k : Nat) :
    Get m k = some (Except.ok (match f k with
      | some v => (v, true)
      | none => (0, false))) := by
  have hh := index_lt m k hinv.nz
  unfold Get
  rw [if_neg hinv.nz]
  cases hf : f k with
  | some v =>
    obtain ⟨i, hi⟩ := (hst k v).2 hf
    have hd := probeDist_lt m (Bucket.mk k v true) i hinv.nz (lt_of_getElem? _ _ _ hi)
    have h := getLoop_found m hinv.nz hinv.rh hinv.distinct i (Bucket.mk k v true) hi rfl
      (probeDist m (Bucket.mk k v true) i) (2 * m.buckets.length + 1) 0 (index m k) false
      (by omega) (by omega) (by unfold slotAt; simp [hh]) (by simp; exact hh)
    exact h
  | none =>
    obtain ⟨r, hr⟩ := getLoop_returns m k (2 * m.buckets.length + 1) (index m k) 0 false hh
      (by simp; omega)
    rw [hr]
    rcases getLoop_sound m k _ _ _ _ r hh hr with h | ⟨i, b, hb, hbu, hbk, _⟩
    · rw [h]
    · have h1 : f k = some b.Value := by
        apply (hst k b.Value).1
        refine ⟨i, ?_⟩
        rw [hb, ← hbk, ← hbu]
      rw [hf] at h1
      simp at h1

theorem index_congr (m m1 : Map) (h : m1.buckets.length = m.buckets.length) (k : Nat) :
    index m1 k = index m k := by
  unfold index
  rw [h]

theorem probeDist_congr (m m1 : Map) (h : m1.buckets.length = m.buckets.length) (b : Bucket)
    (i : Nat) : probeDist m1 b i = probeDist m b i := by
  unfold probeDist
  rw [index_congr m m1 h, h]

theorem prevSlot_congr (m m1 : Map) (h : m1.buckets.length = m.buckets.length) (i : Nat) :
    prevSlot m1 i = prevSlot m i := by
  unfold prevSlot
  rw [h]

theorem slotAt_congr (m m1 : Map) (h : m1.buckets.length = m.buckets.length) (a t : Nat) :
    slotAt m1 a t = slotAt m a t := by
  unfold slotAt
  rw [h]

/-- Storing a used bucket in a slot keeps the Robin Hood property, when the
bucket is at least as far from its ideal slot as the one it replaces and at
most one step farther than the bucket before it. -/
theorem RobinHood_set (m m1 : Map) (hn : m.buckets.length % 2 ^ 32 ≠ 0) (hrh : RobinHood m)
    (idx : Nat) (x : Bucket) (hm1 : m1.buckets = m.buckets.set idx x)
    (hidx : idx < m.buckets.length) (hxu : x.used = true)
    (hold : ∀ o : Bucket, m.buckets[idx]? = some o → o.used = true →
      probeDist m o idx ≤ probeDist m x idx)
    (hpred : 0 < probeDist m x idx → ∃ p, m.buckets[prevSlot m idx]? = some p ∧
      p.used = true ∧ probeDist m x idx ≤ probeDist m p (prevSlot m idx) + 1) :
    RobinHood m1 := by
  have hlen : m1.buckets.length = m.buckets.length := by
    rw [hm1, List.length_set]
  intro j b hb hbu hpos
  rw [probeDist_congr m m1 hlen] at hpos ⊢
  rw [prevSlot_congr m m1 hlen]
  rw [hm1, List.getElem?_set] at hb
  by_cases hj : idx = j
  · subst hj
    rw [if_pos rfl, if_pos hidx] at hb
    have hbx : x = b := by simpa using hb
    subst hbx
    obtain ⟨p, hp, hpu, hpd⟩ := hpred hpos
    have hne : idx ≠ prevSlot m idx := by
      have h1 := index_lt m x.Key hn
      have h2 := probeDist_cases m x idx
      unfold prevSlot
      split_ifs <;> omega
    refine ⟨p, ?_, hpu, ?_⟩
    · rw [hm1, List.getElem?_set_ne hne]
      exact hp
    · rw [probeDist_congr m m1 hlen]
      exact hpd
  · rw [if_neg hj] at hb
    obtain ⟨p, hp, hpu, hpd⟩ := hrh j b hb hbu hpos
    by_cases hpj : idx = prevSlot m j
    · refine ⟨x, ?_, hxu, ?_⟩
      · rw [hm1, ← hpj, List.getElem?_set_self hidx]
      · rw [probeDist_congr m m1 hlen, ← hpj]
        rw [← hpj] at hp hpd
        have := hold p hp hpu
        omega
    · refine ⟨p, ?_, hpu, ?_⟩
      · rw [hm1, List.getElem?_set_ne hpj]
        exact hp
      · rw [probeDist_congr m m1 hlen]
        exact hpd

theorem DistinctKeys_set (m m1 : Map) (hdk : DistinctKeys m) (idx : Nat) (x : Bucket)
    (hm1 : m1.buckets = m.buckets.set idx x)
    (hfresh : ∀ (i : Nat) (b : Bucket), i ≠ idx → m.buckets[i]? = some b → b.used = true →
      b.Key ≠ x.Key) :
    DistinctKeys m1 := by
  intro i j bi bj hi hj hiu hju hk
  rw [hm1, List.getElem?_set] at hi hj
  by_cases h1 : idx = i
  · by_cases h2 : idx = j
    · omega
    · rw [if_neg h2] at hj
      rw [if_pos h1] at hi
      split_ifs at hi
      have hx : x = bi := by simpa using hi
      subst hx
      exact absurd hk.symm (hfresh j bj (fun h => h2 h.symm) hj hju)
  · rw [if_neg h1] at hi
    by_cases h2 : idx = j
    · rw [if_pos h2] at hj
      split_ifs at hj
      have hx : x = bj := by simpa using hj
      subst hx
      exact absurd hk (hfresh i bi (fun h => h1 h.symm) hi hiu)
    · rw [if_neg h2] at hj
      exact hdk i j bi bj hi hj hiu hju hk

theorem countP_set_used (l : List Bucket) (idx : Nat) (o x : Bucket) (ho : l[idx]? = some o) :
    (l.set idx x).countP (fun b => b.used) + (if o.used = true then 1 else 0)
      = l.countP (fun b => b.used) + (if x.used = true then 1 else 0) := by
  obtain ⟨hlt, hget⟩ := List.getElem?_eq_some.1 ho
  rw [List.countP_set _ _ _ _ hlt, hget]
  have hpos : o.used = true → 0 < l.countP (fun b => b.used) := by
    intro h
    rw [List.countP_pos_iff]
    exact ⟨o, List.mem_iff_getElem?.2 ⟨idx, ho⟩, h⟩
  by_cases h1 : o.used = true
  · have h2 := hpos h1
    split_ifs <;> omega
  · split_ifs <;> omega

theorem putLoop_step (fuel : Nat) (m : Map) (incoming other : Bucket) (idx dist wrapCount : Nat)
    (ho : m.buckets[idx]? = some other) (hu : other.used = true)
    (hk : other.Key ≠ incoming.Key) :
    putLoop (fuel + 1) m incoming idx dist wrapCount =
      if probeDist m other idx < dist then
        (if idx + 1 ≥ m.buckets.length then
          (if wrapCount + 1 > 1 then some (Except.error Panic.putAssertionFail)
           else putLoop fuel { m with buckets := m.buckets.set idx incoming } other 0
             (probeDist m other idx + 1) (wrapCount + 1))
         else putLoop fuel { m with buckets := m.buckets.set idx incoming } other (idx + 1)
           (probeDist m other idx + 1) wrapCount)
      else
        (if idx + 1 ≥ m.buckets.length then
          (if wrapCount + 1 > 1 then some (Except.error Panic.putAssertionFail)
           else putLoop fuel m incoming 0 (dist + 1) (wrapCount + 1))
         else putLoop fuel m incoming (idx + 1) (dist + 1) wrapCount) := by
  rw [putLoop, ho]
  simp only [hu, Bool.true_eq_false, if_false, hk]
  by_cases hrob : probeDist m other idx < dist
  · simp only [hrob, decide_True, if_true, List.length_set]
  · simp only [hrob, decide_False, if_false, Bool.false_eq_true]

theorem putLoop_empty (fuel : Nat) (m : Map) (incoming other : Bucket) (idx dist wrapCount : Nat)
    (ho : m.buckets[idx]? = some other) (hu : other.used = false) :
    putLoop (fuel + 1) m incoming idx dist wrapCount =
      some (Except.ok
        ({ m with nUsed := fixedpool.wrapInt64 (m.nUsed + 1),
                  buckets := m.buckets.set idx incoming }, true)) := by
  rw [putLoop, ho]
  simp only [hu, if_true]

theorem putLoop_update (fuel : Nat) (m : Map) (incoming other : Bucket) (idx dist wrapCount : Nat)
    (ho : m.buckets[idx]? = some other) (hu : other.used = true)
    (hk : other.Key = incoming.Key) :
    putLoop (fuel + 1) m incoming idx dist wrapCount =
      some (Except.ok
        ({ m with buckets := m.buckets.set idx { other with Value := incoming.Value } },
          true)) := by
  rw [putLoop, ho]
  simp only [hu, Bool.true_eq_false, if_false, hk, if_true]

/-- The step `idx++` with its wrap-around, `t + 1` steps after slot `a`: the
second wrap-around is not reached within one turn of the array. -/
theorem advance {α : Type} (m : Map) (a t idx wc : Nat) (E : α) (X : Nat → Nat → α)
    (ha : a < m.buckets.length) (ht : t + 1 < m.buckets.length) (hidx : idx = slotAt m a t)
    (hwc : wc = if a + t < m.buckets.length then 0 else 1) :
    (if idx + 1 ≥ m.buckets.length then (if wc + 1 > 1 then E else X 0 (wc + 1))
      else X (idx + 1) wc)
      = X (slotAt m a (t + 1)) (if a + (t + 1) < m.buckets.length then 0 else 1) := by
  unfold slotAt at hidx ⊢
  by_cases h1 : a + t < m.buckets.length
  · rw [if_pos h1] at hidx hwc
    subst hidx hwc
    by_cases h2 : a + (t + 1) < m.buckets.length
    · rw [if_neg (by omega), if_pos h2, if_pos h2]
      rfl
    · rw [if_pos (by omega), if_neg (by omega), if_neg h2, if_neg h2]
      have h3 : a + (t + 1) - m.buckets.length = 0 := by omega
      rw [h3]
  · rw [if_neg h1] at hidx hwc
    subst hidx hwc
    rw [if_neg (by omega), if_neg (by omega), if_neg (by omega)]
    have h3 : a + t - m.buckets.length + 1 = a + (t + 1) - m.buckets.length := by omega
    rw [h3]

theorem probeDist_next (m : Map) (b : Bucket) (a t : Nat)
    (hn : m.buckets.length % 2 ^ 32 ≠ 0)
    (ha : a < m.buckets.length) (ht : t + 1 < m.buckets.length)
    (hd : probeDist m b (slotAt m a t) + 1 < m.buckets.length) :
    probeDist m b (slotAt m a (t + 1)) = probeDist m b (slotAt m a t) + 1 := by
  have h1 := index_lt m b.Key hn
  have h2 := probeDist_cases m b (slotAt m a t)
  have h3 := probeDist_cases m b (slotAt m a (t + 1))
  have h4 : slotAt m a (t + 1) = if slotAt m a t + 1 ≥ m.buckets.length then 0
      else slotAt m a t + 1 := by
    unfold slotAt
    split_ifs <;> omega
  have h5 : slotAt m a t < m.buckets.length := by
    unfold slotAt
    split_ifs <;> omega
  split_ifs at h4 <;> omega

theorem prevSlot_next (m : Map) (a t : Nat) (ht : t + 1 < m.buckets.length) : prevSlot m (slotAt m a (t + 1)) = slotAt m a t := by
  unfold prevSlot slotAt
  split_ifs <;> omega

theorem slotAt_lt (m : Map) (a t : Nat) (ha : a < m.buckets.length)
    (ht : t < m.buckets.length) : slotAt m a t < m.buckets.length := by
  unfold slotAt
  split_ifs <;> omega

theorem slotAt_inj (m : Map) (a t u : Nat)
    (ht : t < m.buckets.length) (hu : u < m.buckets.length)
    (h : slotAt m a t = slotAt m a u) : t = u := by
  unfold slotAt at h
  split_ifs at h <;> omega

/-- The used buckets after a store in slot `idx`. -/
theorem mem_set_iff (l : List Bucket) (idx : Nat) (o x b : Bucket) (ho : l[idx]? = some o) :
    ((∃ i : Nat, (l.set idx x)[i]? = some b) ∨ b = o) ↔ ((∃ i : Nat, l[i]? = some b) ∨ b = x) := by
  have hlt := lt_of_getElem? _ _ _ ho
  constructor
  · rintro (⟨i, hi⟩ | rfl)
    · rw [List.getElem?_set] at hi
      by_cases h : idx = i
      · rw [if_pos h, if_pos hlt] at hi
        right
        simpa using hi.symm
      · rw [if_neg h] at hi
        exact Or.inl ⟨i, hi⟩
    · exact Or.inl ⟨idx, ho⟩
  · rintro (⟨i, hi⟩ | rfl)
    · by_cases h : idx = i
      · subst h
        right
        rw [ho] at hi
        simpa using hi.symm
      · left
        exact ⟨i, by rw [List.getElem?_set_ne h]; exact hi⟩
    · left
      exact ⟨idx, List.getElem?_set_self hlt⟩

/-- The map after the incoming bucket is stored in an empty slot. -/
theorem put_place (m m1 : Map) (inc c : Bucket) (idx : Nat)
    (hn : m.buckets.length % 2 ^ 32 ≠ 0)
    (hm1 : m1.buckets = m.buckets.set idx inc)
    (hc : m.buckets[idx]? = some c) (hcu : c.used = false) (hinc : inc.used = true)
    (hnew : ∀ (i : Nat) (b : Bucket), m.buckets[i]? = some b → b.used = true →
      b.Key ≠ inc.Key)
    (hpred : 0 < probeDist m inc idx → ∃ p, m.buckets[prevSlot m idx]? = some p ∧
      p.used = true ∧ probeDist m inc idx ≤ probeDist m p (prevSlot m idx) + 1)
    (hrh : RobinHood m) (hdk : DistinctKeys m) :
    m1.buckets.length = m.buckets.length ∧ RobinHood m1 ∧ DistinctKeys m1 ∧
      m1.buckets.countP (fun b => b.used) = m.buckets.countP (fun b => b.used) + 1 ∧
      ∀ b : Bucket, b.used = true →
        ((∃ i : Nat, m1.buckets[i]? = some b) ↔ ((∃ i : Nat, m.buckets[i]? = some b) ∨ b = inc)) := by
  have hidx := lt_of_getElem? _ _ _ hc
  refine ⟨by rw [hm1, List.length_set], ?_, ?_, ?_, ?_⟩
  · refine RobinHood_set m m1 hn hrh idx inc hm1 hidx hinc ?_ hpred
    intro o ho hou
    rw [hc] at ho
    have : c = o := by simpa using ho
    subst this
    rw [hcu] at hou
    simp at hou
  · exact DistinctKeys_set m m1 hdk idx inc hm1 (fun i b _ hb hbu => hnew i b hb hbu)
  · have h := countP_set_used m.buckets idx c inc hc
    rw [hcu, hinc] at h
    rw [hm1]
    simpa using h
  · intro b hb
    have h := mem_set_iff m.buckets idx c inc b hc
    rw [hm1]
    rw [← h]
    constructor
    · intro h1
      exact Or.inl h1
    · rintro (h1 | rfl)
      · exact h1
      · rw [hcu] at hb
        simp at hb

/-- The loop of `Put` with an incoming key that no bucket holds: it stores the
incoming bucket, moving others onward, and returns true before the second
wrap-around, given an empty slot `d` steps ahead. -/
theorem putLoop_insert : ∀ (d fuel : Nat) (m : Map) (inc : Bucket) (a t e idx dist wc : Nat),
    m.buckets.length % 2 ^ 32 ≠ 0 → a < m.buckets.length → t + d = e →
    e < m.buckets.length → idx = slotAt m a t →
    (wc = if a + t < m.buckets.length then 0 else 1) → d < fuel →
    (∃ c, m.buckets[slotAt m a e]? = some c ∧ c.used = false) →
    inc.used = true →
    (∀ (i : Nat) (b : Bucket), m.buckets[i]? = some b → b.used = true → b.Key ≠ inc.Key) →
    dist = probeDist m inc idx → dist ≤ t →
    (0 < dist → ∃ p, m.buckets[prevSlot m idx]? = some p ∧ p.used = true ∧
      dist ≤ probeDist m p (prevSlot m idx) + 1) →
    RobinHood m → DistinctKeys m →
    ∃ m1, putLoop fuel m inc idx dist wc = some (Except.ok (m1, true)) ∧
      m1.buckets.length = m.buckets.length ∧
      m1.nUsed = fixedpool.wrapInt64 (m.nUsed + 1) ∧ m1.maxAllowed = m.maxAllowed ∧
      RobinHood m1 ∧ DistinctKeys m1 ∧
      m1.buckets.countP (fun b => b.used) = m.buckets.countP (fun b => b.used) + 1 ∧
      ∀ b : Bucket, b.used = true →
        ((∃ i : Nat, m1.buckets[i]? = some b) ↔
          ((∃ i : Nat, m.buckets[i]? = some b) ∨ b = inc)) := by
  intro d
  induction d with
  | zero =>
    intro fuel m inc a t e idx dist wc hn ha hte he hidx hwc hf hemp hinc hnew hdist hdt hpred
      hrh hdk
    obtain ⟨fuel, rfl⟩ : ∃ f, fuel = f + 1 := ⟨fuel - 1, by omega⟩
    obtain ⟨c, hc, hcu⟩ := hemp
    have hte2 : e = t := by omega
    rw [hte2, ← hidx] at hc
    rw [putLoop_empty fuel m inc c idx dist wc hc hcu]
    rw [hdist] at hpred
    exact ⟨_, rfl, (put_place m _ inc c idx hn rfl hc hcu hinc hnew hpred hrh hdk).1, rfl, rfl,
      (put_place m _ inc c idx hn rfl hc hcu hinc hnew hpred hrh hdk).2⟩
  | succ d ih =>
    intro fuel m inc a t e idx dist wc hn ha hte he hidx hwc hf hemp hinc hnew hdist hdt hpred
      hrh hdk
    obtain ⟨fuel, rfl⟩ : ∃ f, fuel = f + 1 := ⟨fuel - 1, by omega⟩
    have hidxn : idx < m.buckets.length := by
      rw [hidx]
      exact slotAt_lt m a t ha (by omega)
    obtain ⟨other, ho⟩ : ∃ other, m.buckets[idx]? = some other :=
      ⟨m.buckets[idx], List.getElem?_eq_getElem hidxn⟩
    by_cases hou : other.used = false
    · rw [putLoop_empty fuel m inc other idx dist wc ho hou]
      rw [hdist] at hpred
      exact ⟨_, rfl, (put_place m _ inc other idx hn rfl ho hou hinc hnew hpred hrh hdk).1,
        rfl, rfl, (put_place m _ inc other idx hn rfl ho hou hinc hnew hpred hrh hdk).2⟩
    · have hou : other.used = true := by simpa using hou
      have hok : other.Key ≠ inc.Key := hnew idx other ho hou
      rw [putLoop_step fuel m inc other idx dist wc ho hou hok]
      obtain ⟨c, hc, hcu⟩ := hemp
      have hne : idx ≠ slotAt m a e := by
        intro h
        rw [hidx] at h
        have := slotAt_inj m a t e (by omega) he h
        omega
      by_cases hrob : probeDist m other idx < dist
      · rw [if_pos hrob]
        rw [advance m a t idx wc _
          (fun i w => putLoop fuel { m with buckets := m.buckets.set idx inc } other i
            (probeDist m other idx + 1) w) ha (by omega) hidx hwc]
        have hlen : ({ m with buckets := m.buckets.set idx inc } : Map).buckets.length
            = m.buckets.length := List.length_set _ _ _
        have hrh1 : RobinHood { m with buckets := m.buckets.set idx inc } := by
          refine RobinHood_set m _ hn hrh idx inc rfl hidxn hinc ?_ (by rw [← hdist]; exact hpred)
          intro o ho2 _
          rw [ho] at ho2
          have : other = o := by simpa using ho2
          subst this
          omega
        have hdk1 : DistinctKeys { m with buckets := m.buckets.set idx inc } :=
          DistinctKeys_set m _ hdk idx inc rfl (fun i b _ hb hbu => hnew i b hb hbu)
        have hpd : probeDist m other (slotAt m a (t + 1)) = probeDist m other idx + 1 := by
          rw [hidx]
          refine probeDist_next m other a t hn ha (by omega) ?_
          rw [← hidx]
          omega
        obtain ⟨m1, h1, h2, h3, h4, h5, h6, h7, h8⟩ :=
          ih fuel { m with buckets := m.buckets.set idx inc } other a (t + 1) e
            (slotAt m a (t + 1)) (probeDist m other idx + 1)
            (if a + (t + 1) < m.buckets.length then 0 else 1)
            (by rw [hlen]; exact hn) (by rw [hlen]; exact ha) (by omega)
            (by rw [hlen]; exact he) (by rw [slotAt_congr m _ hlen]) (by rw [hlen]) (by omega)
            ⟨c, by
              rw [slotAt_congr m _ hlen]
              show (m.buckets.set idx inc)[slotAt m a e]? = some c
              rw [List.getElem?_set_ne hne]
              exact hc, hcu⟩
            hou
            (by
              intro i b hb hbu
              change (m.buckets.set idx inc)[i]? = some b at hb
              rw [List.getElem?_set] at hb
              by_cases hi : idx = i
              · rw [if_pos hi, if_pos hidxn] at hb
                have : inc = b := by simpa using hb
                subst this
                exact fun h => hok h.symm
              · rw [if_neg hi] at hb
                intro hk
                exact hi (hdk i idx b other hb ho hbu hou hk).symm)
            (by rw [probeDist_congr m _ hlen, hpd])
            (by omega)
            (by
              intro _
              rw [prevSlot_congr m _ hlen, prevSlot_next m a t (by omega), ← hidx]
              refine ⟨inc, ?_, hinc, ?_⟩
              · show (m.buckets.set idx inc)[idx]? = some inc
                exact List.getElem?_set_self hidxn
              · rw [probeDist_congr m _ hlen, ← hdist]
                omega)
            hrh1 hdk1
        refine ⟨m1, h1, by rw [h2, hlen], h3, h4, h5, h6, ?_, ?_⟩
        · rw [h7]
          have hcnt := countP_set_used m.buckets idx other inc ho
          rw [hou, hinc] at hcnt
          show (m.buckets.set idx inc).countP (fun b => b.used) + 1 = _
          simp only [if_true] at hcnt
          omega
        · intro b hb
          rw [h8 b hb]
          exact mem_set_iff m.buckets idx other inc b ho
      · rw [if_neg hrob]
        rw [advance m a t idx wc _ (fun i w => putLoop fuel m inc i (dist + 1) w) ha (by omega)
          hidx hwc]
        have hpd : probeDist m inc (slotAt m a (t + 1)) = probeDist m inc idx + 1 := by
          rw [hidx]
          refine probeDist_next m inc a t hn ha (by omega) ?_
          rw [← hidx]
          omega
        exact ih fuel m inc a (t + 1) e (slotAt m a (t + 1)) (dist + 1)
          (if a + (t + 1) < m.buckets.length then 0 else 1) hn ha (by omega) he rfl rfl
          (by omega) ⟨c, hc, hcu⟩ hinc hnew (by rw [hpd, hdist]) (by omega)
          (by
            intro _
            rw [prevSlot_next m a t (by omega), ← hidx]
            exact ⟨other, ho, hou, by omega⟩)
          hrh hdk

/-- The loop of `Put` with an incoming key that bucket `i` holds: it walks to
slot `i` and updates the value there. -/
theorem putLoop_existing (m : Map) (hn : m.buckets.length % 2 ^ 32 ≠ 0) (hrh : RobinHood m)
    (hdk : DistinctKeys m) (i : Nat) (b : Bucket) (hb : m.buckets[i]? = some b)
    (hu : b.used = true) (inc : Bucket) (hk : b.Key = inc.Key) :
    ∀ (s fuel t idx wc : Nat), t + s = probeDist m b i → s < fuel →
      idx = slotAt m (index m b.Key) t →
      (wc = if index m b.Key + t < m.buckets.length then 0 else 1) →
      putLoop fuel m inc idx t wc = some (Except.ok
        ({ m with buckets := m.buckets.set i { b with Value := inc.Value } }, true)) := by
  have hi := lt_of_getElem? _ _ _ hb
  have hh := index_lt m b.Key hn
  have hd := probeDist_cases m b i
  have hdn := probeDist_lt m b i hn hi
  intro s
  induction s with
  | zero =>
    intro fuel t idx wc ht hf hidx hwc
    obtain ⟨fuel, rfl⟩ : ∃ f, fuel = f + 1 := ⟨fuel - 1, by omega⟩
    have hslot : idx = i := by
      rw [hidx]
      unfold slotAt
      split_ifs <;> omega
    subst hslot
    exact putLoop_update fuel m inc b idx t wc hb hu hk
  | succ s ih =>
    intro fuel t idx wc ht hf hidx hwc
    obtain ⟨fuel, rfl⟩ : ∃ f, fuel = f + 1 := ⟨fuel - 1, by omega⟩
    obtain ⟨c, hc, hcu, hcd⟩ := rh_path m hn hrh i b hb hu (s + 1) (by omega)
    have ht2 : probeDist m b i - (s + 1) = t := by omega
    rw [ht2, ← hidx] at hc hcd
    have hck : c.Key ≠ inc.Key := by
      intro hk2
      have h1 := hdk idx i c b hc hb hcu hu (hk2.trans hk.symm)
      rw [hidx] at h1
      unfold slotAt at h1
      split_ifs at h1 <;> omega
    rw [putLoop_step fuel m inc c idx t wc hc hcu hck, if_neg (by omega),
      advance m (index m b.Key) t idx wc _ (fun j w => putLoop fuel m inc j (t + 1) w) hh
        (by omega) hidx hwc]
    exact ih fuel (t + 1) _ _ (by omega) (by omega) rfl rfl

theorem exists_unused (l : List Bucket) (h : l.countP (fun b => b.used) < l.length) :
    ∃ (i : Nat) (c : Bucket), l[i]? = some c ∧ c.used = false := by
  by_contra hc
  have h1 : l.countP (fun b => b.used) = l.length := by
    rw [List.countP_eq_length]
    intro a ha
    obtain ⟨i, hi⟩ := List.mem_iff_getElem?.1 ha
    by_contra hu
    exact hc ⟨i, a, hi, by simpa using hu⟩
  omega

/-- A call of `Put` on a map with the invariant that stores `f`: it returns, it
returns false exactly when the map is full and then leaves the map as it is,
and otherwise the map stores `f` updated at the key. -/
theorem Put_of_inv (m : Map) (f : Nat → Option Int) (hinv : Inv m) (hst : Stores m f)
    (k : Nat) (v : Int) :
    ∃ m1 b, Put m k v = some (Except.ok (m1, b)) ∧ (b = false ↔ m.maxAllowed ≤ m.nUsed) ∧
      (b = false → m1 = m) ∧ Inv m1 ∧
      Stores m1 (if b then Function.update f k (some v) else f) ∧
      m1.maxAllowed = m.maxAllowed ∧ m1.buckets.length = m.buckets.length ∧
      m1.nUsed = (if b = true ∧ f k = none then m.nUsed + 1 else m.nUsed) := by
  unfold Put
  by_cases hfull : m.nUsed ≥ m.maxAllowed
  · rw [if_pos hfull]
    exact ⟨m, false, rfl, by simpa using hfull, fun _ => rfl, hinv, by simpa using hst, rfl, rfl,
      by simp⟩
  · rw [if_neg hfull, if_neg hinv.nz]
    have hh := index_lt m k hinv.nz
    cases hf : f k with
    | some v0 =>
      obtain ⟨i, hi⟩ := (hst k v0).2 hf
      have hilt := lt_of_getElem? _ _ _ hi
      have hd := probeDist_lt m (Bucket.mk k v0 true) i hinv.nz hilt
      have hput := putLoop_existing m hinv.nz hinv.rh hinv.distinct i (Bucket.mk k v0 true) hi rfl
        (Bucket.mk k v true) rfl (probeDist m (Bucket.mk k v0 true) i) (2 * m.buckets.length + 1)
        0 (index m k) 0 (by omega) (by omega) (by unfold slotAt; simp [hh]) (by simp [hh])
      refine ⟨_, true, hput, by simpa using hfull, by simp, ?_, ?_, rfl, List.length_set _ _ _,
        by simp⟩
      · have hlen : ({ m with buckets := m.buckets.set i (Bucket.mk k v true) } : Map).buckets.length
            = m.buckets.length := List.length_set _ _ _
        refine ⟨by rw [hlen]; exact hinv.nz, by rw [hlen]; exact hinv.small, ?_, ?_, ?_,
          hinv.cap, by rw [hlen]; exact hinv.room⟩
        · refine RobinHood_set m _ hinv.nz hinv.rh i (Bucket.mk k v true) rfl hilt rfl ?_ ?_
          · intro o ho _
            rw [hi] at ho
            have : Bucket.mk k v0 true = o := by simpa using ho
            subst this
            exact Nat.le_refl _
          · intro hpos
            exact hinv.rh i (Bucket.mk k v0 true) hi rfl hpos
        · refine DistinctKeys_set m _ hinv.distinct i (Bucket.mk k v true) rfl ?_
          intro j b hj hb hbu hk
          exact hj (hinv.distinct j i b (Bucket.mk k v0 true) hb hi hbu rfl hk)
        · have h := countP_set_used m.buckets i (Bucket.mk k v0 true) (Bucket.mk k v true) hi
          simp only [if_true] at h
          have h2 : (m.buckets.set i (Bucket.mk k v true)).countP (fun b => b.used)
              = m.buckets.countP (fun b => b.used) := by omega
          show m.nUsed = _
          rw [hinv.count]
          exact congrArg Nat.cast h2.symm
      · simp only [if_true]
        intro q w
        show (∃ j : Nat, (m.buckets.set i (Bucket.mk k v true))[j]? = some (Bucket.mk q w true)) ↔ _
        by_cases hq : q = k
        · subst hq
          rw [Function.update_same]
          constructor
          · rintro ⟨j, hj⟩
            rw [List.getElem?_set] at hj
            by_cases hij : i = j
            · rw [if_pos hij, if_pos hilt] at hj
              simp only [Option.some.injEq, Bucket.mk.injEq, and_true, true_and] at hj
              rw [hj]
            · rw [if_neg hij] at hj
              exact absurd (hinv.distinct j i _ _ hj hi rfl rfl rfl).symm hij
          · intro hw
            simp only [Option.some.injEq] at hw
            subst hw
            exact ⟨i, List.getElem?_set_self hilt⟩
        · rw [Function.update_noteq hq, ← hst q w]
          constructor
          · rintro ⟨j, hj⟩
            rw [List.getElem?_set] at hj
            by_cases hij : i = j
            · rw [if_pos hij, if_pos hilt] at hj
              simp only [Option.some.injEq, Bucket.mk.injEq, and_true] at hj
              exact absurd hj.1.symm hq
            · rw [if_neg hij] at hj
              exact ⟨j, hj⟩
          · rintro ⟨j, hj⟩
            have hij : i ≠ j := by
              intro hij
              subst hij
              rw [hi] at hj
              simp only [Option.some.injEq, Bucket.mk.injEq, and_true] at hj
              exact hq hj.1.symm
            exact ⟨j, by rw [List.getElem?_set_ne hij]; exact hj⟩
    | none =>
      have hcount := hinv.count
      have hcap := hinv.cap
      have hroom := hinv.room
      have hsmall := hinv.small
      have hnew : ∀ (i : Nat) (b : Bucket), m.buckets[i]? = some b → b.used = true →
          b.Key ≠ (Bucket.mk k v true).Key := by
        intro i b hb hbu hk
        have h1 : f k = some b.Value := by
          apply (hst k b.Value).1
          refine ⟨i, ?_⟩
          rw [hb]
          simp only [Option.some.injEq]
          cases b
          simp_all
        rw [hf] at h1
        simp at h1
      obtain ⟨i0, c, hc, hcu⟩ := exists_unused m.buckets (by omega)
      have hi0 := lt_of_getElem? _ _ _ hc
      obtain ⟨e, he, hse⟩ : ∃ e, e < m.buckets.length ∧ slotAt m (index m k) e = i0 := by
        refine ⟨if i0 < index m k then m.buckets.length - index m k + i0 else i0 - index m k,
          ?_, ?_⟩
        · split_ifs <;> omega
        · unfold slotAt
          split_ifs <;> omega
      obtain ⟨m1, h1, h2, h3, h4, h5, h6, h7, h8⟩ :=
        putLoop_insert e (2 * m.buckets.length + 1) m (Bucket.mk k v true) (index m k) 0 e
          (index m k) 0 0 hinv.nz hh (by omega) he (by unfold slotAt; simp [hh]) (by simp [hh])
          (by omega) ⟨c, by rw [hse]; exact hc, hcu⟩ rfl hnew
          (by unfold probeDist; simp) (Nat.le_refl 0) (fun h => absurd h (Nat.lt_irrefl 0))
          hinv.rh hinv.distinct
      have hn1 : m1.nUsed = m.nUsed + 1 := by
        rw [h3]
        apply fixedpool.wrapInt64_of_range <;> omega
      refine ⟨m1, true, h1, by simpa using hfull, by simp, ?_, ?_, h4, h2, by simp [hn1]⟩
      · refine ⟨by rw [h2]; exact hinv.nz, by rw [h2]; exact hinv.small, h5, h6, ?_, ?_,
          by rw [h2, h4]; exact hinv.room⟩
        · rw [hn1, h7, hcount]
          push_cast
          rfl
        · rw [hn1, h4]
          omega
      · simp only [if_true]
        intro q w
        rw [h8 (Bucket.mk q w true) rfl, hst q w]
        by_cases hq : q = k
        · subst hq
          rw [Function.update_same, hf]
          simp only [Bucket.mk.injEq, true_and, and_true, Option.some.injEq]
          constructor
          · rintro (h | h)
            · exact Option.noConfusion h
            · exact h.symm
          · intro h
            exact Or.inr h.symm
        · rw [Function.update_noteq hq]
          simp [hq]

/-- The map of `NewMap` has the invariant and stores nothing. -/
theorem NewMap_inv (c : Int) (m : Map) (h : NewMap c = Except.ok m) :
    Inv m ∧ Stores m (fun _ => none) := by
  obtain ⟨nB, hb, hu, hmax, hroom, hnz, hsmall⟩ := NewMap_ok c m h
  have hlen : m.buckets.length = nB := by
    rw [hb, List.length_replicate]
  have hun : ∀ (i : Nat) (b : Bucket), m.buckets[i]? = some b → b.used = false := by
    intro i b hi
    rw [hb, List.getElem?_replicate] at hi
    split_ifs at hi
    have : Bucket.mk 0 0 false = b := by simpa using hi
    rw [← this]
  refine ⟨⟨by rw [hlen]; exact hnz, by rw [hlen]; exact hsmall, ?_, ?_, ?_, ?_,
    by rw [hlen]; exact hroom⟩, ?_⟩
  · intro i b hi hbu
    rw [hun i b hi] at hbu
    simp at hbu
  · intro i j bi bj hi _ hbu
    rw [hun i bi hi] at hbu
    simp at hbu
  · rw [hu, hb, List.countP_replicate]
    simp
  · rw [hu, hmax]
    omega
  · intro k v
    constructor
    · rintro ⟨i, hi⟩
      have := hun i _ hi
      simp at this
    · intro hf
      simp at hf

/-- Every map made by `NewMap` and `Put` has the invariant and stores the
finite map of its successful `Put` calls. -/
theorem Reach_inv {m : Map} {f : Nat → Option Int} (h : Reach m f) : Inv m ∧ Stores m f := by
  induction h with
  | init c m h => exact NewMap_inv c m h
  | put m f k v m1 b _ hput ih =>
    obtain ⟨m2, b2, h1, _, _, h4, h5, _⟩ := Put_of_inv m f ih.1 ih.2 k v
    rw [h1] at hput
    simp only [Option.some.injEq, Except.ok.injEq, Prod.mk.injEq] at hput
    obtain ⟨rfl, rfl⟩ := hput
    exact ⟨h4, h5⟩

/-- Puts of pairwise distinct new keys, as many as the map has room for, all
return true. -/
theorem putAll_distinct : ∀ (kvs : List (Nat × Int)) (m : Map) (f : Nat → Option Int),
    Inv m → Stores m f → (kvs.map Prod.fst).Nodup → (∀ p ∈ kvs, f p.1 = none) →
    m.nUsed + kvs.length ≤ m.maxAllowed →
    ∃ m1 f1, putAll m kvs = some (Except.ok (m1, List.replicate kvs.length true)) ∧
      Inv m1 ∧ Stores m1 f1 ∧ m1.nUsed = m.nUsed + kvs.length ∧
      m1.maxAllowed = m.maxAllowed := by
  intro kvs
  induction kvs with
  | nil =>
    intro m f hinv hst _ _ _
    exact ⟨m, f, rfl, hinv, hst, by simp, rfl⟩
  | cons p rest ih =>
    intro m f hinv hst hnd hnew hroom
    obtain ⟨k, v⟩ := p
    simp only [List.length_cons, Nat.cast_add, Nat.cast_one] at hroom
    obtain ⟨m1, b, h1, h2, _, h4, h5, h6, _, h8⟩ := Put_of_inv m f hinv hst k v
    have hb : b = true := by
      cases b
      · have := h2.1 rfl
        have := hinv.count
        omega
      · rfl
    subst hb
    have hfk : f k = none := hnew (k, v) (List.mem_cons_self _ _)
    simp only [hfk, and_self, if_true] at h5 h8
    simp only [List.map_cons, List.nodup_cons] at hnd
    obtain ⟨m2, f2, g1, g2, g3, g4, g5⟩ := ih m1 (Function.update f k (some v)) h4 h5 hnd.2
      (by
        intro p hp
        have hne : p.1 ≠ k := by
          intro h
          exact hnd.1 (h ▸ List.mem_map_of_mem Prod.fst hp)
        rw [Function.update_noteq hne]
        exact hnew p (List.mem_cons_of_mem _ hp))
      (by rw [h8, h6]; omega)
    refine ⟨m2, f2, ?_, g2, g3, ?_, by rw [g5, h6]⟩
    · simp only [putAll, h1, g1, List.length_cons, List.replicate_succ]
    · rw [g4, h8]
      simp only [List.length_cons, Nat.cast_add, Nat.cast_one]
      omega

/-- A list of pairwise distinct numbers below `n` has at most `n` elements. -/
theorem nodup_length_le (l : List Nat) (n : Nat) (hnd : l.Nodup) (h : ∀ x ∈ l, x < n) :
    l.length ≤ n := by
  have hsub : l ⊆ List.range n := fun x hx => List.mem_range.2 (h x hx)
  have := (List.Nodup.subperm hnd hsub).length_le
  rwa [List.length_range] at this

/-- The bucket counts that the tests of the package expect: 20 buckets for a
capacity of 18 (`TestBasic`) and 211 for 191 (`Test211`). -/
theorem NewMap_bucket_counts :
    (NewMap 18).map (fun m => (m.buckets.length, m.maxAllowed)) = Except.ok (20, 18) ∧
    (NewMap 191).map (fun m => (m.buckets.length, m.maxAllowed)) = Except.ok (211, 191) ∧
    (NewMap 0).map (fun m => (m.buckets.length, m.maxAllowed)) = Except.ok (2, 1) := by
  decide

end robin1

/-! ## Claims on the Robin Hood map -/

namespace robin1

/-- C16.  In every map obtained from `NewMap` by calls of `Put`, standing for
the finite map `f` of the successful calls: `Get(k)` returns `(v, true)` when
`v` is the value of the most recent `Put(k, v)` that returned true, and
`(0, false)` when there is none (key 0 included); and every further `Put(k1, v)`
returns, after which `Get(k)` returns the lookup of `k` in `f` updated at `k1`
when the call returned true, and in `f` when it returned false. -/
theorem Get_after_Puts (m : Map) (f : Nat → Option Int) (h : Reach m f) (k : Nat) :
    Get m k = some (Except.ok (match f k with
      | some v => (v, true)
      | none => (0, false))) ∧
    ∀ (k1 : Nat) (v : Int), ∃ m1 b, Put m k1 v = some (Except.ok (m1, b)) ∧
      Get m1 k = some (Except.ok
        (match (if b then Function.update f k1 (some v) else f) k with
          | some v => (v, true)
          | none => (0, false))) := by
  obtain ⟨hinv, hst⟩ := Reach_inv h
  refine ⟨Get_of_inv m f hinv hst k, ?_⟩
  intro k1 v
  obtain ⟨m1, b, h1, _, _, h4, h5, _⟩ := Put_of_inv m f hinv hst k1 v
  exact ⟨m1, b, h1, Get_of_inv m1 _ h4 h5 k⟩

/-- Witness for C16: `NewMap(3)`, then `Put(0, 10)`, `Put(1, 20)` and
`Put(4, 30)`, which takes slot 1 from key 1; `Get(1)` returns `(20, true)`. -/
theorem Get_after_Puts_witness :
    Reach
      { buckets := [⟨0, 10, true⟩, ⟨4, 30, true⟩, ⟨1, 20, true⟩, ⟨0, 0, false⟩],
        nUsed := 3, maxAllowed := 3 }
      (Function.update (Function.update (Function.update (fun _ => none) 0 (some 10)) 1
        (some 20)) 4 (some 30)) ∧
    Get { buckets := [⟨0, 10, true⟩, ⟨4, 30, true⟩, ⟨1, 20, true⟩, ⟨0, 0, false⟩],
          nUsed := 3, maxAllowed := 3 } 1 = some (Except.ok (20, true)) :=
  have h : Reach
      { buckets := [⟨0, 10, true⟩, ⟨4, 30, true⟩, ⟨1, 20, true⟩, ⟨0, 0, false⟩],
        nUsed := 3, maxAllowed := 3 }
      (Function.update (Function.update (Function.update (fun _ => none) 0 (some 10)) 1
        (some 20)) 4 (some 30)) :=
    Reach.put
      { buckets := [⟨0, 10, true⟩, ⟨1, 20, true⟩, ⟨0, 0, false⟩, ⟨0, 0, false⟩],
        nUsed := 2, maxAllowed := 3 }
      (Function.update (Function.update (fun _ => none) 0 (some 10)) 1 (some 20)) 4 30 _ true
      (Reach.put
        { buckets := [⟨0, 10, true⟩, ⟨0, 0, false⟩, ⟨0, 0, false⟩, ⟨0, 0, false⟩],
          nUsed := 1, maxAllowed := 3 }
        (Function.update (fun _ => none) 0 (some 10)) 1 20 _ true
        (Reach.put
          { buckets := [⟨0, 0, false⟩, ⟨0, 0, false⟩, ⟨0, 0, false⟩, ⟨0, 0, false⟩],
            nUsed := 0, maxAllowed := 3 }
          (fun _ => none) 0 10 _ true (Reach.init 3 _ (by decide)) (by decide))
        (by decide))
      (by decide)
  ⟨h, (Get_after_Puts _ _ h 1).1⟩

/-- C17.  In every map obtained from `NewMap` by calls of `Put`, `Put(k, v)`
returns, it returns false exactly when `nUsed >= maxAllowed` at the call, and
a call that returns false leaves the map as it is, so that `Get(k)` keeps its
result, also for a key that is stored.  And on `NewMap(c)` with `c >= 1`,
`c` calls of `Put` with pairwise distinct `uint32` keys all return true, and
every call after them returns false and leaves the map as it is. -/
theorem Put_false_iff_full :
    (∀ (m : Map) (f : Nat → Option Int), Reach m f → ∀ (k : Nat) (v : Int),
      ∃ m1 b, Put m k v = some (Except.ok (m1, b)) ∧ (b = false ↔ m.nUsed ≥ m.maxAllowed) ∧
        (b = false → m1 = m ∧ Get m1 k = Get m k)) ∧
    (∀ (c : Int) (kvs : List (Nat × Int)), 1 ≤ c → (kvs.length : Int) = c →
      (kvs.map Prod.fst).Nodup → (∀ p ∈ kvs, p.1 < 2 ^ 32) →
      ∃ m0 m, NewMap c = Except.ok m0 ∧
        putAll m0 kvs = some (Except.ok (m, List.replicate kvs.length true)) ∧
        ∀ (k : Nat) (v : Int), Put m k v = some (Except.ok (m, false))) := by
  constructor
  · intro m f h k v
    obtain ⟨hinv, hst⟩ := Reach_inv h
    obtain ⟨m1, b, h1, h2, h3, _⟩ := Put_of_inv m f hinv hst k v
    refine ⟨m1, b, h1, h2, ?_⟩
    intro hb
    rw [h3 hb]
    exact ⟨rfl, rfl⟩
  · intro c kvs hc1 hlen hnd hkeys
    have hc2 : c ≤ 2 ^ 40 := by
      have h := nodup_length_le (kvs.map Prod.fst) (2 ^ 32) hnd (by
        intro x hx
        obtain ⟨p, hp, rfl⟩ := List.mem_map.1 hx
        exact hkeys p hp)
      rw [List.length_map] at h
      omega
    obtain ⟨m0, h0⟩ := NewMap_returns c hc2
    obtain ⟨hinv, hst⟩ := NewMap_inv c m0 h0
    obtain ⟨nB, _, hu, hmax, _⟩ := NewMap_ok c m0 h0
    obtain ⟨m, f1, h1, _, _, h4, h5⟩ := putAll_distinct kvs m0 (fun _ => none) hinv hst hnd
      (fun _ _ => rfl) (by rw [hu, hmax]; omega)
    refine ⟨m0, m, h0, h1, ?_⟩
    intro k v
    unfold Put
    rw [if_pos (by rw [h4, h5, hu, hmax]; omega)]

/-- Witness for C17: `NewMap(3)` takes the keys 0, 1 and 4 and no more. -/
theorem Put_false_iff_full_witness :
    ∃ m0 m, NewMap 3 = Except.ok m0 ∧
      putAll m0 [(0, 10), (1, 20), (4, 30)] = some (Except.ok (m, [true, true, true])) ∧
      ∀ (k : Nat) (v : Int), Put m k v = some (Except.ok (m, false)) :=
  Put_false_iff_full.2 3 [(0, 10), (1, 20), (4, 30)] (by decide) rfl (by decide) (by decide)

end robin1

/-! ## Claims on the trailing-zeros intrinsic -/

namespace bitarray

theorem trailingZerosLoop_spec : ∀ (fuel x : Nat), x ≠ 0 → x < 2 ^ fuel →
    trailingZerosLoop fuel x < fuel ∧ x.testBit (trailingZerosLoop fuel x) = true ∧
      ∀ j, j < trailingZerosLoop fuel x → x.testBit j = false
  | 0, x, h0, hlt => by
    simp at hlt
    omega
  | fuel + 1, x, h0, hlt => by
    unfold trailingZerosLoop
    by_cases h1 : x % 2 = 1
    · rw [if_pos h1]
      refine ⟨Nat.succ_pos _, ?_, fun j hj => absurd hj (Nat.not_lt_zero j)⟩
      rw [Nat.testBit_zero]
      exact decide_eq_true h1
    · rw [if_neg h1]
      have h2 : x / 2 ≠ 0 := by omega
      have h3 : x / 2 < 2 ^ fuel := by
        rw [Nat.pow_succ] at hlt
        omega
      obtain ⟨a, b, c⟩ := trailingZerosLoop_spec fuel (x / 2) h2 h3
      refine ⟨by omega, ?_, ?_⟩
      · rw [Nat.add_comm, Nat.testBit_succ]
        exact b
      · intro j hj
        cases j with
        | zero =>
          rw [Nat.testBit_zero]
          exact decide_eq_false h1
        | succ j =>
          rw [Nat.testBit_succ]
          exact c j (by omega)

theorem complement_lt (word : Nat) : complement word < u64 := by
  unfold complement
  exact Nat.xor_lt_two_pow (by decide) (Nat.mod_lt _ (by decide))

theorem testBit_complement (word j : Nat) (hw : word < u64) (hj : j < 64) :
    (complement word).testBit j = !word.testBit j := by
  unfold complement
  rw [Nat.mod_eq_of_lt hw, Nat.testBit_xor, allFF_eq, Nat.testBit_two_pow_sub_one]
  simp [hj]

theorem complement_ne_zero (word : Nat) (hw : word < u64) (hne : word ≠ allFF) :
    complement word ≠ 0 := by
  intro h0
  apply hne
  apply eq_allFF_of_testBit word hw
  intro j hj
  have h := testBit_complement word j hw hj
  rw [h0, Nat.zero_testBit] at h
  cases hb : word.testBit j
  · rw [hb] at h
    simp at h
  · rfl

/-- The loop of `findZeroBit` and the intrinsic on the complement agree on every
`uint64`. -/
theorem findZeroBit_eq_intrinsic (word : Nat) (hw : word < u64) :
    findZeroBit word = findZeroBitIntrinsic word := by
  by_cases hne : word = allFF
  · subst hne
    decide
  · have hc0 := complement_ne_zero word hw hne
    have hclt := complement_lt word
    obtain ⟨a, b, c⟩ := trailingZerosLoop_spec 64 (complement word) hc0 hclt
    have hlz : LowestZero word (trailingZerosLoop 64 (complement word)) := by
      refine ⟨a, ?_, ?_⟩
      · rw [testBit_complement word _ hw a] at b
        cases hb : word.testBit (trailingZerosLoop 64 (complement word))
        · rfl
        · rw [hb] at b
          simp at b
      · intro j hj
        have := c j hj
        rw [testBit_complement word j hw (by omega)] at this
        cases hb : word.testBit j
        · rw [hb] at this
          simp at this
        · rfl
    rw [findZeroBit_eq_of_lowestZero word _ hlz]
    unfold findZeroBitIntrinsic TrailingZeros64
    rw [Nat.mod_eq_of_lt hclt, if_neg hc0]

theorem scanWordsIntrinsic_eq (ba : BitArray) (hwf : WF ba) :
    ∀ (fuel s : Nat), scanWordsIntrinsic ba fuel s = scanWords ba fuel s := by
  intro fuel
  induction fuel with
  | zero => intro s; rfl
  | succ fuel ih =>
    intro s
    unfold scanWordsIntrinsic scanWords
    cases hg : ba[s]? with
    | none => rfl
    | some word =>
      have hw : word < u64 := hwf.1 word (List.mem_iff_getElem?.2 ⟨s, hg⟩)
      simp only
      rw [findZeroBit_eq_intrinsic word hw, ih]

theorem FindZeroIntrinsic_eq (ba : BitArray) (hwf : WF ba) (hint : Nat) :
    FindZeroIntrinsic ba hint = FindZero ba hint := by
  unfold FindZeroIntrinsic FindZero
  simp only [scanWordsIntrinsic_eq ba hwf]

/-- C28.  For every 64-bit word, `findZeroBit(word)` is the trailing-zeros
intrinsic applied to the complement of the word: the index, below 64, of the
lowest 0 bit of a word that is not all ones, and 64 for the all-ones word.  So
`FindZero` with the intrinsic in place of the loop returns what `FindZero`
returns, on every array and every hint. -/
theorem findZeroBit_eq_TrailingZeros64 (word : Nat) (hw : word < u64) :
    findZeroBit word = TrailingZeros64 (complement word) ∧
    (word ≠ allFF → LowestZero word (findZeroBit word)) ∧
    (word = allFF → findZeroBit word = 64) ∧
    ∀ (ba : BitArray) (hint : Nat), WF ba → FindZeroIntrinsic ba hint = FindZero ba hint := by
  refine ⟨findZeroBit_eq_intrinsic word hw, lowestZero_findZeroBit word hw, ?_, ?_⟩
  · intro h
    subst h
    decide
  · intro ba hint hwf
    exact FindZeroIntrinsic_eq ba hwf hint

/-- Witness for C28: the word `0b1011`, whose lowest 0 bit is bit 2. -/
theorem findZeroBit_eq_TrailingZeros64_witness :
    findZeroBit 0b1011 = 2 ∧ findZeroBit 0b1011 = TrailingZeros64 (complement 0b1011) :=
  ⟨by decide, (findZeroBit_eq_TrailingZeros64 0b1011 (by decide)).1⟩

end bitarray

/-! ## Further claims on the pool -/

namespace fixedpool

open bitarray

/-- Support for C25: with sizes in `SafeSize`, in every state reachable by
`Alloc`, `Free` (and stores): `NumUsed()` is the number of live handles, a
handle `1 <= h <= NumBlocks()` is live exactly when bit `h - 1` of the bitmap
is set, the bits from `NumBlocks()` on are set, `NumUsed() + NumFree() =
NumBlocks()` and `0 <= NumUsed() <= NumBlocks()`. -/
theorem counters_safe (w : Bool) (bs n : Int) (t : Tracked) (hsafe : SafeSize bs n)
    (hr : Reachable w false bs n t) :
    t.pool.NumUsed = (t.live.length : Int) ∧
    (∀ h : Nat, 1 ≤ h → (h : Int) ≤ n →
      (h ∈ t.live ↔ testBitAt t.pool.allocMask (h - 1) = true)) ∧
    (∀ i : Nat, n ≤ (i : Int) → i < NumBits t.pool.allocMask →
      testBitAt t.pool.allocMask i = true) ∧
    t.pool.NumBlocks = Except.ok n ∧
    t.pool.NumFree = Except.ok (n - t.pool.NumUsed) ∧
    0 ≤ t.pool.NumUsed ∧ t.pool.NumUsed ≤ n := by
  have hinv := hr.inv hsafe
  obtain ⟨B, m, hB, hm, hblock, hlen, hwords, hB0, hm0, hL2, hL3, hlt, hmt, hBt⟩ :=
    safe_sizes bs n t.pool hsafe hinv.shape
  obtain ⟨hfree, hl⟩ := NumFree_safe bs n t hsafe hinv
  have hused : t.pool.NumUsed = (t.live.length : Int) := hinv.used
  refine ⟨hused, ?_, ?_, NumBlocks_safe bs n t.pool hsafe hinv.shape, ?_, ?_, ?_⟩
  · intro h h1 h2
    have := hinv.live_iff (h - 1) (by omega)
    rw [Nat.sub_add_cancel h1] at this
    exact this.symm
  · intro i hi1 hi2
    rw [NumBits_eq hinv.wf, hwords] at hi2
    exact hinv.padding i (by omega) (by rw [hmt]; omega)
  · rw [hfree, hused]
  · rw [hused]
    omega
  · rw [hused]
    omega

/-- C25.  On the two-block pool `NewPool(2^31, 2)` the call `Free(3)` returns
normally, and afterwards no handle is live, `NumBlocks() = 2`, `NumUsed() = -1`
and `NumFree() = 3`: `NumUsed()` is negative, and bit 2 of the bitmap, a padding
bit, is no longer set. -/
theorem NumUsed_negative_after_Free :
    ∃ t, Reachable false false (2 ^ 31) 2 t ∧ t.live = [] ∧
      t.pool.NumBlocks = Except.ok 2 ∧ t.pool.NumUsed = -1 ∧
      t.pool.NumFree = Except.ok 3 ∧ NumBits t.pool.allocMask = 64 ∧
      IsSet t.pool.allocMask 2 = Except.ok false := by
  refine ⟨_, Reachable.free 3 (Reachable.init rfl) (by decide) rfl, ?_, ?_, ?_, ?_, ?_, ?_⟩ <;>
    decide

/-- Support for C26: with sizes in `SafeSize`, in every state reachable by
`Alloc`, `Free` (and stores): `Free(0)` returns the pool as it is; and for a
live handle `h`, `Free(h)` returns a pool in which the block of `h` is all zero
and every other byte is unchanged, `NumUsed()` is 1 less, bit `h - 1` of the
bitmap is clear and every other bit is unchanged. -/
theorem Free_frame_safe (w : Bool) (bs n : Int) (t : Tracked) (h : Nat)
    (hsafe : SafeSize bs n) (hr : Reachable w false bs n t) :
    t.pool.Free 0 = Except.ok t.pool ∧
    (h ∈ t.live → ∃ p, t.pool.Free h = Except.ok p ∧
      p.NumUsed = t.pool.NumUsed - 1 ∧ p.data.len = t.pool.data.len ∧
      p.blockSize = t.pool.blockSize ∧
      (∀ j, p.data.get j =
        if (h - 1) * bs.toNat ≤ j ∧ j < h * bs.toNat then 0 else t.pool.data.get j) ∧
      (∀ i, testBitAt p.allocMask i = (testBitAt t.pool.allocMask i && !decide (h - 1 = i)))) := by
  have hinv := hr.inv hsafe
  refine ⟨rfl, ?_⟩
  intro hlive
  obtain ⟨hpos, h32⟩ := hr.live_bounds h hlive
  obtain ⟨_, c2, _, _⟩ := Free_cases bs n t h hsafe hinv h32
  obtain ⟨B, m, hB, hm, hblock, hlen, hwords, hB0, hm0, hL2, hL3, hlt, hmt, hBt⟩ :=
    safe_sizes bs n t.pool hsafe hinv.shape
  obtain ⟨h1, h2⟩ := hinv.live_range h hlive
  refine ⟨_, c2 hlive, rfl, rfl, rfl, ?_, ?_⟩
  · intro j
    exact fillZero_get _ _ _ _
  · intro i
    exact testBitAt_set_andNot _ _ _ (by rw [hwords]; omega)

/-- The bytes of the view of `Get(h)` are 0 after `Free(h)`. -/
theorem Free_zero_fills_view (pool p : Pool) (h lo hi j : Nat) (h0 : h ≠ 0)
    (hf : pool.Free h = Except.ok p) (hg : pool.Get h = Except.ok (lo, hi)) (h1 : lo ≤ j)
    (h2 : j < hi) : p.data.get j = 0 := by
  obtain ⟨view, mask, hv, _, hp⟩ := Free_ok_inv pool p h h0 hf
  rw [hg] at hv
  injection hv with hv
  subst hv
  rw [hp]
  exact (fillZero_get _ lo hi j).trans (if_pos ⟨h1, h2⟩)

/-- C26.  The pool `NewPool(2^27, 31)` has a buffer of `31 * 2^27 < 2^32` bytes.
After `Alloc` (handle 1), `Free(33)`, `Alloc` (handle 33) and a store of 9 into
the first byte of the block of handle 1, the handles 33 and 1 are live;
`Free(33)` then returns and zero-fills `data[0 : 2^27]`, the block of the live
handle 1, whose first byte was 9. -/
theorem Free_zero_fills_other_block :
    ∃ t p, Reachable true false (2 ^ 27) 31 t ∧ t.pool.data.len < 2 ^ 32 ∧
      t.live = [33, 1] ∧ t.pool.Get 1 = Except.ok (0, 2 ^ 27) ∧ t.pool.data.get 0 = 9 ∧
      t.pool.Free 33 = Except.ok p ∧ p.Get 1 = Except.ok (0, 2 ^ 27) ∧ p.data.get 0 = 0 := by
  have h1 : ∃ t : Tracked, Reachable true false (2 ^ 27) 31 t ∧ t.pool.data.len < 2 ^ 32 ∧
      t.live = [33, 1] ∧ t.pool.Get 1 = Except.ok (0, 2 ^ 27) ∧ t.pool.data.get 0 = 9 ∧
      t.pool.Get 33 = Except.ok (0, 2 ^ 27) ∧
      ∃ p, t.pool.Free 33 = Except.ok p ∧ p.Get 1 = Except.ok (0, 2 ^ 27) := by
    refine ⟨_,
      Reachable.write 1 0 9 rfl
        (Reachable.alloc (h := 33)
          (Reachable.free 33 (Reachable.alloc (h := 1) (Reachable.init rfl) rfl) (by decide)
            rfl)
          rfl)
        (by decide) rfl,
      ?_, ?_, ?_, ?_, ?_, _, rfl, ?_⟩ <;> decide
  obtain ⟨t, hr, a, b, c, d, hg, p, hf, e⟩ := h1
  exact ⟨t, p, hr, a, b, c, d, hf, e,
    Free_zero_fills_view t.pool p 33 0 (2 ^ 27) 0 (by decide) hf hg (Nat.le_refl 0)
      (by decide)⟩

end fixedpool

/-! ## Further lemmas on the Robin Hood map -/

namespace robin1

theorem slotAt_eq_mod (m : Map) (a t : Nat) (ha : a < m.buckets.length)
    (ht : t < m.buckets.length) : slotAt m a t = (a + t) % m.buckets.length := by
  unfold slotAt
  by_cases h : a + t < m.buckets.length
  · rw [if_pos h, Nat.mod_eq_of_lt h]
  · rw [if_neg h, Nat.mod_eq_sub_mod (by omega), Nat.mod_eq_of_lt (by omega)]

theorem prevSlot_eq_mod (m : Map) (i : Nat) (hi : i < m.buckets.length) :
    prevSlot m i = (i + m.buckets.length - 1) % m.buckets.length := by
  unfold prevSlot
  by_cases h : i = 0
  · subst h
    rw [if_pos rfl, Nat.zero_add, Nat.mod_eq_of_lt (by omega)]
  · rw [if_neg h]
    have e : i + m.buckets.length - 1 = (i - 1) + m.buckets.length := by omega
    rw [e, Nat.add_mod_right, Nat.mod_eq_of_lt (by omega)]

/-- The global form of the Robin Hood property, with the slots written with
`%`: `t` steps after the ideal slot of a used bucket, for `t` up to its probe
distance, there is a used bucket of probe distance at least `t`. -/
theorem rh_path_mod (m : Map) (hn : m.buckets.length % 2 ^ 32 ≠ 0) (hrh : RobinHood m)
    (i : Nat) (b : Bucket) (hb : m.buckets[i]? = some b) (hu : b.used = true) (t : Nat)
    (ht : t ≤ probeDist m b i) :
    ∃ c, m.buckets[(index m b.Key + t) % m.buckets.length]? = some c ∧ c.used = true ∧
      t ≤ probeDist m c ((index m b.Key + t) % m.buckets.length) := by
  have hi := lt_of_getElem? _ _ _ hb
  have hd := probeDist_lt m b i hn hi
  obtain ⟨c, hc, hcu, hcd⟩ := rh_path m hn hrh i b hb hu (probeDist m b i - t) (by omega)
  have e : probeDist m b i - (probeDist m b i - t) = t := by omega
  rw [e, slotAt_eq_mod m _ t (index_lt m b.Key hn) (by omega)] at hc hcd
  exact ⟨c, hc, hcu, hcd⟩

/-- The local form of the Robin Hood property follows from the global one. -/
theorem RobinHood_of_path (m : Map) (hn : m.buckets.length % 2 ^ 32 ≠ 0)
    (h : ∀ (i : Nat) (b : Bucket), m.buckets[i]? = some b → b.used = true →
      ∀ t, t ≤ probeDist m b i →
        ∃ c, m.buckets[(index m b.Key + t) % m.buckets.length]? = some c ∧ c.used = true ∧
          t ≤ probeDist m c ((index m b.Key + t) % m.buckets.length)) :
    RobinHood m := by
  intro i b hb hu hpos
  have hi := lt_of_getElem? _ _ _ hb
  have hd := probeDist_lt m b i hn hi
  have hh := index_lt m b.Key hn
  have hc := probeDist_cases m b i
  obtain ⟨c, hc1, hcu, hcd⟩ := h i b hb hu (probeDist m b i - 1) (by omega)
  have e : (index m b.Key + (probeDist m b i - 1)) % m.buckets.length = prevSlot m i := by
    rw [← slotAt_eq_mod m _ _ hh (by omega)]
    unfold slotAt prevSlot
    split_ifs <;> omega
  rw [e] at hc1 hcd
  exact ⟨c, hc1, hcu, by omega⟩

/-- A map with three keys, made by `NewMap(3)`, `Put(0, 10)`, `Put(1, 20)` and
`Put(4, 30)`; the last call takes slot 1 from key 1, which moves to slot 2. -/
theorem reach_three_keys :
    Reach
      { buckets := [⟨0, 10, true⟩, ⟨4, 30, true⟩, ⟨1, 20, true⟩, ⟨0, 0, false⟩],
        nUsed := 3, maxAllowed := 3 }
      (Function.update (Function.update (Function.update (fun _ => none) 0 (some 10)) 1
        (some 20)) 4 (some 30)) :=
  Reach.put
    { buckets := [⟨0, 10, true⟩, ⟨1, 20, true⟩, ⟨0, 0, false⟩, ⟨0, 0, false⟩],
      nUsed := 2, maxAllowed := 3 }
    (Function.update (Function.update (fun _ => none) 0 (some 10)) 1 (some 20)) 4 30 _ true
    (Reach.put
      { buckets := [⟨0, 10, true⟩, ⟨0, 0, false⟩, ⟨0, 0, false⟩, ⟨0, 0, false⟩],
        nUsed := 1, maxAllowed := 3 }
      (Function.update (fun _ => none) 0 (some 10)) 1 20 _ true
      (Reach.put
        { buckets := [⟨0, 0, false⟩, ⟨0, 0, false⟩, ⟨0, 0, false⟩, ⟨0, 0, false⟩],
          nUsed := 0, maxAllowed := 3 }
        (fun _ => none) 0 10 _ true (Reach.init 3 _ (by decide)) (by decide))
      (by decide))
    (by decide)

/-- A map with two keys and room for a third: `NewMap(3)`, `Put(0, 10)`,
`Put(1, 20)`. -/
theorem reach_two_keys :
    Reach
      { buckets := [⟨0, 10, true⟩, ⟨1, 20, true⟩, ⟨0, 0, false⟩, ⟨0, 0, false⟩],
        nUsed := 2, maxAllowed := 3 }
      (Function.update (Function.update (fun _ => none) 0 (some 10)) 1 (some 20)) :=
  Reach.put
    { buckets := [⟨0, 10, true⟩, ⟨0, 0, false⟩, ⟨0, 0, false⟩, ⟨0, 0, false⟩],
      nUsed := 1, maxAllowed := 3 }
    (Function.update (fun _ => none) 0 (some 10)) 1 20 _ true
    (Reach.put
      { buckets := [⟨0, 0, false⟩, ⟨0, 0, false⟩, ⟨0, 0, false⟩, ⟨0, 0, false⟩],
        nUsed := 0, maxAllowed := 3 }
      (fun _ => none) 0 10 _ true (Reach.init 3 _ (by decide)) (by decide))
    (by decide)

/-- The loop of `Put` on a map with the invariant that is not full returns
true within `len(m.buckets)` rounds: it visits no slot twice. -/
theorem putLoop_of_inv (m : Map) (f : Nat → Option Int) (hinv : Inv m) (hst : Stores m f)
    (k : Nat) (v : Int) (hroom : m.nUsed < m.maxAllowed) (fuel : Nat)
    (hfuel : m.buckets.length ≤ fuel) :
    ∃ m1, putLoop fuel m { Key := k, Value := v, used := true } (index m k) 0 0
      = some (Except.ok (m1, true)) := by
  have hh := index_lt m k hinv.nz
  cases hf : f k with
  | some v0 =>
    obtain ⟨i, hi⟩ := (hst k v0).2 hf
    have hilt := lt_of_getElem? _ _ _ hi
    have hd := probeDist_lt m (Bucket.mk k v0 true) i hinv.nz hilt
    exact ⟨_, putLoop_existing m hinv.nz hinv.rh hinv.distinct i (Bucket.mk k v0 true) hi rfl
      (Bucket.mk k v true) rfl (probeDist m (Bucket.mk k v0 true) i) fuel
      0 (index m k) 0 (by omega) (by omega) (by unfold slotAt; simp [hh]) (by simp [hh])⟩
  | none =>
    have hcount := hinv.count
    have hcap := hinv.cap
    have hroom2 := hinv.room
    have hnew : ∀ (i : Nat) (b : Bucket), m.buckets[i]? = some b → b.used = true →
        b.Key ≠ (Bucket.mk k v true).Key := by
      intro i b hb hbu hk
      have h1 : f k = some b.Value := by
        apply (hst k b.Value).1
        refine ⟨i, ?_⟩
        rw [hb]
        simp only [Option.some.injEq]
        cases b
        simp_all
      rw [hf] at h1
      simp at h1
    obtain ⟨i0, c, hc, hcu⟩ := exists_unused m.buckets (by omega)
    have hi0 := lt_of_getElem? _ _ _ hc
    obtain ⟨e, he, hse⟩ : ∃ e, e < m.buckets.length ∧ slotAt m (index m k) e = i0 := by
      refine ⟨if i0 < index m k then m.buckets.length - index m k + i0 else i0 - index m k,
        ?_, ?_⟩
      · split_ifs <;> omega
      · unfold slotAt
        split_ifs <;> omega
    obtain ⟨m1, h1, _⟩ :=
      putLoop_insert e fuel m (Bucket.mk k v true) (index m k) 0 e
        (index m k) 0 0 hinv.nz hh (by omega) he (by unfold slotAt; simp [hh]) (by simp [hh])
        (by omega) ⟨c, by rw [hse]; exact hc, hcu⟩ rfl hnew
        (by unfold probeDist; simp) (Nat.le_refl 0) (fun h => absurd h (Nat.lt_irrefl 0))
        hinv.rh hinv.distinct
    exact ⟨m1, h1⟩

theorem calcStatsLoop_numUsed (m : Map) : ∀ (l : List Bucket) (idx : Nat) (acc : StatsAcc),
    (calcStatsLoop m l idx acc).numUsed = acc.numUsed + (l.countP (fun b => b.used) : Nat) ∧
    (calcStatsLoop m l idx acc).numEmpty
      = acc.numEmpty + (l.length : Int) - (l.countP (fun b => b.used) : Nat) := by
  intro l
  induction l with
  | nil =>
    intro idx acc
    simp [calcStatsLoop]
  | cons b rest ih =>
    intro idx acc
    unfold calcStatsLoop
    by_cases hb : b.used = true
    · rw [if_pos hb]
      simp only [List.countP_cons, hb, if_true, List.length_cons]
      obtain ⟨h1, h2⟩ := ih (idx + 1)
        { numUsed := acc.numUsed + 1, numEmpty := acc.numEmpty,
          maxProbeDist := if (probeDist m b idx : Int) > acc.maxProbeDist
            then (probeDist m b idx : Int) else acc.maxProbeDist,
          collisionCounts := Function.update acc.collisionCounts (index m b.Key)
            (acc.collisionCounts (index m b.Key) + 1) }
      constructor
      · rw [h1]
        push_cast
        omega
      · rw [h2]
        push_cast
        omega
    · rw [if_neg hb]
      simp only [List.countP_cons, hb, if_false, List.length_cons, Bool.false_eq_true]
      obtain ⟨h1, h2⟩ := ih (idx + 1) { acc with numEmpty := acc.numEmpty + 1 }
      constructor
      · rw [h1]
        simp
      · rw [h2]
        push_cast
        omega

/-- On a map with the invariant, `CalcStats` returns, and its `NumUsed` is
`nUsed`. -/
theorem CalcStats_of_inv (m : Map) (hinv : Inv m) :
    ∃ s, CalcStats m = Except.ok s ∧ s.NumUsed = m.nUsed ∧
      s.NumBuckets = m.buckets.length ∧ s.NumUsed + s.NumEmpty = s.NumBuckets ∧
      s.MaxAllowed = m.maxAllowed := by
  obtain ⟨h1, h2⟩ := calcStatsLoop_numUsed m m.buckets 0
    { numUsed := 0, numEmpty := 0, maxProbeDist := 0, collisionCounts := fun _ => 0 }
  unfold CalcStats
  rw [if_neg (fun h => hinv.nz h.1)]
  simp only
  have hnu : (calcStatsLoop m m.buckets 0
      { numUsed := 0, numEmpty := 0, maxProbeDist := 0, collisionCounts := fun _ => 0 }).numUsed
      = m.nUsed := by
    rw [h1, hinv.count]
    simp
  rw [if_neg (by rw [hnu]; simp)]
  refine ⟨_, rfl, hnu, rfl, ?_, rfl⟩
  simp only
  rw [h1, h2]
  simp

/-- When calls of `Put` with pairwise distinct new keys have all returned true,
`nUsed` has grown by their number. -/
theorem putAll_nUsed : ∀ (kvs : List (Nat × Int)) (m : Map) (f : Nat → Option Int) (m1 : Map)
    (bs : List Bool), Inv m → Stores m f → (kvs.map Prod.fst).Nodup →
    (∀ p ∈ kvs, f p.1 = none) → putAll m kvs = some (Except.ok (m1, bs)) →
    (∀ b ∈ bs, b = true) → m1.nUsed = m.nUsed + kvs.length := by
  intro kvs
  induction kvs with
  | nil =>
    intro m f m1 bs _ _ _ _ hput _
    simp only [putAll, Option.some.injEq, Except.ok.injEq, Prod.mk.injEq] at hput
    rw [← hput.1]
    simp
  | cons p rest ih =>
    intro m f m1 bs hinv hst hnd hnew hput hall
    obtain ⟨k, v⟩ := p
    obtain ⟨m2, b, h1, _, _, h4, h5, _, _, h8⟩ := Put_of_inv m f hinv hst k v
    simp only [putAll, h1] at hput
    cases hrest : putAll m2 rest with
    | none =>
      rw [hrest] at hput
      simp at hput
    | some r =>
      cases r with
      | error e =>
        rw [hrest] at hput
        simp at hput
      | ok r =>
        obtain ⟨m3, bs3⟩ := r
        rw [hrest] at hput
        simp only [Option.some.injEq, Except.ok.injEq, Prod.mk.injEq] at hput
        obtain ⟨rfl, rfl⟩ := hput
        have hb : b = true := hall b (List.mem_cons_self _ _)
        subst hb
        have hfk : f k = none := hnew (k, v) (List.mem_cons_self _ _)
        simp only [hfk, and_self, if_true] at h5 h8
        simp only [List.map_cons, List.nodup_cons] at hnd
        have h := ih m2 (Function.update f k (some v)) m3 bs3 h4 h5 hnd.2
          (by
            intro p hp
            have hne : p.1 ≠ k := by
              intro h
              exact hnd.1 (h ▸ List.mem_map_of_mem Prod.fst hp)
            rw [Function.update_noteq hne]
            exact hnew p (List.mem_cons_of_mem _ hp))
          hrest (fun b hb => hall b (List.mem_cons_of_mem _ hb))
        rw [h, h8]
        simp only [List.length_cons, Nat.cast_add, Nat.cast_one]
        omega

/-- The map of `NewMap(3904515724)` has `2^32 + 1` buckets: the `float32`
product is `4294967296`. -/
theorem NewMap_large :
    NewMap 3904515724 = Except.ok
      { buckets := List.replicate (2 ^ 32 + 1) { Key := 0, Value := 0, used := false },
        nUsed := 0, maxAllowed := 3904515724 } := by
  rfl

/-- In a map of `2^32 + 1` buckets `index` sends the key 5 to slot 0. -/
theorem index_of_large_map (m : Map)
    (h : m = Map.mk (List.replicate (2 ^ 32 + 1) (Bucket.mk 0 0 false)) 0 3904515724) :
    m.buckets.length = 2 ^ 32 + 1 ∧ 5 % m.buckets.length = 5 ∧ index m 5 = 0 ∧
      probeDist m { Key := 5, Value := 0, used := true } 5 = 5 := by
  have hlen : m.buckets.length = 2 ^ 32 + 1 := by
    rw [h]
    exact List.length_replicate _ _
  refine ⟨hlen, ?_, ?_, ?_⟩
  · rw [hlen]
    norm_num
  · unfold index
    rw [hlen]
    norm_num
  · unfold probeDist index
    rw [hlen]
    rfl

end robin1

/-! ## Further claims on the Robin Hood map -/

namespace robin1

/-- C22.  In every map obtained from `NewMap` by calls of `Put`: for every used
bucket `b` at slot `i` and every `t` up to its probe distance, the slot `t`
steps after the ideal slot of `b` (cyclically) is used, by a bucket of probe
distance at least `t`; and a used bucket with probe distance `d > 0` is
preceded, cyclically, by a used bucket with probe distance at least `d - 1`. -/
theorem RobinHood_of_Reach (m : Map) (f : Nat → Option Int) (h : Reach m f) :
    (∀ (i : Nat) (b : Bucket), m.buckets[i]? = some b → b.used = true →
      ∀ t, t ≤ probeDist m b i →
        ∃ c, m.buckets[(index m b.Key + t) % m.buckets.length]? = some c ∧ c.used = true ∧
          t ≤ probeDist m c ((index m b.Key + t) % m.buckets.length)) ∧
    (∀ (i : Nat) (b : Bucket), m.buckets[i]? = some b → b.used = true →
      0 < probeDist m b i →
        ∃ p, m.buckets[(i + m.buckets.length - 1) % m.buckets.length]? = some p ∧
          p.used = true ∧
          probeDist m b i ≤ probeDist m p ((i + m.buckets.length - 1) % m.buckets.length) + 1) ∧
    RobinHood m := by
  obtain ⟨hinv, _⟩ := Reach_inv h
  refine ⟨fun i b hb hu t ht => rh_path_mod m hinv.nz hinv.rh i b hb hu t ht, ?_, hinv.rh⟩
  intro i b hb hu hpos
  have hi := lt_of_getElem? _ _ _ hb
  rw [← prevSlot_eq_mod m i hi]
  exact hinv.rh i b hb hu hpos

/-- Witness for C22: in the map of `reach_three_keys` the bucket of key 1 is at
slot 2, one step from its ideal slot. -/
theorem RobinHood_of_Reach_witness :
    probeDist
      { buckets := [⟨0, 10, true⟩, ⟨4, 30, true⟩, ⟨1, 20, true⟩, ⟨0, 0, false⟩],
        nUsed := 3, maxAllowed := 3 } ⟨1, 20, true⟩ 2 = 1 ∧
    RobinHood
      { buckets := [⟨0, 10, true⟩, ⟨4, 30, true⟩, ⟨1, 20, true⟩, ⟨0, 0, false⟩],
        nUsed := 3, maxAllowed := 3 } :=
  ⟨by decide, (RobinHood_of_Reach _ _ reach_three_keys).2.2⟩

/-- C23.  In every map obtained from `NewMap` by calls of `Put`,
`nUsed <= maxAllowed < len(buckets)`; every call of `Put` returns true or
false and never the panic 'Put assertion fail'; its loop, when the map is not
full, returns within `len(buckets)` rounds, so the probe index passes the end
of the bucket array at most once; and every call of `Get` returns. -/
theorem Put_Get_return (m : Map) (f : Nat → Option Int) (h : Reach m f) (k : Nat) (v : Int) :
    m.nUsed ≤ m.maxAllowed ∧ m.maxAllowed < (m.buckets.length : Int) ∧
    (∃ m1 b, Put m k v = some (Except.ok (m1, b))) ∧
    Put m k v ≠ some (Except.error Panic.putAssertionFail) ∧ Put m k v ≠ none ∧
    (m.nUsed < m.maxAllowed → ∀ fuel, m.buckets.length ≤ fuel →
      ∃ m1, putLoop fuel m { Key := k, Value := v, used := true } (index m k) 0 0
        = some (Except.ok (m1, true))) ∧
    (∃ r, Get m k = some (Except.ok r)) := by
  obtain ⟨hinv, hst⟩ := Reach_inv h
  obtain ⟨m1, b, h1, _⟩ := Put_of_inv m f hinv hst k v
  refine ⟨hinv.cap, hinv.room, ⟨m1, b, h1⟩, ?_, ?_, ?_, ⟨_, Get_of_inv m f hinv hst k⟩⟩
  · rw [h1]
    simp
  · rw [h1]
    simp
  · intro hroom fuel hfuel
    exact putLoop_of_inv m f hinv hst k v hroom fuel hfuel

/-- Witness for C23: on the map of `NewMap(3)`, `Put(0, 10)`, `Put(1, 20)`, the
call `Put(4, 30)` returns true and `Get(4)` returns `(0, false)`. -/
theorem Put_Get_return_witness :
    Put { buckets := [⟨0, 10, true⟩, ⟨1, 20, true⟩, ⟨0, 0, false⟩, ⟨0, 0, false⟩],
          nUsed := 2, maxAllowed := 3 } 4 30
      = some (Except.ok
          ({ buckets := [⟨0, 10, true⟩, ⟨4, 30, true⟩, ⟨1, 20, true⟩, ⟨0, 0, false⟩],
             nUsed := 3, maxAllowed := 3 }, true)) ∧
    (∃ r, Get { buckets := [⟨0, 10, true⟩, ⟨1, 20, true⟩, ⟨0, 0, false⟩, ⟨0, 0, false⟩],
                nUsed := 2, maxAllowed := 3 } 4 = some (Except.ok r)) :=
  ⟨by decide, (Put_Get_return _ _ reach_two_keys 4 30).2.2.2.2.2.2⟩

/-- C24.  In every map obtained from `NewMap` by calls of `Put`: `nUsed` is
the number of used buckets, the keys in used buckets are pairwise distinct,
`nUsed <= maxAllowed`, `CalcStats` returns (it does not panic with 'nUsed
mismatch') with `NumUsed = nUsed`, and a `Put` of a key that is stored leaves
`nUsed` as it is, while a `Put` of a new key that returns true adds 1.  And
when `n` calls of `Put` with pairwise distinct keys on the map of `NewMap(c)`
have all returned true, `nUsed = n`. -/
theorem nUsed_counts_used_buckets :
    (∀ (m : Map) (f : Nat → Option Int), Reach m f →
      m.nUsed = ((m.buckets.countP (fun b => b.used) : Nat) : Int) ∧ DistinctKeys m ∧
      m.nUsed ≤ m.maxAllowed ∧
      (∃ s, CalcStats m = Except.ok s ∧ s.NumUsed = m.nUsed) ∧
      ∀ (k : Nat) (v : Int), ∃ m1 b, Put m k v = some (Except.ok (m1, b)) ∧
        (f k ≠ none → m1.nUsed = m.nUsed) ∧
        (f k = none → b = true → m1.nUsed = m.nUsed + 1)) ∧
    (∀ (c : Int) (m0 m : Map) (kvs : List (Nat × Int)) (bs : List Bool),
      NewMap c = Except.ok m0 → (kvs.map Prod.fst).Nodup →
      putAll m0 kvs = some (Except.ok (m, bs)) → (∀ b ∈ bs, b = true) →
      m.nUsed = kvs.length) := by
  constructor
  · intro m f h
    obtain ⟨hinv, hst⟩ := Reach_inv h
    obtain ⟨s, hs1, hs2, _⟩ := CalcStats_of_inv m hinv
    refine ⟨hinv.count, hinv.distinct, hinv.cap, ⟨s, hs1, hs2⟩, ?_⟩
    intro k v
    obtain ⟨m1, b, h1, _, _, _, _, _, _, h8⟩ := Put_of_inv m f hinv hst k v
    refine ⟨m1, b, h1, ?_, ?_⟩
    · intro hf
      rw [h8, if_neg (fun h => hf h.2)]
    · intro hf hb
      rw [h8, if_pos ⟨hb, hf⟩]
  · intro c m0 m kvs bs h0 hnd hput hall
    obtain ⟨hinv, hst⟩ := NewMap_inv c m0 h0
    obtain ⟨_, _, hu, _⟩ := NewMap_ok c m0 h0
    have h := putAll_nUsed kvs m0 (fun _ => none) m bs hinv hst hnd (fun _ _ => rfl) hput hall
    rw [h, hu]
    simp

/-- Witness for C24: three calls of `Put` with the keys 0, 1 and 4 on the map
of `NewMap(3)` return true and leave `nUsed = 3`. -/
theorem nUsed_counts_used_buckets_witness :
    putAll { buckets := List.replicate 4 ⟨0, 0, false⟩, nUsed := 0, maxAllowed := 3 }
      [(0, 10), (1, 20), (4, 30)]
      = some (Except.ok
          ({ buckets := [⟨0, 10, true⟩, ⟨4, 30, true⟩, ⟨1, 20, true⟩, ⟨0, 0, false⟩],
             nUsed := 3, maxAllowed := 3 }, [true, true, true])) ∧
    (3 : Int) = ([(0, 10), (1, 20), (4, 30)] : List (Nat × Int)).length :=
  have h : putAll { buckets := List.replicate 4 ⟨0, 0, false⟩, nUsed := 0, maxAllowed := 3 }
      [(0, 10), (1, 20), (4, 30)]
      = some (Except.ok
          ({ buckets := [⟨0, 10, true⟩, ⟨4, 30, true⟩, ⟨1, 20, true⟩, ⟨0, 0, false⟩],
             nUsed := 3, maxAllowed := 3 }, [true, true, true])) := by decide
  ⟨h, nUsed_counts_used_buckets.2 3 _ _ [(0, 10), (1, 20), (4, 30)] [true, true, true]
    (by decide) (by decide) h (by decide)⟩

/-- C27, as stated, fails: the map of `NewMap(3904515724)` has `n = 2^32 + 1`
buckets, `uint32(n) = 1`, and `index` sends every key to slot 0.  For the key
5 and the slot 5, which is `5 mod n`, the probe distance is 5 and not 0. -/
theorem probeDist_of_large_map :
    ∃ m, NewMap 3904515724 = Except.ok m ∧ m.buckets.length = 2 ^ 32 + 1 ∧
      5 % m.buckets.length = 5 ∧ index m 5 = 0 ∧
      probeDist m { Key := 5, Value := 0, used := true } 5 = 5 :=
  ⟨_, NewMap_large, index_of_large_map _ rfl⟩

/-- C27, amended with `len(buckets) < 2^32`.  For every slot `i` below the
number `n` of buckets: the ideal slot `index(b.Key)` is `b.Key mod n`;
`probeDist(b, i)` is `(i - ideal) mod n`, which is `n - ideal + i` when
`i < ideal` and `i - ideal` otherwise; it is at most `n - 1`, and it is 0
exactly when `i` is the ideal slot. -/
theorem probeDist_spec (m : Map) (b : Bucket) (i : Nat) (hlen : m.buckets.length < 2 ^ 32)
    (hi : i < m.buckets.length) :
    index m b.Key = b.Key % m.buckets.length ∧
    (probeDist m b i : Int)
      = ((i : Int) - (index m b.Key : Int)) % (m.buckets.length : Int) ∧
    (i < index m b.Key → probeDist m b i = m.buckets.length - index m b.Key + i) ∧
    (¬ i < index m b.Key → probeDist m b i = i - index m b.Key) ∧
    probeDist m b i ≤ m.buckets.length - 1 ∧
    (probeDist m b i = 0 ↔ i = index m b.Key) := by
  have hmod : m.buckets.length % 2 ^ 32 = m.buckets.length := Nat.mod_eq_of_lt hlen
  have hn : m.buckets.length % 2 ^ 32 ≠ 0 := by omega
  have hh := index_lt m b.Key hn
  have hc := probeDist_cases m b i
  have hd := probeDist_lt m b i hn hi
  refine ⟨by unfold index; rw [hmod], ?_, hc.1, hc.2, by omega, ?_⟩
  · by_cases hlt : i < index m b.Key
    · rw [hc.1 hlt]
      have e : ((i : Int) - (index m b.Key : Int))
          = ((m.buckets.length - index m b.Key + i : Nat) : Int)
            + (m.buckets.length : Int) * (-1) := by
        push_cast [Nat.cast_sub (Nat.le_of_lt hh)]
        ring
      rw [e, Int.add_mul_emod_self_left]
      exact (Int.emod_eq_of_lt (Int.ofNat_nonneg _) (by exact_mod_cast (by omega))).symm
    · rw [hc.2 hlt]
      have e : ((i : Int) - (index m b.Key : Int)) = ((i - index m b.Key : Nat) : Int) := by
        push_cast [Nat.cast_sub (Nat.le_of_not_lt hlt)]
        ring
      rw [e]
      exact (Int.emod_eq_of_lt (Int.ofNat_nonneg _) (by exact_mod_cast (by omega))).symm
  · constructor
    · intro h0
      by_cases hlt : i < index m b.Key
      · have := hc.1 hlt
        omega
      · have := hc.2 hlt
        omega
    · intro h0
      have := hc.2 (by omega)
      omega

/-- Witness for C27: a map of 4 buckets, the key 7 (ideal slot 3) and slot 1. -/
theorem probeDist_spec_witness :
    index (Map.mk (List.replicate 4 (Bucket.mk 0 0 false)) 0 3) 7 = 3 ∧
    probeDist (Map.mk (List.replicate 4 (Bucket.mk 0 0 false)) 0 3) (Bucket.mk 7 0 true) 1 = 2 ∧
    (probeDist (Map.mk (List.replicate 4 (Bucket.mk 0 0 false)) 0 3) (Bucket.mk 7 0 true) 1 : Int)
      = (((1 : Nat) : Int)
        - (index (Map.mk (List.replicate 4 (Bucket.mk 0 0 false)) 0 3) (Bucket.mk 7 0 true).Key : Int))
        % (((Map.mk (List.replicate 4 (Bucket.mk 0 0 false)) 0 3).buckets.length : Nat) : Int) :=
  ⟨by decide, by decide,
    (probeDist_spec (Map.mk (List.replicate 4 (Bucket.mk 0 0 false)) 0 3) (Bucket.mk 7 0 true) 1
      (by decide) (by decide)).2.1⟩

end robin1

/-! ## Lemmas on the map of robin32 -/

namespace robin32

theorem next_eq (n idx : Nat) (h : idx < n) :
    (idx + 1) % n = if idx + 1 = n then 0 else idx + 1 := by
  split_ifs with he
  · rw [he, Nat.mod_self]
  · exact Nat.mod_eq_of_lt (by omega)

theorem next_lt (n idx : Nat) (h : idx < n) : (idx + 1) % n < n :=
  Nat.mod_lt _ (by omega)

theorem offsetFrom_next (n idx j fuel : Nat) (hi : idx < n) (hj : j < n)
    (h : fuel + 1 ≤ offsetFrom n idx j) :
    idx ≠ j ∧ fuel ≤ offsetFrom n ((idx + 1) % n) j := by
  rw [next_eq n idx hi]
  unfold offsetFrom at h ⊢
  split_ifs at h ⊢ <;> omega

theorem offsetFrom_self_next (n idx : Nat) (hi : idx < n) :
    offsetFrom n ((idx + 1) % n) idx = n - 1 := by
  rw [next_eq n idx hi]
  unfold offsetFrom
  split_ifs <;> omega

theorem findInChain_head (blocks : Nat → Block) (s : List Nat) (fuel h : Nat) (hh : h ≠ 0)
    (hs : (blocks h).suffix = s) : findInChain blocks s (fuel + 1) h = some (some h) := by
  simp [findInChain, hh, hs]

theorem findInChain_update_value (blocks : Nat → Block) (s v : List Nat) (g : Nat) :
    ∀ (fuel h : Nat),
      findInChain (Function.update blocks g { (blocks g) with value := v }) s fuel h =
        findInChain blocks s fuel h := by
  intro fuel
  induction fuel with
  | zero => intro h; rfl
  | succ fuel ih =>
    intro h
    unfold findInChain
    by_cases hg : h = g
    · subst hg
      simp only [Function.update_same, ih]
    · simp only [Function.update_noteq hg, ih]

theorem allocBlock_ok (m ma : Map) (s v : List Nat) (nx hd : Nat)
    (h : allocBlock m s v nx = Except.ok (some (ma, hd))) :
    hd ≠ 0 ∧ ∃ pool, ma =
      { m with
        pool := pool,
        blocks := Function.update m.blocks hd { suffix := s, value := v, next := nx } } := by
  unfold allocBlock at h
  rcases hp : m.pool.Alloc with e | ⟨pool, h0⟩
  · rw [hp] at h; simp at h
  · rw [hp] at h
    simp only at h
    split_ifs at h with hz
    · simp at h
    · simp only [Except.ok.injEq, Option.some.injEq, Prod.mk.injEq] at h
      obtain ⟨h1, h2⟩ := h
      subst h2
      exact ⟨hz, pool, h1.symm⟩

/-- A displacement of `fuel` steps from slot `idx` keeps the number of buckets and
every slot that is `fuel` steps or more ahead of `idx`. -/
theorem displace_frame (n : Nat) :
    ∀ (fuel : Nat) (bs : List Bucket) (inc : Bucket) (idx d : Nat),
      bs.length = n → idx < n →
      (displace n fuel bs inc idx d).1.length = n ∧
      ∀ j, j < n → fuel ≤ offsetFrom n idx j → (displace n fuel bs inc idx d).1[j]? = bs[j]? := by
  intro fuel
  induction fuel with
  | zero => intro bs inc idx d hn _; exact ⟨hn, fun _ _ _ => rfl⟩
  | succ fuel ih =>
    intro bs inc idx d hn hi
    have hlt : idx < bs.length := by omega
    rw [displace, List.getElem?_eq_getElem hlt]
    simp only
    split_ifs with he hr
    · refine ⟨by rw [List.length_set]; exact hn, fun j hj ho => ?_⟩
      have hne := (offsetFrom_next n idx j fuel hi hj ho).1
      simp only [List.getElem?_set_ne hne]
    · obtain ⟨hl, hf⟩ := ih (bs.set idx inc) bs[idx] ((idx + 1) % n)
        (probeDist n bs[idx] idx + 1) (by rw [List.length_set]; exact hn) (next_lt n idx hi)
      refine ⟨hl, fun j hj ho => ?_⟩
      obtain ⟨hne, ho1⟩ := offsetFrom_next n idx j fuel hi hj ho
      rw [hf j hj ho1, List.getElem?_set_ne hne]
    · obtain ⟨hl, hf⟩ := ih bs inc ((idx + 1) % n) (d + 1) hn (next_lt n idx hi)
      refine ⟨hl, fun j hj ho => ?_⟩
      obtain ⟨_, ho1⟩ := offsetFrom_next n idx j fuel hi hj ho
      exact hf j hj ho1

/-- At a slot whose chain holds the key, `Put` overwrites the value and `Get` then
reads it. -/
theorem putLoop_hit (p : Nat) (s : List Nat) (fuel : Nat) (m : Map) (idx d : Nat) (b : Bucket)
    (h : Nat) (hb : m.buckets[idx]? = some b) (hh : b.handle ≠ 0) (hp : b.KeyPrefix = p)
    (hf : findInChain m.blocks s (chainBound m) b.handle = some (some h)) (v2 : List Nat) :
    ∃ m2, putLoop p s v2 (fuel + 1) m idx d = some (Except.ok (m2, PutResult.PRValueUpdated)) ∧
      m2.buckets = m.buckets ∧ m2.pool = m.pool ∧ m2.nUsed = m.nUsed ∧
      m2.maxOccupied = m.maxOccupied ∧
      getLoop p s (fuel + 1) m2 idx d = some (Except.ok (some v2)) := by
  refine ⟨{ m with blocks := Function.update m.blocks h { m.blocks h with value := v2 } },
    ?_, rfl, rfl, rfl, rfl, ?_⟩
  · rw [putLoop, hb]
    simp only [hh, hp, if_true, if_false, hf]
  · rw [getLoop]
    simp only [hb, hh, hp, if_true, if_false, chainBound, findInChain_update_value]
    rw [← chainBound, hf]
    simp only [Function.update_same]

theorem putLoop_placed (p : Nat) (s : List Nat) (fuel : Nat) (m : Map) (idx d hd : Nat)
    (hb : m.buckets[idx]? = some { KeyPrefix := p, handle := hd }) (hh : hd ≠ 0)
    (hs : (m.blocks hd).suffix = s) (v2 : List Nat) :
    ∃ m2, putLoop p s v2 (fuel + 1) m idx d = some (Except.ok (m2, PutResult.PRValueUpdated)) ∧
      m2.buckets = m.buckets ∧ m2.pool = m.pool ∧ m2.nUsed = m.nUsed ∧
      m2.maxOccupied = m.maxOccupied ∧
      getLoop p s (fuel + 1) m2 idx d = some (Except.ok (some v2)) :=
  putLoop_hit p s fuel m idx d _ hd hb hh rfl (findInChain_head _ _ _ _ hh hs) v2

/-- The walk of a `Put` that stored its pair is followed again by the next `Put` of
the same key, which finds the pair and overwrites its value, and by the `Get`
after it: the first `Put` changes no slot that the walk has passed. -/
theorem putLoop_twice (p : Nat) (s v1 : List Nat) :
    ∀ (fuel : Nat) (m : Map) (idx d : Nat) (m1 : Map) (r1 : PutResult),
      fuel ≤ m.buckets.length → idx < m.buckets.length →
      putLoop p s v1 fuel m idx d = some (Except.ok (m1, r1)) → r1 ≠ PutResult.PRFull →
      m1.buckets.length = m.buckets.length ∧ m1.maxOccupied = m.maxOccupied ∧
      (∀ j, j < m.buckets.length → fuel ≤ offsetFrom m.buckets.length idx j →
        m1.buckets[j]? = m.buckets[j]?) ∧
      ∀ v2, ∃ m2,
        putLoop p s v2 fuel m1 idx d = some (Except.ok (m2, PutResult.PRValueUpdated)) ∧
        m2.buckets = m1.buckets ∧ m2.pool = m1.pool ∧ m2.nUsed = m1.nUsed ∧
        m2.maxOccupied = m1.maxOccupied ∧
        getLoop p s fuel m2 idx d = some (Except.ok (some v2)) := by
  intro fuel
  induction fuel with
  | zero =>
    intro m idx d m1 r1 _ _ h hr
    simp only [putLoop, Option.some.injEq, Except.ok.injEq, Prod.mk.injEq] at h
    exact absurd h.2.symm hr
  | succ fuel ih =>
    intro m idx d m1 r1 hfuel hi h hr
    have hother : m.buckets[idx]? = some (m.buckets[idx]) := List.getElem?_eq_getElem hi
    generalize m.buckets[idx] = other at hother
    rw [putLoop, hother] at h
    simp only at h
    have hframe : ∀ (bs : List Bucket), bs.length = m.buckets.length →
        (∀ j, j < m.buckets.length → j ≠ idx → bs[j]? = m.buckets[j]?) →
        ∀ j, j < m.buckets.length → fuel + 1 ≤ offsetFrom m.buckets.length idx j →
          bs[j]? = m.buckets[j]? := by
      intro bs _ hbs j hj ho
      exact hbs j hj (offsetFrom_next _ idx j fuel hi hj ho).1.symm
    by_cases he : other.handle = 0
    · -- an empty slot: the pair is placed here
      simp only [he, if_true] at h
      rcases ha : allocBlock m s v1 0 with e | (_ | ⟨ma, hd⟩)
      · rw [ha] at h; simp at h
      · rw [ha] at h
        simp only [Option.some.injEq, Except.ok.injEq, Prod.mk.injEq] at h
        exact absurd h.2.symm hr
      · rw [ha] at h
        simp only [Option.some.injEq, Except.ok.injEq, Prod.mk.injEq] at h
        obtain ⟨hz, pool, hma⟩ := allocBlock_ok m ma s v1 0 hd ha
        obtain ⟨hm1, -⟩ := h
        subst hm1
        subst hma
        refine ⟨by simp, rfl, ?_, fun v2 => ?_⟩
        · intro j hj ho
          have hne := (offsetFrom_next _ idx j fuel hi hj ho).1
          simp only [List.getElem?_set_ne hne]
        · exact putLoop_placed p s fuel _ idx d hd
            (by simp only [List.getElem?_set_self hi]) hz (by simp only [Function.update_same]) v2
    · simp only [he, if_false] at h
      by_cases hp : other.KeyPrefix = p
      · simp only [hp, if_true] at h
        rcases hc : findInChain m.blocks s (chainBound m) other.handle with _ | (_ | hf)
        · rw [hc] at h; simp at h
        · -- the key is new: a block is added at the head of the chain
          rw [hc] at h
          simp only at h
          rcases ha : allocBlock m s v1 other.handle with e | (_ | ⟨ma, hd⟩)
          · rw [ha] at h; simp at h
          · rw [ha] at h
            simp only [Option.some.injEq, Except.ok.injEq, Prod.mk.injEq] at h
            exact absurd h.2.symm hr
          · rw [ha] at h
            simp only [Option.some.injEq, Except.ok.injEq, Prod.mk.injEq] at h
            obtain ⟨hz, pool, hma⟩ := allocBlock_ok m ma s v1 _ hd ha
            obtain ⟨hm1, -⟩ := h
            subst hm1
            subst hma
            refine ⟨by simp, rfl, ?_, fun v2 => ?_⟩
            · intro j hj ho
              have hne := (offsetFrom_next _ idx j fuel hi hj ho).1
              simp only [List.getElem?_set_ne hne]
            · exact putLoop_placed p s fuel _ idx d hd
                (by simp only [List.getElem?_set_self hi]) hz
                (by simp only [Function.update_same]) v2
        · -- the key is stored: its value is overwritten
          rw [hc] at h
          simp only [Option.some.injEq, Except.ok.injEq, Prod.mk.injEq] at h
          obtain ⟨hm1, -⟩ := h
          subst hm1
          refine ⟨rfl, rfl, fun j _ _ => rfl, fun v2 => ?_⟩
          have hc1 : findInChain (Function.update m.blocks hf { (m.blocks hf) with value := v1 }) s
              (chainBound m) other.handle = some (some hf) := by
            rw [findInChain_update_value]; exact hc
          exact putLoop_hit p s fuel
            { m with blocks := Function.update m.blocks hf { (m.blocks hf) with value := v1 } }
            idx d other hf hother he hp hc1 v2
      · simp only [hp, if_false] at h
        by_cases hrob : probeDist m.buckets.length other idx < d
        · -- the occupant is evicted
          simp only [hrob, if_true] at h
          rcases ha : allocBlock m s v1 0 with e | (_ | ⟨ma, hd⟩)
          · rw [ha] at h; simp at h
          · rw [ha] at h
            simp only [Option.some.injEq, Except.ok.injEq, Prod.mk.injEq] at h
            exact absurd h.2.symm hr
          · rw [ha] at h
            simp only at h
            obtain ⟨hz, pool, hma⟩ := allocBlock_ok m ma s v1 0 hd ha
            subst hma
            simp only at h
            obtain ⟨hl, hfr⟩ := displace_frame m.buckets.length fuel
              (m.buckets.set idx { KeyPrefix := p, handle := hd }) other
              ((idx + 1) % m.buckets.length) (probeDist m.buckets.length other idx + 1)
              (by rw [List.length_set]) (next_lt _ idx hi)
            rcases hdis : displace m.buckets.length fuel
                (m.buckets.set idx { KeyPrefix := p, handle := hd }) other
                ((idx + 1) % m.buckets.length)
                (probeDist m.buckets.length other idx + 1) with ⟨bs, _ | _⟩
            · rw [hdis] at h
              simp only [Option.some.injEq, Except.ok.injEq, Prod.mk.injEq] at h
              exact absurd h.2.symm hr
            · rw [hdis] at h hl hfr
              simp only [Option.some.injEq, Except.ok.injEq, Prod.mk.injEq] at h
              obtain ⟨hm1, -⟩ := h
              subst hm1
              refine ⟨hl, rfl, ?_, fun v2 => ?_⟩
              · intro j hj ho
                obtain ⟨hne, ho1⟩ := offsetFrom_next _ idx j fuel hi hj ho
                show bs[j]? = m.buckets[j]?
                rw [hfr j hj ho1, List.getElem?_set_ne hne]
              · refine putLoop_placed p s fuel _ idx d hd ?_ hz
                  (by simp only [Function.update_same]) v2
                show bs[idx]? = _
                rw [hfr idx hi (by rw [offsetFrom_self_next _ idx hi]; omega),
                  List.getElem?_set_self hi]
        · -- the walk goes on
          simp only [hrob, if_false] at h
          obtain ⟨hl, hmax, hfr, hput⟩ :=
            ih m ((idx + 1) % m.buckets.length) (d + 1) m1 r1 (by omega) (next_lt _ idx hi) h hr
          have hsame : m1.buckets[idx]? = some other := by
            rw [hfr idx hi (by rw [offsetFrom_self_next _ idx hi]; omega)]
            exact hother
          refine ⟨hl, hmax, ?_, fun v2 => ?_⟩
          · intro j hj ho
            exact hfr j hj (offsetFrom_next _ idx j fuel hi hj ho).2
          · obtain ⟨m2, h2, hb2, hp2, hn2, hm2, hg2⟩ := hput v2
            refine ⟨m2, ?_, hb2, hp2, hn2, hm2, ?_⟩
            · rw [putLoop, hsame]
              simp only [he, hp, hl, hrob, if_false]
              exact h2
            · rw [getLoop, hb2, hsame]
              simp only [he, hp, hl, hrob, if_false]
              exact hg2

/-- A full map is read-only: every `Put` returns `PRFull` and leaves the map as it
is. -/
theorem Put_of_full_map (m : Map) (k v : List Nat) (h : m.nUsed ≥ m.maxOccupied) :
    Put m k v = some (Except.ok (m, PutResult.PRFull)) := by
  unfold Put
  rw [if_pos h]

/-- The model satisfies the assertions of `TestInternals` on `keyPrefixAsUint32`,
`index`, `isEmpty` and `probeDist`. -/
theorem model_TestInternals :
    keyPrefixAsUint32 (util.MakeSeq KeySize 1) = 0x04030201 ∧
    (∃ m : Map, NewMap 100 13 = Except.ok m ∧
      index m.buckets.length 0 = 0 ∧ index m.buckets.length 13 = 13 ∧
      index m.buckets.length (m.buckets.length - 1) = m.buckets.length - 1 ∧
      index m.buckets.length m.buckets.length = 0 ∧
      index m.buckets.length (m.buckets.length + 1) = 1 ∧
      Bucket.isEmpty { KeyPrefix := 3, handle := 0 } = true ∧
      probeDist m.buckets.length { KeyPrefix := 3, handle := 0 } 3 = 0 ∧
      probeDist m.buckets.length { KeyPrefix := 3, handle := 0 } 11 = 8 ∧
      probeDist m.buckets.length { KeyPrefix := 3, handle := 0 } (m.buckets.length - 1) =
        m.buckets.length - 1 - 3 ∧
      probeDist m.buckets.length { KeyPrefix := 3, handle := 0 } 0 = m.buckets.length - 1 - 2 ∧
      probeDist m.buckets.length { KeyPrefix := 3, handle := 0 } 2 = m.buckets.length - 1) := by
  refine ⟨by decide, _, rfl, ?_⟩
  decide

/-- The model satisfies the assertions of `TestTiny`: 12 buckets for a capacity of
10, ten calls of `Put` that return `PRKeyWasNew`, `PRFull` for the eleventh key,
every value read back, and no free block left in the pool. -/
theorem model_TestTiny :
    ∃ m m10 : Map, NewMap 10 13 = Except.ok m ∧
      m.maxOccupied = 10 ∧ m.buckets.length = 12 ∧ m.valueSize = 13 ∧
      Get m (int2key 99) = some (Except.ok none) ∧
      putAll m ([67, 38, 41, 75, 77, 27, 50, 3, 19, 91].map
          (fun ki => (int2key ki, util.MakeSeq 13 (ki + 3)))) =
        some (Except.ok (m10, List.replicate 10 PutResult.PRKeyWasNew)) ∧
      (∃ m11 : Map, Put m10 (int2key 99) (List.replicate 13 0) =
        some (Except.ok (m11, PutResult.PRFull))) ∧
      (∀ ki ∈ [67, 38, 41, 75, 77, 27, 50, 3, 19, 91],
        Get m10 (int2key ki) = some (Except.ok (some (util.MakeSeq 13 (ki + 3))))) ∧
      m10.pool.NumFree = Except.ok 0 ∧
      Get m10 (int2key 99) = some (Except.ok none) := by
  refine ⟨_, _, rfl, rfl, rfl, rfl, rfl, rfl, ⟨_, rfl⟩, ?_, rfl, rfl⟩
  decide

end robin32

/-! ## Claims on the map of robin32 -/

namespace robin32

/-- C21 (counterexample): on the map of `NewMap(1, 1)` the first `Put` of the key
`MakeSeq(32, 1)` returns `PRKeyWasNew` and fills the map (`nUsed = maxOccupied =
1`); the following `Put` of the same key returns `PRFull`, not `PRValueUpdated`,
and `Get` still gives the first value. -/
theorem Put_stored_key_of_full_map :
    ∃ m m1 m2 : Map, NewMap 1 1 = Except.ok m ∧
      Put m (util.MakeSeq 32 1) [1] = some (Except.ok (m1, PutResult.PRKeyWasNew)) ∧
      m1.nUsed = m1.maxOccupied ∧
      Put m1 (util.MakeSeq 32 1) [2] = some (Except.ok (m2, PutResult.PRFull)) ∧
      Get m2 (util.MakeSeq 32 1) = some (Except.ok (some [1])) :=
  ⟨_, _, _, rfl, rfl, rfl, rfl, rfl⟩

/-- C21 (amended): for every state `m` of a `robin32` map, every key `k` and all
values `v1`, `v2`: if `Put(k, v1)` does not return `PRFull` and the map is not
full after it (`nUsed < maxOccupied`), then the following `Put(k, v2)` returns
`PRValueUpdated`, leaves the pool as it is (`pool.NumFree()` is unchanged), and
`Get(k, buf)` then returns true with `buf = v2`. -/
theorem Put_same_key_twice (m m1 : Map) (k v1 v2 : List Nat) (r1 : PutResult)
    (h1 : Put m k v1 = some (Except.ok (m1, r1))) (hr : r1 ≠ PutResult.PRFull)
    (hroom : m1.nUsed < m1.maxOccupied) :
    ∃ m2 : Map, Put m1 k v2 = some (Except.ok (m2, PutResult.PRValueUpdated)) ∧
      m2.pool = m1.pool ∧ m2.pool.NumFree = m1.pool.NumFree ∧
      Get m2 k = some (Except.ok (some v2)) := by
  unfold Put at h1
  split_ifs at h1 with hfull hlen
  · simp only [Option.some.injEq, Except.ok.injEq, Prod.mk.injEq] at h1
    exact absurd h1.2.symm hr
  · simp at h1
  · have hpos : 0 < m.buckets.length := Nat.pos_of_ne_zero hlen
    obtain ⟨hl, -, -, hput⟩ := putLoop_twice _ _ v1 _ m _ 0 m1 r1 (Nat.le_refl _)
      (Nat.mod_lt _ hpos) h1 hr
    obtain ⟨m2, h2, hb2, hp2, -, -, hg2⟩ := hput v2
    refine ⟨m2, ?_, hp2, by rw [hp2], ?_⟩
    · unfold Put
      rw [if_neg (by omega), if_neg (by omega), hl]
      exact h2
    · unfold Get
      rw [hb2, if_neg (by omega), hl]
      exact hg2

theorem Put_same_key_twice_witness :
    ∃ m m1 : Map, NewMap 2 1 = Except.ok m ∧
      Put m (util.MakeSeq 32 1) [1] = some (Except.ok (m1, PutResult.PRKeyWasNew)) ∧
      PutResult.PRKeyWasNew ≠ PutResult.PRFull ∧ m1.nUsed < m1.maxOccupied ∧
      ∃ m2 : Map, Put m1 (util.MakeSeq 32 1) [2] =
          some (Except.ok (m2, PutResult.PRValueUpdated)) ∧
        m2.pool = m1.pool ∧ m2.pool.NumFree = m1.pool.NumFree ∧
        Get m2 (util.MakeSeq 32 1) = some (Except.ok (some [2])) := by
  have h : ∃ m m1 : Map, NewMap 2 1 = Except.ok m ∧
      Put m (util.MakeSeq 32 1) [1] = some (Except.ok (m1, PutResult.PRKeyWasNew)) ∧
      m1.nUsed < m1.maxOccupied := by
    refine ⟨_, _, rfl, rfl, ?_⟩
    decide
  obtain ⟨m, m1, hm, h1, hroom⟩ := h
  exact ⟨m, m1, hm, h1, by decide, hroom,
    Put_same_key_twice m m1 (util.MakeSeq 32 1) [1] [2] PutResult.PRKeyWasNew h1 (by decide)
      hroom⟩

end robin32
